import Mathlib

/-!
# Helper map operators of the event engine

A shallow embedding of `src/engine/source/builder/builders/opBuilderHelperMap.cpp`
(string, integer and field helpers of the rule engine), of the event handle
`src/engine/source/base/eventHandler.hpp`, and of the functions of the macOS log reader
`src/logcollector/read_oslog.c`.

Conventions of the embedding.

* A C++ `std::string` is a `String`; a `char` is a `Char`.  `size()` counts bytes, so it is
  `String.utf8ByteSize`.
* A `const char*` handed to a `std::string` or to a `rapidjson::Value` is read up to its first
  NUL character: `cstr`.
* A `rapidjson::Value` is a `Json`; `IsInt()` holds for integers in the signed 32-bit range.
* `int` sums, differences and products are reduced into the signed 32-bit range (`wrap32`), as
  the compiled code computes them.  The one quotient that does not fit an `int`,
  `INT_MIN / -1`, is undefined behaviour that the division instruction answers with the fatal
  signal SIGFPE: `Exception.fatal_signal`.
* A C++ function that may throw returns `Except Exception _`.
* A lifter `o.map(f)` is represented by the function `f` applied to one event; the calls of the
  tracer made during one application are returned as a list of messages, which is what a
  tracer that returns from its calls receives.  The two lifters that call the tracer are also
  given with the tracer as a parameter that may throw (`concatLifterTraced`,
  `deleteFieldLifterTraced`); the lifters of the other builders do not capture the tracer
  their builder receives.
* `EventHandler` is the object of an event inside the pipeline, whose pointer holds a document;
  `EventHandlerObject` is the class with its pointer member as declared, which may be empty.
* In the C functions of the log reader a `char` buffer is the `String` it holds, read up to its
  first NUL; a function that indexes the buffer works on the array of that string and its
  terminator (`arrayOf`) and returns a `Fault` for an index outside it.  A `char *` that may be
  NULL is an `Option String`.  Where the code measures or copies a number of bytes
  (`w_oslog_trim_full_timestamp`), the array is the UTF-8 bytes of the string (`byteArrayOf`).
-/

namespace Wazuh

/-! ## Values -/

/-- A `rapidjson::Value`: tree of typed nodes. -/
inductive Json where
  | null
  | bool (b : Bool)
  | int (n : Int)
  | str (s : String)
  | arr (xs : List Json)
  | obj (kvs : List (String × Json))

/-- The exceptions the helpers raise; `assertion_failure` is a failed `RAPIDJSON_ASSERT`, and
`fatal_signal` is no C++ exception but the end of the process by a signal. -/
inductive Exception where
  | runtime_error (what : String)
  | logic_error (what : String)
  | invalid_argument (what : String)
  | out_of_range (what : String)
  | bad_optional_access
  | assertion_failure (what : String)
  | fatal_signal (name : String)
  deriving DecidableEq, Repr

/-- The text `ex.what()` of an exception. -/
def Exception.what : Exception → String
  | .runtime_error w => w
  | .logic_error w => w
  | .invalid_argument w => w
  | .out_of_range w => w
  | .bad_optional_access => "bad optional access"
  | .assertion_failure w => w
  | .fatal_signal n => n

def INT_MIN : Int := -2147483648

def INT_MAX : Int := 2147483647

/-- Reduction of an exact integer into the range of a signed 32-bit `int`. -/
def wrap32 (n : Int) : Int := (n + 2147483648) % 4294967296 - 2147483648

/-- The test `Value::IsString()`. -/
def Json.IsString : Json → Bool
  | .str _ => true
  | _ => false

/-- The test `Value::IsInt()`: an integer number that fits a signed 32-bit `int`. -/
def Json.IsInt : Json → Bool
  | .int n => decide (INT_MIN ≤ n) && decide (n ≤ INT_MAX)
  | _ => false

/-! ## Strings -/

/-- The `std::string` built from a `const char*` (`std::string {v.GetString()}`), and the
string value built from `s.c_str()`: the characters before the first NUL. -/
def cstr (s : String) : String := ⟨s.data.takeWhile (fun c => c != '\x00')⟩

/-- The access `std::string::operator[](0)`: the first character, NUL for the empty string. -/
def front0 (s : String) : Char := s.data.headD '\x00'

/-- The call `std::string::substr(pos)` for `pos <= size()`. -/
def substr (s : String) (pos : Nat) : String := ⟨s.data.drop pos⟩

/-- Modelled from the spec: the reference sigil `REFERENCE_ANCHOR` (`syntax.hpp` is not among
the sources), the `$` that marks a parameter as a field reference. -/
def REFERENCE_ANCHOR : Char := '$'

/-- Modelled from the spec: worker of `split`; `cur` holds the characters of the current token,
reversed. -/
def splitAux (delim : Char) : List Char → List Char → List String
  | [], cur => if cur.isEmpty then [] else [⟨cur.reverse⟩]
  | c :: cs, cur =>
    if c = delim then ⟨cur.reverse⟩ :: splitAux delim cs []
    else splitAux delim cs (c :: cur)

/-- Modelled from the spec: `utils::string::split` (`utils/stringUtils.hpp` is not among the
sources).  The expression is cut at every delimiter; the text after the last delimiter is a
token only when it is not empty, as the forms `+i_calc/op/val/` and `+r_ext/_field/regexp/`
quoted by the builders require. -/
def split (s : String) (delim : Char) : List String := splitAux delim s.data []

/-- Modelled from the spec: `json::formatJsonPath` (`json.hpp` is not among the sources).
The dotted notation is rewritten into the addressing scheme of the document, the pointer
text `/a/b` for `a.b`. -/
def formatJsonPath (s : String) : String :=
  ⟨'/' :: s.data.map (fun c => if c = '.' then '/' else c)⟩

/-- Modelled from the spec: worker of `pointerTokens`; every `/` ends a token, the last token
may be empty. -/
def tokensAux : List Char → List Char → List String
  | [], cur => [⟨cur.reverse⟩]
  | c :: cs, cur =>
    if c = '/' then ⟨cur.reverse⟩ :: tokensAux cs []
    else tokensAux cs (c :: cur)

/-- Modelled from the spec: the addressing scheme of `json::Document` (`json.hpp` is not among
the sources; the tests address documents as `/normalize/0/map`).  The tokens of a path text:
none for the empty text (the root), one per `/`-introduced segment otherwise; a text that does
not start with `/` is no path. -/
def pointerTokens (p : String) : Option (List String) :=
  match p.data with
  | [] => some []
  | c :: cs => if c = '/' then some (tokensAux cs []) else none

/-- Modelled from the spec: the array index a path token denotes in `json::Document`, decimal
digits without leading zero. -/
def tokenIndex (t : String) : Option Nat :=
  match t.data with
  | [] => none
  | c :: cs =>
    if (c :: cs).all Char.isDigit && (c != '0' || cs.isEmpty) then
      some ((c :: cs).foldl (fun a d => 10 * a + (d.toNat - 48)) 0)
    else none

/-! ## Document -/

/-- Modelled from the spec: member lookup of `json::Document`, the first member of an object
with the given name. -/
def findMember (k : String) : List (String × Json) → Option Json
  | [] => none
  | (k', v) :: rest => if k' = k then some v else findMember k rest

/-- Modelled from the spec: member update of `json::Document`, overwriting the value of the
first member with the given name. -/
def replaceMember (k : String) (v : Json) : List (String × Json) → List (String × Json)
  | [] => []
  | (k', v') :: rest => if k' = k then (k', v) :: rest else (k', v') :: replaceMember k v rest

/-- Modelled from the spec: the intermediate objects `json::Document::set` creates, one new
object per remaining token around the value `v`. -/
def nest : List String → Json → Json
  | [], v => v
  | t :: ts, v => .obj [(t, nest ts v)]

/-- Modelled from the spec: resolution of a token list in `json::Document`; `none` when a
segment is absent. -/
def Json.getPath : Json → List String → Option Json
  | v, [] => some v
  | .obj kvs, t :: ts =>
    match findMember t kvs with
    | some c => Json.getPath c ts
    | none => none
  | .arr xs, t :: ts =>
    match tokenIndex t with
    | some i =>
      match xs[i]? with
      | some c => Json.getPath c ts
      | none => none
    | none => none
  | _, _ :: _ => none

/-- Modelled from the spec: write at a token list in `json::Document`.  An existing value is
overwritten, a missing member of an object is created together with the intermediate objects;
`none` when the document rejects the path (it runs through a value that is neither an object nor
an array holding the index). -/
def Json.setPath : Json → List String → Json → Option Json
  | _, [], v => some v
  | .obj kvs, t :: ts, v =>
    match findMember t kvs with
    | some c =>
      match Json.setPath c ts v with
      | some c' => some (.obj (replaceMember t c' kvs))
      | none => none
    | none => some (.obj (kvs ++ [(t, nest ts v)]))
  | .arr xs, t :: ts, v =>
    match tokenIndex t with
    | some i =>
      match xs[i]? with
      | some c =>
        match Json.setPath c ts v with
        | some c' => some (.arr (xs.set i c'))
        | none => none
      | none => none
    | none => none
  | _, _ :: _, _ => none

/-- Modelled from the spec: `json::Document::get` (`json.hpp` is not among the sources).
`get(path) -> value or FieldError(NotFound)`: `none` stands for the exception. -/
def Document.get (d : Json) (path : String) : Option Json :=
  match pointerTokens path with
  | some ts => d.getPath ts
  | none => none

/-- Modelled from the spec: `json::Document::set` (`json.hpp` is not among the sources).
`set(path, value) -> bool` creates or overwrites the field, creating intermediate objects as
needed, and tells whether the write succeeded; a rejected write leaves the document as it
was. -/
def Document.set (d : Json) (path : String) (v : Json) : Bool × Json :=
  match pointerTokens path with
  | some ts =>
    match d.setPath ts v with
    | some d' => (true, d')
    | none => (false, d)
  | none => (false, d)

/-- Modelled from the spec: removal of the members of an object that bear the given name. -/
def eraseMember (k : String) : List (String × Json) → List (String × Json)
  | [] => []
  | (k', v) :: rest => if k' = k then eraseMember k rest else (k', v) :: eraseMember k rest

/-- Modelled from the spec: removal at a token list in `json::Document`.  The member of an
object that the last token names is removed with all that lies below it; `none` when nothing
is removed (the path does not resolve, or is the root).  The spec speaks of the removal of a
field and of a member and does not say what the removal of an element of an array would do to
the elements after it: for a path that ends at an element of an array the model removes
nothing. -/
def Json.erasePath : Json → List String → Option Json
  | _, [] => none
  | .obj kvs, t :: ts =>
    match findMember t kvs with
    | some c =>
      if ts.isEmpty then some (.obj (eraseMember t kvs))
      else
        match Json.erasePath c ts with
        | some c' => some (.obj (replaceMember t c' kvs))
        | none => none
    | none => none
  | .arr xs, t :: ts =>
    if ts.isEmpty then none
    else
      match tokenIndex t with
      | some i =>
        match xs[i]? with
        | some c =>
          match Json.erasePath c ts with
          | some c' => some (.arr (xs.set i c'))
          | none => none
        | none => none
      | none => none
  | _, _ :: _ => none

/-- Modelled from the spec: `json::Document::erase` (`json.hpp` is not among the sources).
`erase(path) -> bool` removes the field if present and tells whether something was removed; a
text that is no path raises, as for `get`. -/
def Document.erase (d : Json) (path : String) : Except Exception (Bool × Json) :=
  match pointerTokens path with
  | some ts =>
    match d.erasePath ts with
    | some d' => .ok (true, d')
    | none => .ok (false, d)
  | none => .error (.invalid_argument "Invalid path")

/-! ## Event -/

/-- The class `base::EventHandler`; a `base::Event` is a shared handle to one of these. -/
structure EventHandler where
  m_isDecoded : Bool
  event : Json

abbrev Event := EventHandler

/-- The method `EventHandler::getEventValue`. -/
def EventHandler.getEventValue (e : Event) (key : String) : Option Json :=
  Document.get e.event key

/-- The call `e->getEvent()->set(path, v)`, whose boolean result the helpers drop. -/
def EventHandler.setValue (e : Event) (path : String) (v : Json) : Event :=
  { e with event := (Document.set e.event path v).2 }

/-- One rule member, `def.MemberBegin()`: the target field path and the operator expression. -/
structure DocumentValue where
  name : String
  value : Json

/-- The function a lifter maps over the stream: the event it returns and the messages it hands
to the tracer, or the exception it raises. -/
abbrev Lifter := Event → Except Exception (Event × List String)

/-- The class `base::EventHandler` with the member `event` as it is declared, a
`std::shared_ptr<json::Document>`: `none` is the empty pointer.  The structure `EventHandler`
above is the object of an event inside the pipeline, whose pointer holds a document. -/
structure EventHandlerObject where
  m_isDecoded : Bool
  event : Option Json

/-- The constructor `EventHandler::EventHandler(event)`: the pointer is stored as it is
received (`// TODO Throw exception if shared_ptr is empty`), the flag starts as false. -/
def EventHandlerObject.EventHandler (event : Option Json) : EventHandlerObject :=
  { m_isDecoded := false, event := event }

/-- The method `EventHandler::getEvent`: a copy of the pointer. -/
def EventHandlerObject.getEvent (h : EventHandlerObject) : Option Json := h.event

/-- The method `EventHandler::isDecoded`. -/
def EventHandlerObject.isDecoded (h : EventHandlerObject) : Bool := h.m_isDecoded

/-- The method `EventHandler::setDecoded`. -/
def EventHandlerObject.setDecoded (h : EventHandlerObject) : EventHandlerObject :=
  { h with m_isDecoded := true }

/-- The method `EventHandler::setEventValue`, `event->set(key, value)`: the boolean it returns
and the object after the call.  The call through an empty pointer is undefined; it is taken as
the end of the process by the signal SIGSEGV. -/
def EventHandlerObject.setEventValue (h : EventHandlerObject) (key : String) (value : Json) :
    Except Exception (Bool × EventHandlerObject) :=
  match h.event with
  | some d =>
    .ok ((Document.set d key value).1, { h with event := some (Document.set d key value).2 })
  | none => .error (.fatal_signal "SIGSEGV")

/-- The method `EventHandler::getEventValue`, `getEvent()->get(key)`, as a method of the class
as declared. -/
def EventHandlerObject.getEventValue (h : EventHandlerObject) (key : String) :
    Except Exception Json :=
  match h.getEvent with
  | some d =>
    match Document.get d key with
    | some v => .ok v
    | none => .error (.invalid_argument "Invalid path")
  | none => .error (.fatal_signal "SIGSEGV")

/-- The method `EventHandler::getEventDocAllocator`, `getEvent()->m_doc.GetAllocator()`: the
allocator is a service of the document library and has no part in the model, so the call
returns nothing; it raises through an empty pointer. -/
def EventHandlerObject.getEventDocAllocator (h : EventHandlerObject) : Except Exception Unit :=
  match h.getEvent with
  | some _ => .ok ()
  | none => .error (.fatal_signal "SIGSEGV")

/-! ## Library functions -/

/-- The function `::toupper` in the "C" locale. -/
def toupper (c : Char) : Char := c.toUpper

/-- The function `::tolower` in the "C" locale. -/
def tolower (c : Char) : Char := c.toLower

/-- The call `std::transform(s.begin(), s.end(), s.begin(), f)`. -/
def transform (f : Char → Char) (s : String) : String := ⟨s.data.map f⟩

/-- The function `isspace` in the "C" locale. -/
def isspace (c : Char) : Bool :=
  c = ' ' || c = '\t' || c = '\n' || c = '\x0b' || c = '\x0c' || c = '\r'

/-- The value of a run of decimal digits. -/
def digitsValue (ds : List Char) : Nat := ds.foldl (fun a d => 10 * a + (d.toNat - 48)) 0

/-- The call `std::stoi(s)` in base 10: leading white space, an optional sign, then the longest run of
digits; what follows the digits is ignored. -/
def stoi (s : String) : Except Exception Int :=
  let body := s.data.dropWhile isspace
  let signed : Bool × List Char :=
    match body with
    | '-' :: r => (true, r)
    | '+' :: r => (false, r)
    | _ => (false, body)
  let ds := signed.2.takeWhile Char.isDigit
  if ds.isEmpty then .error (.invalid_argument "stoi")
  else
    let v : Int := if signed.1 then -(digitsValue ds : Int) else (digitsValue ds : Int)
    if v < INT_MIN ∨ INT_MAX < v then .error (.out_of_range "stoi") else .ok v

/-- The call `s.find_first_not_of(chars)`: the first position holding a character that is not in
`chars`; `none` is `npos`. -/
def find_first_not_of (chars : String) : List Char → Option Nat
  | [] => none
  | x :: xs =>
    if chars.data.contains x then (find_first_not_of chars xs).map (fun i => i + 1)
    else some 0

/-- The call `s.find_last_not_of(chars)`: the last position holding a character that is not in `chars`;
`none` is `npos`. -/
def find_last_not_of (chars : String) (s : List Char) : Option Nat :=
  (find_first_not_of chars s.reverse).map (fun i => s.length - 1 - i)

/-- The `size_t` value `pos + 1`: `npos + 1` wraps around to 0. -/
def succPos : Option Nat → Nat
  | none => 0
  | some i => i + 1

/-- The call `s.erase(pos, count)`; the count `none` is `npos`. -/
def erase (s : String) (pos : Nat) (count : Option Nat) : Except Exception String :=
  if s.data.length < pos then .error (.out_of_range "basic_string::erase")
  else
    match count with
    | none => .ok ⟨s.data.take pos⟩
    | some n => .ok ⟨s.data.take pos ++ s.data.drop (pos + n)⟩

/-! ## String and integer transformations -/

/-- The function `opBuilderHelperStringTransformation`. -/
def opBuilderHelperStringTransformation (field : String) (op : Char) (e : Event)
    (refValue : Option String) (value : Option String) : Except Exception Event :=
  let resolved : Option (Option String) :=
    match refValue with
    | some ref =>
      match e.getEventValue ref with
      | some (.str s) => some (some (cstr s))
      | _ => none
    | none => some value
  match resolved with
  | none => .ok e
  | some none => .error .bad_optional_access
  | some (some v) =>
    if op = 'u' then .ok (e.setValue field (.str (cstr (transform toupper v))))
    else if op = 'l' then .ok (e.setValue field (.str (cstr (transform tolower v))))
    else .error (.logic_error "Invalid string transformation operator")

/-- The arithmetic of `opBuilderHelperIntTransformation` on two `int`s: `.ok none` when the
function returns the event as it is, an error for the quotient `INT_MIN / -1`, which only the
test of a zero divisor precedes. -/
def intOperation (op : String) (a b : Int) : Except Exception (Option Int) :=
  if op = "sum" then .ok (some (wrap32 (a + b)))
  else if op = "sub" then .ok (some (wrap32 (a - b)))
  else if op = "mul" then .ok (some (wrap32 (a * b)))
  else if op = "div" then
    if b = 0 then .ok none
    else if a = INT_MIN ∧ b = -1 then .error (.fatal_signal "SIGFPE")
    else .ok (some (wrap32 (Int.tdiv a b)))
  else .ok none

/-- The function `opBuilderHelperIntTransformation`. -/
def opBuilderHelperIntTransformation (field : String) (op : String) (e : Event)
    (refValue : Option String) (value : Option Int) : Except Exception Event :=
  match e.getEventValue field with
  | some (.int a) =>
    if (Json.int a).IsInt then
      let resolved : Option (Option Int) :=
        match refValue with
        | some ref =>
          match e.getEventValue ref with
          | some (.int b) => if (Json.int b).IsInt then some (some b) else none
          | _ => none
        | none => some value
      match resolved with
      | none => .ok e
      | some none => .error .bad_optional_access
      | some (some b) =>
        match intOperation op a b with
        | .ok (some r) => .ok (e.setValue field (.int r))
        | .ok none => .ok e
        | .error ex => .error ex
    else .ok e
  | _ => .ok e

/-! ## Builders -/

/-- The source of a case transformation: `(refExpStr, expectedStr)`. -/
def sourceOf (p : String) : Option String × Option String :=
  if front0 p = REFERENCE_ANCHOR then (some (formatJsonPath (substr p 1)), none)
  else (none, some p)

/-- The function the s_up and s_lo lifters map over the stream. -/
def caseLifter (key : String) (op : Char) (refExpStr expectedStr : Option String) : Lifter :=
  fun e =>
    match opBuilderHelperStringTransformation key op e refExpStr expectedStr with
    | .ok e' => .ok (e', [])
    | .error ex => .error ex

/-- The function the i_calc lifter maps over the stream. -/
def intCalcLifter (field op : String) (refValue : Option String) (value : Option Int) :
    Lifter :=
  fun e =>
    match opBuilderHelperIntTransformation field op e refValue value with
    | .ok e' => .ok (e', [])
    | .error ex => .error ex

/-- The builder `opBuilderHelperStringUP` (`<field>: +s_up/<str>|$<ref>`). -/
def opBuilderHelperStringUP (d : DocumentValue) : Except Exception Lifter :=
  let key := formatJsonPath (cstr d.name)
  match d.value with
  | .str v =>
    match split (cstr v) '/' with
    | [_, p1] =>
      .ok (caseLifter key 'u' (sourceOf p1).1 (sourceOf p1).2)
    | _ => .error (.runtime_error "Invalid number of parameters for s_up operator")
  | _ => .error (.runtime_error "Invalid parameter type for s_up operator (str expected)")

/-- The builder `opBuilderHelperStringLO` (`<field>: +s_lo/<str>|$<ref>`). -/
def opBuilderHelperStringLO (d : DocumentValue) : Except Exception Lifter :=
  let key := formatJsonPath (cstr d.name)
  match d.value with
  | .str v =>
    match split (cstr v) '/' with
    | [_, p1] =>
      .ok (caseLifter key 'l' (sourceOf p1).1 (sourceOf p1).2)
    | _ => .error (.runtime_error "Invalid number of parameters for s_lo operator")
  | _ => .error (.runtime_error "Invalid parameter type for s_lo operator (str expected)")

/-- The trim type of `opBuilderHelperStringTrim`: NUL for an unknown mode. -/
def trimTypeOf (mode : String) : Char :=
  if mode = "begin" then 's'
  else if mode = "end" then 'e'
  else if mode = "both" then 'b'
  else '\x00'

/-- The `switch (trimType)` of the s_trim lifter. -/
def trimString (trimType : Char) (trimChar : String) (strToTrim : String) :
    Except Exception String :=
  if trimType = 's' then
    erase strToTrim 0 (find_first_not_of trimChar strToTrim.data)
  else if trimType = 'e' then
    erase strToTrim (succPos (find_last_not_of trimChar strToTrim.data)) none
  else if trimType = 'b' then
    match erase strToTrim 0 (find_first_not_of trimChar strToTrim.data) with
    | .ok s1 => erase s1 (succPos (find_last_not_of trimChar s1.data)) none
    | .error ex => .error ex
  else .error (.logic_error "Invalid trim type for s_trim operator")

/-- The function the s_trim lifter maps over the stream. -/
def trimLifter (field : String) (trimType : Char) (trimChar : String) : Lifter :=
  fun e =>
    match e.getEventValue field with
    | some (.str s) =>
      match trimString trimType trimChar (cstr s) with
      | .ok t => .ok (e.setValue field (.str (cstr t)), [])
      | .error ex => .error ex
    | _ => .ok (e, [])

/-- The builder `opBuilderHelperStringTrim` (`<field>: +s_trim/[begin | end | both]/char`). -/
def opBuilderHelperStringTrim (d : DocumentValue) : Except Exception Lifter :=
  let field := formatJsonPath (cstr d.name)
  match d.value with
  | .str v =>
    match split (cstr v) '/' with
    | [_, mode, trimChar] =>
      if trimTypeOf mode = '\x00' then
        .error (.runtime_error "Invalid trim type for s_trim operator")
      else if trimChar.utf8ByteSize ≠ 1 then
        .error (.runtime_error "Invalid trim char for s_trim operator")
      else .ok (trimLifter field (trimTypeOf mode) trimChar)
    | _ => .error (.runtime_error "Invalid number of parameters for s_trim operator")
  | _ => .error (.runtime_error "Invalid parameter type for s_trim operator (str expected)")

/-- The loop of the s_concat lifter over the segments: `.ok (some result)` when every segment
was appended, `.ok none` when a reference did not resolve to a string. -/
def concatLoop (e : Event) : List String → String → Except Exception (Option String)
  | [], result => .ok (some result)
  | parameter :: rest, result =>
    match parameter.data with
    | [] => .error (.out_of_range "basic_string::at")
    | c :: cs =>
      if c = REFERENCE_ANCHOR then
        match Document.get e.event (formatJsonPath ⟨cs⟩) with
        | some (.str v) => concatLoop e rest (result ++ cstr v)
        | _ => .ok none
      else concatLoop e rest (result ++ parameter)

/-- The function the s_concat lifter maps over the stream. -/
def concatLifter (field : String) (parametersArr : List String)
    (successTrace failureTrace : String) : Lifter :=
  fun e =>
    match concatLoop e parametersArr "" with
    | .ok (some result) => .ok (e.setValue field (.str (cstr result)), [successTrace])
    | .ok none => .ok (e, [failureTrace])
    | .error ex => .error ex

/-- The builder `opBuilderHelperStringConcat`
(`<field>: +s_concat/<string1>|$<ref1>/<string2>|$<ref2>`); `docStr` is the serialisation
`doc.str()` of the rule member, a service of the document library. -/
def opBuilderHelperStringConcat (docStr : DocumentValue → String) (d : DocumentValue) :
    Except Exception Lifter :=
  let field := formatJsonPath (cstr d.name)
  match d.value with
  | .str v =>
    let parametersArr := split (cstr v) '/'
    if parametersArr.length < 3 then
      .error (.runtime_error "Invalid number of parameters for s_concat operator")
    else
      let segments := parametersArr.drop 1
      if segments.any (fun param => param.data.isEmpty) then
        .error (.runtime_error "one parameter is an empty string")
      else
        .ok (concatLifter field segments (docStr d ++ " s_concat Success")
          (docStr d ++ " s_concat Failure"))
  | _ => .error (.runtime_error "Invalid parameter type for s_concat operator (str expected)")

/-- The builder `opBuilderHelperIntCalc` (`field: +i_calc/[sum|sub|mul|div]/val|$ref/`). -/
def opBuilderHelperIntCalc (d : DocumentValue) : Except Exception Lifter :=
  let field := formatJsonPath (cstr d.name)
  match d.value with
  | .str v =>
    match split (cstr v) '/' with
    | [_, op, p2] =>
      if op ≠ "sum" ∧ op ≠ "sub" ∧ op ≠ "mul" ∧ op ≠ "div" then
        .error (.runtime_error "Invalid operator")
      else if op = "div" ∧ p2 = "0" then
        .error (.runtime_error "Division by zero")
      else if front0 p2 = REFERENCE_ANCHOR then
        .ok (intCalcLifter field op (some (formatJsonPath (substr p2 1))) none)
      else
        match stoi p2 with
        | .ok n => .ok (intCalcLifter field op none (some n))
        | .error ex => .error ex
    | _ => .error (.runtime_error "Invalid parameters")
  | _ => .error (.assertion_failure "IsString()")

/-- The function the delete_field lifter maps over the stream. -/
def deleteFieldLifter (key successTrace failureTrace : String) : Lifter :=
  fun e =>
    match Document.erase e.event key with
    | .ok (true, d') => .ok ({ e with event := d' }, [successTrace])
    | .ok (false, d') => .ok ({ e with event := d' }, [failureTrace])
    | .error ex => .ok (e, [failureTrace ++ ": " ++ ex.what])

/-- The builder `opBuilderHelperDeleteField` (`<key>: +delete_field`); `docStr` is the
serialisation `doc.str()` of the rule member, a service of the document library. -/
def opBuilderHelperDeleteField (docStr : DocumentValue → String) (d : DocumentValue) :
    Except Exception Lifter :=
  let key := formatJsonPath (cstr d.name)
  if key.data.isEmpty then
    .error (.runtime_error "Key shouldn't be emoty for delete_field operator")
  else
    match d.value with
    | .str v =>
      if (split (cstr v) '/').length > 1 then
        .error (.runtime_error "Invalid number of parameters for delete_field operator")
      else
        .ok (deleteFieldLifter key (docStr d ++ " delete_field Success")
          (docStr d ++ " delete_field Failure"))
    | _ => .error (.assertion_failure "IsString()")

/-! ## The tracer inside the lifters -/

/-- Whether a handler `catch (std::exception&)` catches it: the C++ exceptions, and not the ends
of the process. -/
def Exception.isStdException : Exception → Bool
  | .assertion_failure _ => false
  | .fatal_signal _ => false
  | _ => true

/-- Modelled from the spec: the tracer `types::TracerFn`, a callback `(message) -> void` that
the caller owns (its header is not among the sources; the tests pass a
`std::function<void(std::string)>`).  The callback sees the message alone; a call may change a
state of its own, of type `τ`, and may throw: the state after the call, and the exception it
raised, if any. -/
abbrev TracerFn (τ : Type) := String → τ → τ × Option Exception

/-- The function a lifter maps over the stream, with the tracer it captured: the event it
returns or the exception it raises, and the state of the tracer afterwards. -/
abbrev TracedLifter (τ : Type) := Event → τ → Except Exception Event × τ

/-- How the loop of the s_concat lifter ends: with every segment appended, at a reference whose
value is no string (the `else` inside the `try`), or at a reference for which `get` raises
(the `catch`). -/
inductive ConcatEnd where
  | appended (result : String)
  | no_string
  | no_value

/-- The loop of the s_concat lifter over the segments, up to the first call of the tracer. -/
def concatScan (e : Event) : List String → String → Except Exception ConcatEnd
  | [], result => .ok (.appended result)
  | parameter :: rest, result =>
    match parameter.data with
    | [] => .error (.out_of_range "basic_string::at")
    | c :: cs =>
      if c = REFERENCE_ANCHOR then
        match Document.get e.event (formatJsonPath ⟨cs⟩) with
        | some (.str v) => concatScan e rest (result ++ cstr v)
        | some _ => .ok .no_string
        | none => .ok .no_value
      else concatScan e rest (result ++ parameter)

/-- The function the s_concat lifter maps over the stream, with its tracer.  The failure trace
of a value that is no string is called inside the `try`, so an exception it throws is caught
and the failure trace called again; the success trace is called inside the last `try`, before
`set`, so an exception it throws is caught and the event returned without the write. -/
def concatLifterTraced {τ : Type} (field : String) (parametersArr : List String)
    (successTrace failureTrace : String) (tr : TracerFn τ) : TracedLifter τ :=
  fun e t =>
    match concatScan e parametersArr "" with
    | .error ex => (.error ex, t)
    | .ok .no_value =>
      match tr failureTrace t with
      | (t1, none) => (.ok e, t1)
      | (t1, some ex) => (.error ex, t1)
    | .ok .no_string =>
      match tr failureTrace t with
      | (t1, none) => (.ok e, t1)
      | (t1, some ex) =>
        if ex.isStdException then
          match tr failureTrace t1 with
          | (t2, none) => (.ok e, t2)
          | (t2, some ex2) => (.error ex2, t2)
        else (.error ex, t1)
    | .ok (.appended result) =>
      match tr successTrace t with
      | (t1, none) => (.ok (e.setValue field (.str (cstr result))), t1)
      | (t1, some ex) => if ex.isStdException then (.ok e, t1) else (.error ex, t1)

/-- The builder `opBuilderHelperStringConcat` with its second parameter, the tracer. -/
def opBuilderHelperStringConcatTraced {τ : Type} (docStr : DocumentValue → String)
    (d : DocumentValue) (tr : TracerFn τ) : Except Exception (TracedLifter τ) :=
  let field := formatJsonPath (cstr d.name)
  match d.value with
  | .str v =>
    let parametersArr := split (cstr v) '/'
    if parametersArr.length < 3 then
      .error (.runtime_error "Invalid number of parameters for s_concat operator")
    else
      let segments := parametersArr.drop 1
      if segments.any (fun param => param.data.isEmpty) then
        .error (.runtime_error "one parameter is an empty string")
      else
        .ok (concatLifterTraced field segments (docStr d ++ " s_concat Success")
          (docStr d ++ " s_concat Failure") tr)
  | _ => .error (.runtime_error "Invalid parameter type for s_concat operator (str expected)")

/-- The function the delete_field lifter maps over the stream, with its tracer.  Both traces
are called inside the `try`, after `erase`: an exception the tracer throws there is caught and
the failure trace with the text of that exception is called from the handler. -/
def deleteFieldLifterTraced {τ : Type} (key successTrace failureTrace : String)
    (tr : TracerFn τ) : TracedLifter τ :=
  fun e t =>
    match Document.erase e.event key with
    | .ok (erased, d') =>
      match tr (if erased then successTrace else failureTrace) t with
      | (t1, none) => (.ok { e with event := d' }, t1)
      | (t1, some ex) =>
        if ex.isStdException then
          match tr (failureTrace ++ ": " ++ ex.what) t1 with
          | (t2, none) => (.ok { e with event := d' }, t2)
          | (t2, some ex2) => (.error ex2, t2)
        else (.error ex, t1)
    | .error ex =>
      match tr (failureTrace ++ ": " ++ ex.what) t with
      | (t1, none) => (.ok e, t1)
      | (t1, some ex2) => (.error ex2, t1)

/-- The builder `opBuilderHelperDeleteField` with its second parameter, the tracer. -/
def opBuilderHelperDeleteFieldTraced {τ : Type} (docStr : DocumentValue → String)
    (d : DocumentValue) (tr : TracerFn τ) : Except Exception (TracedLifter τ) :=
  let key := formatJsonPath (cstr d.name)
  if key.data.isEmpty then
    .error (.runtime_error "Key shouldn't be emoty for delete_field operator")
  else
    match d.value with
    | .str v =>
      if (split (cstr v) '/').length > 1 then
        .error (.runtime_error "Invalid number of parameters for delete_field operator")
      else
        .ok (deleteFieldLifterTraced key (docStr d ++ " delete_field Success")
          (docStr d ++ " delete_field Failure") tr)
    | _ => .error (.assertion_failure "IsString()")

/-- A tracer that returns from every call. -/
def TracerFn.Returns {τ : Type} (tr : TracerFn τ) : Prop := ∀ m t, (tr m t).2 = none

/-- The services of the regular-expression library RE2 that the r_ext builder consumes.
`compile pattern` is the error text `regex_ptr->error()` of a pattern that does not compile, or
the compiled pattern, given by the function `text ↦ RE2::PartialMatch(text, re, &match)`: the
first capture group of a partial match of the text, `none` when the call returns false. -/
structure RegexEngine where
  compile : String → Except String (String → Option String)

/-- The function the r_ext lifter maps over the stream: `field` is the key of the rule member,
`map_field` the first parameter. -/
def regexExtractLifter (field map_field : String) (partialMatch : String → Option String) :
    Lifter :=
  fun e =>
    match e.getEventValue field with
    | some (.str s) =>
      match partialMatch (cstr s) with
      | some m => .ok (e.setValue map_field (.str (cstr m)), [])
      | none => .ok (e, [])
    | _ => .ok (e, [])

/-- The builder `opBuilderHelperRegexExtract` (`field: +r_ext/_field/regexp/`). -/
def opBuilderHelperRegexExtract (re2 : RegexEngine) (d : DocumentValue) :
    Except Exception Lifter :=
  let field := formatJsonPath (cstr d.name)
  match d.value with
  | .str v =>
    match split (cstr v) '/' with
    | [_, p1, p2] =>
      match re2.compile p2 with
      | .ok partialMatch => .ok (regexExtractLifter field (formatJsonPath p1) partialMatch)
      | .error err => .error (.runtime_error ("Error compiling regex '" ++ p2 ++ "'. " ++ err))
    | _ => .error (.runtime_error "Invalid number of parameters")
  | _ => .error (.assertion_failure "IsString()")

/-- The containment test `s.find(p) != npos`: `p` occurs in `s` as a run of consecutive
characters. -/
def isSubstringOf (p : List Char) : List Char → Bool
  | [] => p.isEmpty
  | c :: cs => p.isPrefixOf (c :: cs) || isSubstringOf p cs

/-- The text between a given beginning and a given end of a pattern, when it has both. -/
def literalOf (pre post cs : List Char) : Option (List Char) :=
  if pre.isPrefixOf cs && post.isSuffixOf cs && decide (pre.length + post.length ≤ cs.length) then
    some ((cs.drop pre.length).take (cs.length - pre.length - post.length))
  else none

/-- Whether a literal is made of letters and digits only, and is not empty. -/
def plainLiteral (lit : List Char) : Bool := lit.all Char.isAlphanum && !lit.isEmpty

/-- The part of RE2 used in the examples: the patterns `^(lit)$` and `(lit)` for a literal
`lit` of letters and digits.  The first is partially matched by the text `lit` alone, the second
by every text that contains `lit`; in both the first capture group is `lit`.  Any other pattern
is refused. -/
def exampleEngine : RegexEngine where
  compile p :=
    match literalOf ['^', '('] [')', '$'] p.data with
    | some lit =>
      if plainLiteral lit then .ok (fun text => if text.data = lit then some ⟨lit⟩ else none)
      else .error "pattern outside the examples"
    | none =>
      match literalOf ['('] [')'] p.data with
      | some lit =>
        if plainLiteral lit then
          .ok (fun text => if isSubstringOf lit text.data then some ⟨lit⟩ else none)
        else .error "pattern outside the examples"
      | none => .error "pattern outside the examples"

/-! ## Helpers whose source is not at hand -/

/-- Modelled from the spec: one parameter of a containment check resolved in an event
(`opBuilderHelperFilter.cpp` is not among the sources).  A literal is used as it is; a
reference counts only when it resolves to a string that is not empty. -/
def containmentParameter (e : Event) (p : String) : Option String :=
  if front0 p = REFERENCE_ANCHOR then
    match e.getEventValue (formatJsonPath (substr p 1)) with
    | some (.str s) => if s.data.isEmpty then none else some s
    | _ => none
  else some p

/-- Modelled from the spec: the predicate of s_contains (`polarity = true`) and of
s_not_contains (`polarity = false`): the field must hold a string, and the base predicate of
the given polarity must hold for every parameter; a parameter that does not resolve makes the
check fail. -/
def containmentCheck (polarity : Bool) (field : String) (params : List String) (e : Event) :
    Bool :=
  match e.getEventValue field with
  | some (.str s) =>
    params.all (fun p =>
      match containmentParameter e p with
      | some v => isSubstringOf v.data s.data == polarity
      | none => false)
  | _ => false

/-- Modelled from the spec: the build of a containment check: at least one parameter after the
operator name, none of them empty. -/
def containmentBuilder (polarity : Bool) (d : DocumentValue) :
    Except Exception (Event → Bool) :=
  match d.value with
  | .str v =>
    let params := (split v '/').drop 1
    if params.isEmpty then .error (.runtime_error "Invalid number of parameters")
    else if params.any (fun p => p.data.isEmpty) then
      .error (.runtime_error "Empty parameter")
    else .ok (containmentCheck polarity (formatJsonPath d.name) params)
  | _ => .error (.runtime_error "Invalid parameter type")

/-- Modelled from the spec: the builder `opBuilderHelperStringContains`
(`<field>: +s_contains/<p1>/.../<pn>`), whose source `opBuilderHelperFilter.cpp` is not among
the sources. -/
def opBuilderHelperStringContains (d : DocumentValue) : Except Exception (Event → Bool) :=
  containmentBuilder true d

/-- Modelled from the spec: the builder `opBuilderHelperStringNotContains`
(`<field>: +s_not_contains/<p1>/.../<pn>`), whose source `opBuilderHelperFilter.cpp` is not
among the sources. -/
def opBuilderHelperStringNotContains (d : DocumentValue) : Except Exception (Event → Bool) :=
  containmentBuilder false d

/-- Modelled from the spec: the field one parameter of json_delete_fields names in an event: the
literal itself, or the string a reference resolves to; `none` for a reference that does not
resolve to a string. -/
def deleteFieldName (e : Event) (p : String) : Option String :=
  if front0 p = REFERENCE_ANCHOR then
    match e.getEventValue (formatJsonPath (substr p 1)) with
    | some (.str s) => some (formatJsonPath s)
    | _ => none
  else some (formatJsonPath p)

/-- Modelled from the spec: the names of a list without those already seen, each once, in
order of first occurrence. -/
def distinctNames (seen : List String) : List String → List String
  | [] => []
  | n :: rest =>
    if n ∈ seen then distinctNames seen rest else n :: distinctNames (n :: seen) rest

/-- Modelled from the spec: the deletion of the named fields one after the other, counting the
deletions that removed something. -/
def eraseFields : List String → Json → Nat → Json × Nat
  | [], d, n => (d, n)
  | name :: rest, d, n =>
    match Document.erase d name with
    | .ok (true, d') => eraseFields rest d' (n + 1)
    | _ => eraseFields rest d n

/-- Modelled from the spec: the function the json_delete_fields lifter maps over the stream. -/
def jsonDeleteFieldsLifter (target : String) (params : List String) : Lifter :=
  fun e =>
    .ok (EventHandler.setValue
      { e with event := (eraseFields (distinctNames [] (params.filterMap (deleteFieldName e)))
        e.event 0).1 }
      target
      (.int (eraseFields (distinctNames [] (params.filterMap (deleteFieldName e)))
        e.event 0).2), [])

/-- Modelled from the spec: the builder `opBuilderHelperJsonDeleteFields`
(`<target>: +json_delete_fields/<field1>|$<ref1>/...`), whose source is not among the sources:
at least one field parameter, no empty field name. -/
def opBuilderHelperJsonDeleteFields (d : DocumentValue) : Except Exception Lifter :=
  match d.value with
  | .str v =>
    let params := (split v '/').drop 1
    if params.isEmpty then .error (.runtime_error "Invalid number of parameters")
    else if params.any (fun p => p.data.isEmpty) then
      .error (.runtime_error "Empty parameter")
    else .ok (jsonDeleteFieldsLifter (formatJsonPath d.name) params)
  | _ => .error (.runtime_error "Invalid parameter type")

/-! ## The reader of the macOS log (`read_oslog.c`) -/

/-- An access outside the array it addresses, which C leaves undefined. -/
inductive Fault where
  | out_of_bounds (index : Int)
  deriving DecidableEq, Repr

/-- The array that holds the C string of a buffer with one element for each character: the
characters up to the first NUL, and the NUL that ends the string.  Positions in it count
characters; it serves the functions that look for a line feed, a colon or a NUL. -/
def arrayOf (s : String) : List Char := (cstr s).data ++ ['\x00']

/-- The C string an array holds: the elements before its first NUL. -/
def stringIn (m : List Char) : String := ⟨m.takeWhile (fun c => c != '\x00')⟩

/-- The call `strlen(m)` on an array that holds a string: the number of elements before the
first NUL, which on an array of bytes (`byteArrayOf`) is the number of bytes. -/
def strlen (m : List Char) : Nat := (stringIn m).data.length

/-- The bytes that hold a character in a `char` array, its UTF-8 encoding; a byte is written as
the character of that code. -/
def utf8Bytes (c : Char) : List Char :=
  (String.utf8EncodeChar c).map (fun b => Char.ofNat b.toNat)

/-- The bytes of a text. -/
def bytesOf (s : String) : List Char := s.data.flatMap utf8Bytes

/-- The bytes of the C string a text gives: its bytes before the first NUL byte. -/
def cstringBytes (s : String) : List Char := (bytesOf s).takeWhile (fun c => c != '\x00')

/-- The `char` array that holds the C string of a text, one element for each byte: the bytes up
to the first NUL, and the NUL that ends the string. -/
def byteArrayOf (s : String) : List Char := cstringBytes s ++ ['\x00']

/-- Modelled from the spec: the macro `w_strlen` (`shared.h` is not among the sources), the
length of a string in bytes, 0 for the NULL pointer. -/
def w_strlen (s : Option String) : Nat :=
  match s with
  | some t => strlen (byteArrayOf t)
  | none => 0

/-- The expression `m[i]` as a value. -/
def charAt (m : List Char) (i : Int) : Except Fault Char :=
  if 0 ≤ i ∧ i < m.length then .ok (m.getD i.toNat '\x00') else .error (.out_of_bounds i)

/-- The assignment `m[i] = c`. -/
def assignAt (m : List Char) (i : Int) (c : Char) : Except Fault (List Char) :=
  if 0 ≤ i ∧ i < m.length then .ok (m.set i.toNat c) else .error (.out_of_bounds i)

/-- The call `memcpy(dst + pos, src + start, n)`. -/
def memcpy (dst : List Char) (pos : Nat) (src : List Char) (start n : Nat) :
    Except Fault (List Char) :=
  if src.length < start + n then .error (.out_of_bounds (src.length : Int))
  else if dst.length < pos + n then .error (.out_of_bounds (dst.length : Int))
  else .ok (dst.take pos ++ ((src.drop start).take n ++ dst.drop (pos + n)))

/-- The last position of a character in a list. -/
def lastIndexOf (c : Char) : List Char → Option Nat
  | [] => none
  | x :: xs =>
    match lastIndexOf c xs with
    | some i => some (i + 1)
    | none => if x = c then some 0 else none

/-- The call `strrchr(m, c)` for a character `c` other than NUL, as an offset into `m`. -/
def strrchr (m : List Char) (c : Char) : Option Nat := lastIndexOf c (stringIn m).data

/-- The test `strncmp(a, b, n) == 0`. -/
def strncmp (a b : List Char) (n : Nat) : Bool :=
  (stringIn a).data.take n == (stringIn b).data.take n

/-- The lengths of the time stamps, macros of `logcollector.h`, which is not among the sources:
parameters of the model. -/
structure TimestampLengths where
  OS_LOGCOLLECTOR_BASIC_TIMESTAMP_LEN : Nat
  OS_LOGCOLLECTOR_TIMESTAMP_MS_LEN : Nat
  OS_LOGCOLLECTOR_TIMESTAMP_TZ_LEN : Nat
  OS_LOGCOLLECTOR_SHORT_TIMESTAMP_LEN : Nat
  OS_LOGCOLLECTOR_FULL_TIMESTAMP_LEN : Nat

/-- The function `w_oslog_trim_full_timestamp`; `none` is the NULL pointer, the array of the
argument is the bytes of the string and its terminator, and the result is given by the bytes of
the string returned. -/
def w_oslog_trim_full_timestamp (L : TimestampLengths) (full_timestamp : Option String) :
    Except Fault (Option (List Char)) :=
  let m : List Char :=
    match full_timestamp with
    | some s => byteArrayOf s
    | none => []
  if w_strlen full_timestamp = L.OS_LOGCOLLECTOR_FULL_TIMESTAMP_LEN then
    match charAt m ((L.OS_LOGCOLLECTOR_FULL_TIMESTAMP_LEN : Int) - 1) with
    | .error f => .error f
    | .ok c =>
      if c ≠ '\x00' then
        match memcpy (List.replicate (L.OS_LOGCOLLECTOR_SHORT_TIMESTAMP_LEN + 1) '\x00') 0 m 0
            L.OS_LOGCOLLECTOR_BASIC_TIMESTAMP_LEN with
        | .error f => .error f
        | .ok s1 =>
          match memcpy s1 L.OS_LOGCOLLECTOR_BASIC_TIMESTAMP_LEN m
              (L.OS_LOGCOLLECTOR_BASIC_TIMESTAMP_LEN + L.OS_LOGCOLLECTOR_TIMESTAMP_MS_LEN)
              L.OS_LOGCOLLECTOR_TIMESTAMP_TZ_LEN with
          | .error f => .error f
          | .ok s2 => .ok (some (stringIn s2).data)
      else .ok none
  else .ok none

/-- The function `oslog_get_valid_lastline`: the offset of the returned pointer into `str`
(`none` for NULL) and the string `str` holds on return. -/
def oslog_get_valid_lastline (str : Option String) :
    Except Fault (Option Nat × Option String) :=
  match str with
  | none => .ok (none, none)
  | some s =>
    match charAt (arrayOf s) 0 with
    | .error f => .error f
    | .ok c0 =>
      if c0 = '\x00' then .ok (none, some (stringIn (arrayOf s)))
      else
        match charAt (arrayOf s) ((strlen (arrayOf s) : Int) - 1) with
        | .error f => .error f
        | .ok ignored_char =>
          match assignAt (arrayOf s) ((strlen (arrayOf s) : Int) - 1) '\x00' with
          | .error f => .error f
          | .ok m1 =>
            match assignAt m1 ((strlen (arrayOf s) : Int) - 1) ignored_char with
            | .error f => .error f
            | .ok m2 => .ok (strrchr m1 '\n', some (stringIn m2))

/-- The structure `w_oslog_ctxt_t` (declared in `logcollector.h`, which is not among the
sources): the array `buffer`, given by its bytes up to the end of the string it holds or
beyond, and the time of the backup. -/
structure w_oslog_ctxt_t where
  buffer : String
  timestamp : Int

/-- The members of `w_oslog_config_t` that the functions below use.  `start_log_regex` is the
compiled expression, given by the result of `w_expression_match(start_log_regex, text, NULL,
NULL)` for every text. -/
structure w_oslog_config_t where
  start_log_regex : String → Bool
  is_header_processed : Bool
  ctxt : w_oslog_ctxt_t

/-- The function `oslog_ctxt_restore`: the value returned and the string `buffer` holds on
return.  The arrays are as large as the callers make them (`buffer must be previously
allocated`). -/
def oslog_ctxt_restore (buffer : String) (ctxt : w_oslog_ctxt_t) : Bool × String :=
  if front0 ctxt.buffer = '\x00' then (false, buffer) else (true, cstr ctxt.buffer)

/-- The function `oslog_ctxt_clean`. -/
def oslog_ctxt_clean (ctxt : w_oslog_ctxt_t) : w_oslog_ctxt_t :=
  { buffer := ⟨'\x00' :: ctxt.buffer.data.drop 1⟩, timestamp := 0 }

/-- The function `oslog_ctxt_backup`; `now` is the value of `time(NULL)`. -/
def oslog_ctxt_backup (now : Int) (buffer : String) (_ctxt : w_oslog_ctxt_t) :
    w_oslog_ctxt_t :=
  { buffer := cstr buffer, timestamp := now }

def LOG_ERROR_STR : String := "log:"

def LOG_ERROR_LENGHT : Nat := 4

/-- What a call of `oslog_is_header` leaves: the value returned, the configuration, the string
`buffer` holds, the positions of `buffer` the function indexed, in order, and the lines it
handed to `merror` or `mdebug2`. -/
structure HeaderResult where
  retval : Bool
  oslog_cfg : w_oslog_config_t
  buffer : String
  accessed : List Int
  logged : List (String × String)

/-- The last test of a branch of `oslog_is_header`: the end of line at the last position is
overwritten; `before` lists the positions indexed so far. -/
def dropEndOfLine (oslog_cfg : w_oslog_config_t) (m : List Char) (buffer_size : Int)
    (before : List Int) (report : String) : Except Fault HeaderResult :=
  match charAt m (buffer_size - 1) with
  | .error f => .error f
  | .ok c1 =>
    if c1 = '\n' then
      match assignAt m (buffer_size - 1) '\x00' with
      | .error f => .error f
      | .ok m1 =>
        .ok ⟨true, oslog_cfg, stringIn m1, before ++ [buffer_size - 1, buffer_size - 1],
          [(report, stringIn m1)]⟩
    else .ok ⟨true, oslog_cfg, stringIn m, before ++ [buffer_size - 1], [(report, stringIn m)]⟩

/-- The function `oslog_is_header`. -/
def oslog_is_header (oslog_cfg : w_oslog_config_t) (buffer : String) :
    Except Fault HeaderResult :=
  let m := arrayOf buffer
  let buffer_size : Int := strlen m
  if oslog_cfg.start_log_regex (stringIn m) then
    .ok ⟨false, { oslog_cfg with is_header_processed := true }, stringIn m, [], []⟩
  else if strncmp m (arrayOf LOG_ERROR_STR) LOG_ERROR_LENGHT then
    match charAt m (buffer_size - 2) with
    | .error f => .error f
    | .ok c2 =>
      if c2 = ':' then
        match assignAt m (buffer_size - 2) '\x00' with
        | .error f => .error f
        | .ok m1 =>
          .ok ⟨true, oslog_cfg, stringIn m1, [buffer_size - 2, buffer_size - 2],
            [("merror", stringIn m1)]⟩
      else dropEndOfLine oslog_cfg m buffer_size [buffer_size - 2] "merror"
  else dropEndOfLine oslog_cfg m buffer_size [] "mdebug2"

/-- What a call of `read_oslog` did with the stream: the messages handed to
`w_msg_hash_queues_push`, in order, and the logs `oslog_getlog` returned. -/
structure ReadResult where
  pushed : List String
  taken : List String

/-- The loop of `read_oslog`.  The stream is given by what the calls of `oslog_getlog` that
return true leave in `read_buffer`, one after the other; the call that follows the last of them
returns false.  The condition of the loop calls `oslog_getlog` first and compares the count
with `maximum_lines` afterwards. -/
def read_oslog_loop (maximum_lines drop_it : Int) :
    List String → Int → ReadResult → ReadResult
  | [], _, r => r
  | read_buffer :: rest, count_logs, r =>
    if maximum_lines = 0 ∨ count_logs < maximum_lines then
      read_oslog_loop maximum_lines drop_it rest (wrap32 (count_logs + 1))
        ⟨if drop_it = 0 ∧ 0 < strlen (arrayOf read_buffer) then
            r.pushed ++ [cstr read_buffer]
          else r.pushed,
          r.taken ++ [cstr read_buffer]⟩
    else ⟨r.pushed, r.taken ++ [cstr read_buffer]⟩

/-- The function `read_oslog`, up to the end of its loop; `can_read` is the value of
`can_read()` and `maximum_lines` the global of that name. -/
def read_oslog (can_read : Int) (maximum_lines drop_it : Int) (stream : List String) :
    ReadResult :=
  if can_read = 0 then ⟨[], []⟩
  else read_oslog_loop maximum_lines drop_it stream 0 ⟨[], []⟩

/-! ## Vocabulary of the statements -/

/-- The concatenation of a list of strings, in order. -/
def concatAll : List String → String
  | [] => ""
  | s :: rest => s ++ concatAll rest

/-- The value of one s_concat segment in an event: the text of a literal segment; for a
reference segment the string held by the referenced field, read up to its first NUL character;
`none` when the reference does not resolve to a string. -/
def segmentValue (e : Event) (p : String) : Option String :=
  match p.data with
  | [] => none
  | c :: cs =>
    if c = REFERENCE_ANCHOR then
      match Document.get e.event (formatJsonPath ⟨cs⟩) with
      | some (.str v) => some (cstr v)
      | _ => none
    else some p

/-- A string without NUL character. -/
def NulFree (s : String) : Prop := ∀ c ∈ s.data, c ≠ '\x00'

/-- The exact result of an i_calc operation on two integers: sum, difference, product, or
quotient truncated toward zero. -/
def exactResult (op : String) (a b : Int) : Int :=
  if op = "sum" then a + b
  else if op = "sub" then a - b
  else if op = "mul" then a * b
  else Int.tdiv a b

/-- The trimmed text the statements speak of: the characters of `l` without the maximal leading
run of `c` (mode `begin`), without the maximal trailing run of `c` (mode `end`), or without
both runs (any other mode, that is `both`). -/
def trimSpec (mode : String) (c : Char) (l : List Char) : List Char :=
  if mode = "begin" then l.dropWhile (fun x => x == c)
  else if mode = "end" then l.rdropWhile (fun x => x == c)
  else (l.dropWhile (fun x => x == c)).rdropWhile (fun x => x == c)

/-- Two token lists that address unrelated fields: neither is an initial part of the other, so
neither field is the other, contains it or lies inside it. -/
def Unrelated (p q : List String) : Prop := ¬ p <+: q ∧ ¬ q <+: p

/-- The token list names a member of an object of the document: all but the last token
resolve to an object, and that object has a member named by the last token. -/
def IsMember (d : Json) (ks : List String) : Prop :=
  ∃ ps t kvs c, ks = ps ++ [t] ∧ d.getPath ps = some (.obj kvs) ∧ findMember t kvs = some c

/-- Two path texts that address unrelated fields. -/
def UnrelatedPaths (a b : String) : Prop :=
  ∃ as bs, pointerTokens a = some as ∧ pointerTokens b = some bs ∧ Unrelated as bs

/-- The string a parameter of a containment check stands for in an event: the text of a
literal, the string held by the referenced field for a reference; `none` when the reference
does not resolve to a string. -/
def parameterValue (e : Event) (p : String) : Option String :=
  if front0 p = REFERENCE_ANCHOR then
    match e.getEventValue (formatJsonPath (substr p 1)) with
    | some (.str s) => some s
    | _ => none
  else some p

/-- One use of an `EventHandler` object from outside: a call of one of its methods, or a change
of the document made through the pointer `getEvent` returned. -/
inductive EventCall where
  | isDecoded
  | setDecoded
  | getEvent
  | setEventValue (key : String) (value : Json)
  | getEventValue (key : String)
  | getEventDocAllocator
  | throughPointer (change : Json → Json)

/-- The object after one use; `none` when the use ends the process.  A call that raises a C++
exception leaves the object as it was. -/
def EventHandlerObject.after (h : EventHandlerObject) : EventCall → Option EventHandlerObject
  | .isDecoded => some h
  | .setDecoded => some h.setDecoded
  | .getEvent => some h
  | .setEventValue key value =>
    match h.setEventValue key value with
    | .ok r => some r.2
    | .error _ => none
  | .getEventValue key =>
    match h.getEventValue key with
    | .error (.fatal_signal _) => none
    | _ => some h
  | .getEventDocAllocator =>
    match h.getEventDocAllocator with
    | .ok _ => some h
    | .error _ => none
  | .throughPointer change =>
    match h.getEvent with
    | some d => some { h with event := some (change d) }
    | none => none

/-- The object after a sequence of uses; `none` when one of them ends the process. -/
def EventHandlerObject.afterAll (h : EventHandlerObject) :
    List EventCall → Option EventHandlerObject
  | [] => some h
  | c :: rest =>
    match h.after c with
    | some h' => h'.afterAll rest
    | none => none

/-- The integer a sign and a run of decimal digits denote. -/
def signedValue (neg : Bool) (ds : List Char) : Int :=
  if neg then -(digitsValue ds : Int) else (digitsValue ds : Int)

/-! ## Laws of the document -/

theorem findMember_replaceMember (k : String) (v : Json) (kvs : List (String × Json))
    (c : Json) (h : findMember k kvs = some c) :
    findMember k (replaceMember k v kvs) = some v := by
  induction kvs with
  | nil => simp [findMember] at h
  | cons kv rest ih =>
    obtain ⟨k', v'⟩ := kv
    by_cases hk : k' = k
    · simp [replaceMember, findMember, hk]
    · simp only [findMember, hk, if_false] at h
      simp [replaceMember, findMember, hk, ih h]

theorem replaceMember_self (k : String) (v : Json) (kvs : List (String × Json))
    (h : findMember k kvs = some v) : replaceMember k v kvs = kvs := by
  induction kvs with
  | nil => rfl
  | cons kv rest ih =>
    obtain ⟨k', v'⟩ := kv
    by_cases hk : k' = k
    · simp only [findMember, hk, if_true, Option.some.injEq] at h
      simp [replaceMember, hk, h]
    · simp only [findMember, hk, if_false] at h
      simp [replaceMember, hk, ih h]

theorem findMember_append_new (k : String) (v : Json) (kvs : List (String × Json))
    (h : findMember k kvs = none) : findMember k (kvs ++ [(k, v)]) = some v := by
  induction kvs with
  | nil => simp [findMember]
  | cons kv rest ih =>
    obtain ⟨k', v'⟩ := kv
    by_cases hk : k' = k
    · simp [findMember, hk] at h
    · simp only [findMember, hk, if_false] at h
      simp [findMember, hk, ih h]

theorem getPath_nest (ts : List String) (v : Json) : (nest ts v).getPath ts = some v := by
  induction ts with
  | nil => simp [nest, Json.getPath]
  | cons t ts ih => simp [nest, Json.getPath, findMember, ih]

theorem setPath_nest (ts : List String) (v : Json) :
    (nest ts v).setPath ts v = some (nest ts v) := by
  induction ts with
  | nil => simp [nest, Json.setPath]
  | cons t ts ih => simp [nest, Json.setPath, findMember, replaceMember, ih]

/-- Reading a path back after an accepted write gives the written value. -/
theorem getPath_setPath (ts : List String) (v : Json) :
    ∀ d d' : Json, d.setPath ts v = some d' → d'.getPath ts = some v := by
  induction ts with
  | nil =>
    intro d d' h
    cases d <;> simp_all [Json.setPath, Json.getPath]
  | cons t ts ih =>
    intro d d' h
    cases d with
    | obj kvs =>
      simp only [Json.setPath] at h
      cases hf : findMember t kvs with
      | none =>
        simp only [hf, Option.some.injEq] at h
        subst h
        simp [Json.getPath, findMember_append_new t _ kvs hf, getPath_nest]
      | some c =>
        simp only [hf] at h
        cases hs : c.setPath ts v with
        | none => simp [hs] at h
        | some c' =>
          simp only [hs, Option.some.injEq] at h
          subst h
          simp [Json.getPath, findMember_replaceMember t c' kvs c hf, ih c c' hs]
    | arr xs =>
      simp only [Json.setPath] at h
      cases hi : tokenIndex t with
      | none => simp [hi] at h
      | some i =>
        simp only [hi] at h
        cases hx : xs[i]? with
        | none => simp [hx] at h
        | some c =>
          simp only [hx] at h
          cases hs : c.setPath ts v with
          | none => simp [hs] at h
          | some c' =>
            simp only [hs, Option.some.injEq] at h
            subst h
            have hlt : i < xs.length := by
              rcases List.getElem?_eq_some.mp hx with ⟨hlt, _⟩
              exact hlt
            simp [Json.getPath, hi, List.getElem?_set_self hlt, ih c c' hs]
    | null => simp [Json.setPath] at h
    | bool b => simp [Json.setPath] at h
    | int n => simp [Json.setPath] at h
    | str s => simp [Json.setPath] at h

/-- Writing the same value again at the same path changes nothing. -/
theorem setPath_setPath_self (ts : List String) (v : Json) :
    ∀ d d' : Json, d.setPath ts v = some d' → d'.setPath ts v = some d' := by
  induction ts with
  | nil =>
    intro d d' h
    cases d <;> simp_all [Json.setPath]
  | cons t ts ih =>
    intro d d' h
    cases d with
    | obj kvs =>
      simp only [Json.setPath] at h
      cases hf : findMember t kvs with
      | none =>
        simp only [hf, Option.some.injEq] at h
        subst h
        have h1 := findMember_append_new t (nest ts v) kvs hf
        simp [Json.setPath, h1, setPath_nest, replaceMember_self _ _ _ h1]
      | some c =>
        simp only [hf] at h
        cases hs : c.setPath ts v with
        | none => simp [hs] at h
        | some c' =>
          simp only [hs, Option.some.injEq] at h
          subst h
          have h1 := findMember_replaceMember t c' kvs c hf
          simp [Json.setPath, h1, ih c c' hs, replaceMember_self _ _ _ h1]
    | arr xs =>
      simp only [Json.setPath] at h
      cases hi : tokenIndex t with
      | none => simp [hi] at h
      | some i =>
        simp only [hi] at h
        cases hx : xs[i]? with
        | none => simp [hx] at h
        | some c =>
          simp only [hx] at h
          cases hs : c.setPath ts v with
          | none => simp [hs] at h
          | some c' =>
            simp only [hs, Option.some.injEq] at h
            subst h
            have hlt : i < xs.length := by
              rcases List.getElem?_eq_some.mp hx with ⟨hlt, _⟩
              exact hlt
            simp [Json.setPath, hi, List.getElem?_set_self hlt, ih c c' hs, List.set_set]
    | null => simp [Json.setPath] at h
    | bool b => simp [Json.setPath] at h
    | int n => simp [Json.setPath] at h
    | str s => simp [Json.setPath] at h

/-- A path that resolves can be written. -/
theorem setPath_isSome_of_getPath (ts : List String) (v : Json) :
    ∀ d x : Json, d.getPath ts = some x → ∃ d', d.setPath ts v = some d' := by
  induction ts with
  | nil =>
    intro d x _
    exact ⟨v, by cases d <;> simp [Json.setPath]⟩
  | cons t ts ih =>
    intro d x h
    cases d with
    | obj kvs =>
      simp only [Json.getPath] at h
      cases hf : findMember t kvs with
      | none => simp [hf] at h
      | some c =>
        simp only [hf] at h
        obtain ⟨c', hc⟩ := ih c x h
        exact ⟨.obj (replaceMember t c' kvs), by simp [Json.setPath, hf, hc]⟩
    | arr xs =>
      simp only [Json.getPath] at h
      cases hi : tokenIndex t with
      | none => simp [hi] at h
      | some i =>
        simp only [hi] at h
        cases hx : xs[i]? with
        | none => simp [hx] at h
        | some c =>
          simp only [hx] at h
          obtain ⟨c', hc⟩ := ih c x h
          exact ⟨.arr (xs.set i c'), by simp [Json.setPath, hi, hx, hc]⟩
    | null => simp [Json.getPath] at h
    | bool b => simp [Json.getPath] at h
    | int n => simp [Json.getPath] at h
    | str s => simp [Json.getPath] at h

/-- Reading a field back after an accepted write gives the written value. -/
theorem getEventValue_setValue (e : Event) (path : String) (v : Json)
    (h : (Document.set e.event path v).1 = true) :
    (e.setValue path v).getEventValue path = some v := by
  unfold EventHandler.getEventValue EventHandler.setValue Document.get
  unfold Document.set at h ⊢
  cases hp : pointerTokens path with
  | none => simp [hp] at h
  | some ts =>
    simp only [hp] at h ⊢
    cases hs : e.event.setPath ts v with
    | none => simp [hs] at h
    | some d' => simpa [hs] using getPath_setPath ts v e.event d' hs

/-- A field that resolves can be overwritten. -/
theorem set_accepted_of_getEventValue (e : Event) (path : String) (v x : Json)
    (h : e.getEventValue path = some x) : (Document.set e.event path v).1 = true := by
  unfold EventHandler.getEventValue Document.get at h
  unfold Document.set
  cases hp : pointerTokens path with
  | none => simp [hp] at h
  | some ts =>
    simp only [hp] at h ⊢
    obtain ⟨d', hd⟩ := setPath_isSome_of_getPath ts v e.event x h
    simp [hd]

/-- Writing the same value twice at the same path is the same as writing it once. -/
theorem setValue_setValue_self (e : Event) (path : String) (v : Json) :
    (e.setValue path v).setValue path v = e.setValue path v := by
  unfold EventHandler.setValue Document.set
  cases hp : pointerTokens path with
  | none => simp
  | some ts =>
    cases hs : e.event.setPath ts v with
    | none => simp [hp, hs]
    | some d' => simp [hp, hs, setPath_setPath_self ts v e.event d' hs]

/-! ## s_concat -/

/-- The loop stops with a failure at a reference that does not resolve to a string. -/
theorem concatLoop_failure (e : Event) (params : List String)
    (hne : ∀ p ∈ params, p.data ≠ [])
    (hbad : ∃ p ∈ params, ∃ cs, p.data = REFERENCE_ANCHOR :: cs ∧
      ∀ s, Document.get e.event (formatJsonPath ⟨cs⟩) ≠ some (.str s)) :
    ∀ acc, concatLoop e params acc = .ok none := by
  induction params with
  | nil => simp at hbad
  | cons q rest ih =>
    intro acc
    have hq := hne q (List.mem_cons_self _ _)
    have hrest : ∀ p ∈ rest, p.data ≠ [] := fun p hp => hne p (List.mem_cons_of_mem _ hp)
    cases hqd : q.data with
    | nil => exact absurd hqd hq
    | cons c cs =>
      by_cases hc : c = REFERENCE_ANCHOR
      · cases hg : Document.get e.event (formatJsonPath ⟨cs⟩) with
        | none => simp [concatLoop, hqd, hc, hg]
        | some x =>
          cases x with
          | str v =>
            have : ∃ p ∈ rest, ∃ cs, p.data = REFERENCE_ANCHOR :: cs ∧
                ∀ s, Document.get e.event (formatJsonPath ⟨cs⟩) ≠ some (.str s) := by
              obtain ⟨p, hp, cs', hpd, hno⟩ := hbad
              rcases List.mem_cons.mp hp with rfl | hp
              · rw [hqd] at hpd
                injection hpd with _ h2
                subst h2
                exact absurd hg (hno v)
              · exact ⟨p, hp, cs', hpd, hno⟩
            simp [concatLoop, hqd, hc, hg, ih hrest this]
          | null => simp [concatLoop, hqd, hc, hg]
          | bool b => simp [concatLoop, hqd, hc, hg]
          | int n => simp [concatLoop, hqd, hc, hg]
          | arr xs => simp [concatLoop, hqd, hc, hg]
          | obj kvs => simp [concatLoop, hqd, hc, hg]
      · have : ∃ p ∈ rest, ∃ cs, p.data = REFERENCE_ANCHOR :: cs ∧
            ∀ s, Document.get e.event (formatJsonPath ⟨cs⟩) ≠ some (.str s) := by
          obtain ⟨p, hp, cs', hpd, hno⟩ := hbad
          rcases List.mem_cons.mp hp with rfl | hp
          · rw [hqd] at hpd
            injection hpd with h1 _
            exact absurd h1 hc
          · exact ⟨p, hp, cs', hpd, hno⟩
        simp [concatLoop, hqd, hc, ih hrest this]

/-- What a successful build of s_concat returns. -/
theorem opBuilderHelperStringConcat_ok (docStr : DocumentValue → String) (d : DocumentValue)
    (lifter : Lifter) (h : opBuilderHelperStringConcat docStr d = .ok lifter) :
    ∃ v, d.value = .str v ∧ 3 ≤ (split (cstr v) '/').length ∧
      (∀ p ∈ (split (cstr v) '/').drop 1, p.data ≠ []) ∧
      lifter = concatLifter (formatJsonPath (cstr d.name)) ((split (cstr v) '/').drop 1)
        (docStr d ++ " s_concat Success") (docStr d ++ " s_concat Failure") := by
  unfold opBuilderHelperStringConcat at h
  cases hv : d.value with
  | str v =>
    simp only [hv] at h
    by_cases hl : (split (cstr v) '/').length < 3
    · rw [if_pos hl] at h
      cases h
    · rw [if_neg hl] at h
      by_cases ha : ((split (cstr v) '/').drop 1).any (fun param => param.data.isEmpty) = true
      · rw [if_pos ha] at h
        cases h
      · rw [if_neg ha] at h
        injection h with h
        refine ⟨v, rfl, by omega, ?_, h.symm⟩
        intro p hp hpe
        apply ha
        rw [List.any_eq_true]
        exact ⟨p, hp, by simp [hpe]⟩
  | null => simp [hv] at h
  | bool b => simp [hv] at h
  | int n => simp [hv] at h
  | arr xs => simp [hv] at h
  | obj kvs => simp [hv] at h

/-- C1. s_concat fails atomically: when a reference segment of a built s_concat operator names
a field that is missing from the event or does not hold a string, the application returns the
event it was given, unchanged, and hands the failure message to the tracer. -/
theorem s_concat_fails_atomically (docStr : DocumentValue → String) (d : DocumentValue)
    (lifter : Lifter) (e : Event) (v p : String) (cs : List Char)
    (hb : opBuilderHelperStringConcat docStr d = .ok lifter)
    (hv : d.value = .str v)
    (hp : p ∈ (split (cstr v) '/').drop 1)
    (hpd : p.data = REFERENCE_ANCHOR :: cs)
    (hbad : ∀ s, Document.get e.event (formatJsonPath ⟨cs⟩) ≠ some (.str s)) :
    lifter e = .ok (e, [docStr d ++ " s_concat Failure"]) := by
  obtain ⟨v', hv', _, hne, hl⟩ := opBuilderHelperStringConcat_ok docStr d lifter hb
  rw [hv] at hv'
  injection hv' with hv'
  subst hv'
  subst hl
  have := concatLoop_failure e _ hne ⟨p, hp, cs, hpd, hbad⟩ ""
  simp only [concatLifter, this]

theorem s_concat_fails_atomically_witness :
    concatLifter "/f" ["a", "$g", "b"] "D s_concat Success" "D s_concat Failure"
        ⟨false, .obj [("f", .str "old"), ("g", .int 1)]⟩ =
      .ok (⟨false, .obj [("f", .str "old"), ("g", .int 1)]⟩, ["D s_concat Failure"]) :=
  s_concat_fails_atomically (fun _ => "D") ⟨"f", .str "+s_concat/a/$g/b"⟩
    (concatLifter "/f" ["a", "$g", "b"] "D s_concat Success" "D s_concat Failure")
    ⟨false, .obj [("f", .str "old"), ("g", .int 1)]⟩ "+s_concat/a/$g/b" "$g" ['g']
    rfl rfl (by decide) rfl (fun s h => by cases h)

/-! ## C strings -/

theorem cstr_nulFree (s : String) : NulFree (cstr s) := by
  intro c hc
  have := List.mem_takeWhile_imp hc
  simpa using this

theorem cstr_eq_self (s : String) (h : NulFree s) : cstr s = s := by
  unfold cstr
  have : s.data.takeWhile (fun c => c != '\x00') = s.data := by
    rw [List.takeWhile_eq_self_iff]
    intro c hc
    simpa using h c hc
  rw [this]

theorem nulFree_append (a b : String) (ha : NulFree a) (hb : NulFree b) : NulFree (a ++ b) := by
  intro c hc
  rw [String.data_append, List.mem_append] at hc
  rcases hc with hc | hc
  · exact ha c hc
  · exact hb c hc

theorem splitAux_chars (delim : Char) (cs : List Char) :
    ∀ cur t, t ∈ splitAux delim cs cur → ∀ c ∈ t.data, c ∈ cs ∨ c ∈ cur := by
  induction cs with
  | nil =>
    intro cur t ht c hc
    by_cases hcur : cur.isEmpty = true
    · simp [splitAux, hcur] at ht
    · simp only [splitAux, hcur] at ht
      simp only [Bool.false_eq_true, if_false, List.mem_singleton] at ht
      subst ht
      right
      simpa using hc
  | cons x xs ih =>
    intro cur t ht c hc
    by_cases hx : x = delim
    · simp only [splitAux, hx, if_true, List.mem_cons] at ht
      rcases ht with rfl | ht
      · right
        simpa using hc
      · rcases ih [] t ht c hc with h | h
        · exact Or.inl (List.mem_cons_of_mem _ h)
        · simp at h
    · simp only [splitAux, hx, if_false] at ht
      rcases ih (x :: cur) t ht c hc with h | h
      · exact Or.inl (List.mem_cons_of_mem _ h)
      · rcases List.mem_cons.mp h with rfl | h
        · exact Or.inl (List.mem_cons_self _ _)
        · exact Or.inr h

/-- The tokens of a string without NUL hold no NUL. -/
theorem split_nulFree (s : String) (delim : Char) (h : NulFree s) :
    ∀ t ∈ split s delim, NulFree t := by
  intro t ht c hc
  rcases splitAux_chars delim s.data [] t ht c hc with h1 | h1
  · exact h c h1
  · simp at h1

theorem concatLoop_success (e : Event) (params : List String)
    (hall : ∀ p ∈ params, (segmentValue e p).isSome = true) :
    ∀ acc, concatLoop e params acc =
      .ok (some (acc ++ concatAll (params.filterMap (segmentValue e)))) := by
  induction params with
  | nil =>
    intro acc
    simp [concatLoop, concatAll]
  | cons q rest ih =>
    intro acc
    have hq := hall q (List.mem_cons_self _ _)
    have hrest : ∀ p ∈ rest, (segmentValue e p).isSome = true :=
      fun p hp => hall p (List.mem_cons_of_mem _ hp)
    unfold segmentValue at hq
    cases hqd : q.data with
    | nil => simp [hqd] at hq
    | cons c cs =>
      simp only [hqd] at hq
      by_cases hc : c = REFERENCE_ANCHOR
      · simp only [hc, if_true] at hq
        cases hg : Document.get e.event (formatJsonPath ⟨cs⟩) with
        | none => simp [hg] at hq
        | some x =>
          cases x with
          | str v =>
            have hsv : segmentValue e q = some (cstr v) := by
              simp [segmentValue, hqd, hc, hg]
            simp [concatLoop, hqd, hc, hg, ih hrest, List.filterMap_cons, hsv, concatAll,
              String.append_assoc]
          | null => simp [hg] at hq
          | bool b => simp [hg] at hq
          | int n => simp [hg] at hq
          | arr xs => simp [hg] at hq
          | obj kvs => simp [hg] at hq
      · have hsv : segmentValue e q = some q := by
          simp [segmentValue, hqd, hc]
        simp [concatLoop, hqd, hc, ih hrest, List.filterMap_cons, hsv, concatAll,
          String.append_assoc]

theorem segmentValue_nulFree (e : Event) (p s : String) (hp : NulFree p)
    (h : segmentValue e p = some s) : NulFree s := by
  unfold segmentValue at h
  cases hpd : p.data with
  | nil => simp [hpd] at h
  | cons c cs =>
    simp only [hpd] at h
    by_cases hc : c = REFERENCE_ANCHOR
    · simp only [hc, if_true] at h
      cases hg : Document.get e.event (formatJsonPath ⟨cs⟩) with
      | none => simp [hg] at h
      | some x =>
        cases x with
        | str v =>
          simp only [hg, Option.some.injEq] at h
          subst h
          exact cstr_nulFree v
        | null => simp [hg] at h
        | bool b => simp [hg] at h
        | int n => simp [hg] at h
        | arr xs => simp [hg] at h
        | obj kvs => simp [hg] at h
    · simp only [hc, if_false, Option.some.injEq] at h
      subst h
      exact hp

theorem concatAll_nulFree (l : List String) (h : ∀ s ∈ l, NulFree s) :
    NulFree (concatAll l) := by
  induction l with
  | nil =>
    intro c hc
    simp [concatAll] at hc
  | cons s rest ih =>
    exact nulFree_append _ _ (h s (List.mem_cons_self _ _))
      (ih (fun t ht => h t (List.mem_cons_of_mem _ ht)))

/-- C2 (amended). s_concat is order-preserving: when every reference segment of a built
s_concat operator resolves to a string, the application writes to the target field the
concatenation, in parameter order, of the segment values (the text of a literal segment; for a
reference segment the string of the referenced field read up to its first NUL character) and
hands the success message to the tracer; the target then holds that string whenever the
document accepts the write. -/
theorem s_concat_order_preserving (docStr : DocumentValue → String) (d : DocumentValue)
    (lifter : Lifter) (e : Event) (v : String)
    (hb : opBuilderHelperStringConcat docStr d = .ok lifter)
    (hv : d.value = .str v)
    (hall : ∀ p ∈ (split (cstr v) '/').drop 1, (segmentValue e p).isSome = true) :
    lifter e =
        .ok (e.setValue (formatJsonPath (cstr d.name))
            (.str (concatAll (((split (cstr v) '/').drop 1).filterMap (segmentValue e)))),
          [docStr d ++ " s_concat Success"]) ∧
      ((Document.set e.event (formatJsonPath (cstr d.name))
          (.str (concatAll (((split (cstr v) '/').drop 1).filterMap (segmentValue e))))).1 = true →
        (e.setValue (formatJsonPath (cstr d.name))
            (.str (concatAll (((split (cstr v) '/').drop 1).filterMap
              (segmentValue e))))).getEventValue (formatJsonPath (cstr d.name)) =
          some (.str (concatAll (((split (cstr v) '/').drop 1).filterMap (segmentValue e))))) := by
  obtain ⟨v', hv', _, _, hl⟩ := opBuilderHelperStringConcat_ok docStr d lifter hb
  rw [hv] at hv'
  injection hv' with hv'
  subst hv'
  subst hl
  refine ⟨?_, getEventValue_setValue e _ _⟩
  have hloop := concatLoop_success e _ hall ""
  have hnf : NulFree (concatAll (((split (cstr v) '/').drop 1).filterMap (segmentValue e))) := by
    apply concatAll_nulFree
    intro s hs
    obtain ⟨p, hp, hps⟩ := List.mem_filterMap.mp hs
    exact segmentValue_nulFree e p s
      (split_nulFree (cstr v) '/' (cstr_nulFree v) p (List.mem_of_mem_drop hp)) hps
  simp only [concatLifter, hloop, String.empty_append, cstr_eq_self _ hnf]

theorem s_concat_order_preserving_witness :
    concatLifter "/f" ["a", "$g", "b"] "D s_concat Success" "D s_concat Failure"
        ⟨false, .obj [("g", .str "-x-")]⟩ =
      .ok (⟨false, .obj [("g", .str "-x-"), ("f", .str "a-x-b")]⟩, ["D s_concat Success"]) :=
  (s_concat_order_preserving (fun _ => "D") ⟨"f", .str "+s_concat/a/$g/b"⟩
    (concatLifter "/f" ["a", "$g", "b"] "D s_concat Success" "D s_concat Failure")
    ⟨false, .obj [("g", .str "-x-")]⟩ "+s_concat/a/$g/b" rfl rfl (by decide)).1

/-- C2 as stated fails: the referenced field holds the three characters `a`, NUL, `b`; the
reference resolves to that string, yet the target receives `ac`, not the concatenation of the
field's string with the literal `c`. -/
theorem s_concat_order_preserving_counterexample :
    opBuilderHelperStringConcat (fun _ => "D") ⟨"f", .str "+s_concat/$g/c"⟩ =
        .ok (concatLifter "/f" ["$g", "c"] "D s_concat Success" "D s_concat Failure") ∧
      Document.get (.obj [("g", .str "a\x00b")]) "/g" = some (.str "a\x00b") ∧
      concatLifter "/f" ["$g", "c"] "D s_concat Success" "D s_concat Failure"
          ⟨false, .obj [("g", .str "a\x00b")]⟩ =
        .ok (⟨false, .obj [("g", .str "a\x00b"), ("f", .str "ac")]⟩, ["D s_concat Success"]) ∧
      "ac" ≠ "a\x00b" ++ "c" :=
  ⟨rfl, rfl, rfl, by decide⟩

/-! ## i_calc -/

/-- What a successful build of i_calc returns. -/
theorem opBuilderHelperIntCalc_ok (d : DocumentValue) (lifter : Lifter)
    (h : opBuilderHelperIntCalc d = .ok lifter) :
    ∃ v t0 op p2, d.value = .str v ∧ split (cstr v) '/' = [t0, op, p2] ∧
      (op = "sum" ∨ op = "sub" ∨ op = "mul" ∨ op = "div") ∧
      ¬(op = "div" ∧ p2 = "0") ∧
      ((front0 p2 = REFERENCE_ANCHOR ∧
          lifter = intCalcLifter (formatJsonPath (cstr d.name)) op
            (some (formatJsonPath (substr p2 1))) none) ∨
        (front0 p2 ≠ REFERENCE_ANCHOR ∧ ∃ n, stoi p2 = .ok n ∧
          lifter = intCalcLifter (formatJsonPath (cstr d.name)) op none (some n))) := by
  unfold opBuilderHelperIntCalc at h
  cases hv : d.value with
  | str v =>
    simp only [hv] at h
    split at h
    · rename_i t0 op p2 hs
      refine ⟨v, t0, op, p2, rfl, hs, ?_⟩
      by_cases hop : op ≠ "sum" ∧ op ≠ "sub" ∧ op ≠ "mul" ∧ op ≠ "div"
      · rw [if_pos hop] at h
        cases h
      · rw [if_neg hop] at h
        by_cases hz : op = "div" ∧ p2 = "0"
        · rw [if_pos hz] at h
          cases h
        · rw [if_neg hz] at h
          refine ⟨by tauto, hz, ?_⟩
          by_cases hr : front0 p2 = REFERENCE_ANCHOR
          · rw [if_pos hr] at h
            injection h with h
            exact Or.inl ⟨hr, h.symm⟩
          · rw [if_neg hr] at h
            cases hst : stoi p2 with
            | error ex => simp [hst] at h
            | ok n =>
              simp only [hst] at h
              injection h with h
              exact Or.inr ⟨hr, n, rfl, h.symm⟩
    · cases h
  | null => simp [hv] at h
  | bool b => simp [hv] at h
  | int n => simp [hv] at h
  | arr xs => simp [hv] at h
  | obj kvs => simp [hv] at h

/-- C3. Building an i_calc operator whose tokens are the operator name, `div` and the literal
operand `0` raises the runtime error `Division by zero`, whatever the target field is; no
operator is returned, so no event is involved. -/
theorem i_calc_literal_zero_divisor_rejected (d : DocumentValue) (v t0 : String)
    (hv : d.value = .str v) (hs : split (cstr v) '/' = [t0, "div", "0"]) :
    opBuilderHelperIntCalc d = .error (.runtime_error "Division by zero") := by
  unfold opBuilderHelperIntCalc
  simp only [hv, hs]
  rw [if_neg (by decide), if_pos (by decide)]

theorem i_calc_literal_zero_divisor_rejected_witness :
    opBuilderHelperIntCalc ⟨"any.field", .str "+i_calc/div/0"⟩ =
      .error (.runtime_error "Division by zero") :=
  i_calc_literal_zero_divisor_rejected ⟨"any.field", .str "+i_calc/div/0"⟩ "+i_calc/div/0"
    "+i_calc" rfl rfl

theorem wrap32_of_fits (r : Int) (h1 : INT_MIN ≤ r) (h2 : r ≤ INT_MAX) : wrap32 r = r := by
  unfold INT_MIN at h1
  unfold INT_MAX at h2
  unfold wrap32
  omega

/-- The integer transformation with a resolved operand `b` on a target holding `a`. -/
theorem intTransformation_resolved (field op : String) (e : Event)
    (refValue : Option String) (value : Option Int) (a b : Int)
    (ha : e.getEventValue field = some (.int a)) (hia : INT_MIN ≤ a ∧ a ≤ INT_MAX)
    (hop : (∃ r, refValue = some r ∧ e.getEventValue r = some (.int b) ∧
        INT_MIN ≤ b ∧ b ≤ INT_MAX) ∨ (refValue = none ∧ value = some b)) :
    opBuilderHelperIntTransformation field op e refValue value =
      match intOperation op a b with
      | .ok (some r) => .ok (e.setValue field (.int r))
      | .ok none => .ok e
      | .error ex => .error ex := by
  unfold opBuilderHelperIntTransformation
  have hint : (Json.int a).IsInt = true := by simp [Json.IsInt, hia.1, hia.2]
  simp only [ha, hint, if_true]
  rcases hop with ⟨r, hr, hg, hb1, hb2⟩ | ⟨hr, hval⟩
  · have hintb : (Json.int b).IsInt = true := by simp [Json.IsInt, hb1, hb2]
    simp only [hr, hg, hintb, if_true]
  · simp only [hr, hval]

/-- The target of i_calc is returned as received when it does not hold a 32-bit integer. -/
theorem intTransformation_target_not_int (field op : String) (e : Event)
    (refValue : Option String) (value : Option Int)
    (h : ∀ a, e.getEventValue field = some (.int a) → ¬(INT_MIN ≤ a ∧ a ≤ INT_MAX)) :
    opBuilderHelperIntTransformation field op e refValue value = .ok e := by
  unfold opBuilderHelperIntTransformation
  cases hg : e.getEventValue field with
  | none => rfl
  | some x =>
    cases x with
    | int a =>
      have := h a hg
      have hint : (Json.int a).IsInt = false := by
        simp only [Json.IsInt, Bool.and_eq_false_imp, decide_eq_true_eq, decide_eq_false_iff_not]
        intro h1 h2
        exact this ⟨h1, h2⟩
      simp [hint]
    | null => rfl
    | bool b => rfl
    | str s => rfl
    | arr xs => rfl
    | obj kvs => rfl

/-- C4. No built i_calc operator divides by zero: when the operation is `div` and the operand
resolves to 0 (a referenced field holding the integer 0, or a literal other than `0` that
parses to 0), the application returns the event unchanged and raises nothing. -/
theorem i_calc_never_divides_by_zero (d : DocumentValue) (lifter : Lifter) (e : Event)
    (v t0 p2 : String)
    (hb : opBuilderHelperIntCalc d = .ok lifter)
    (hv : d.value = .str v) (hs : split (cstr v) '/' = [t0, "div", p2])
    (hzero : (front0 p2 = REFERENCE_ANCHOR ∧
        e.getEventValue (formatJsonPath (substr p2 1)) = some (.int 0)) ∨
      (front0 p2 ≠ REFERENCE_ANCHOR ∧ stoi p2 = .ok 0)) :
    lifter e = .ok (e, []) := by
  obtain ⟨v', t0', op', p2', hv', hs', _, _, hl⟩ := opBuilderHelperIntCalc_ok d lifter hb
  rw [hv] at hv'
  injection hv' with hv'
  subst hv'
  rw [hs] at hs'
  injection hs' with h1 hs'
  injection hs' with h2 hs'
  injection hs' with h3 _
  subst h1 h2 h3
  have key : ∀ refValue value,
      ((∃ r, refValue = some r ∧ e.getEventValue r = some (.int 0) ∧
          INT_MIN ≤ (0 : Int) ∧ (0 : Int) ≤ INT_MAX) ∨ (refValue = none ∧ value = some 0)) →
      intCalcLifter (formatJsonPath (cstr d.name)) "div" refValue value e = .ok (e, []) := by
    intro refValue value hop
    unfold intCalcLifter
    by_cases hint : ∃ a, e.getEventValue (formatJsonPath (cstr d.name)) = some (.int a) ∧
        INT_MIN ≤ a ∧ a ≤ INT_MAX
    · obtain ⟨a, ha, hia⟩ := hint
      rw [intTransformation_resolved _ _ e refValue value a 0 ha hia hop]
      simp [intOperation]
    · rw [intTransformation_target_not_int]
      intro a ha hia
      exact hint ⟨a, ha, hia⟩
  rcases hl with ⟨hr, hl⟩ | ⟨hr, n, hn, hl⟩
  · subst hl
    rcases hzero with ⟨_, hg⟩ | ⟨hnr, _⟩
    · exact key _ _ (Or.inl ⟨_, rfl, hg, by decide, by decide⟩)
    · exact absurd hr hnr
  · subst hl
    rcases hzero with ⟨hr', _⟩ | ⟨_, hst⟩
    · exact absurd hr' hr
    · rw [hn] at hst
      injection hst with hst
      subst hst
      exact key _ _ (Or.inr ⟨rfl, rfl⟩)

theorem i_calc_never_divides_by_zero_witness :
    intCalcLifter "/f" "div" none (some 0) ⟨false, .obj [("f", .int 7)]⟩ =
        .ok (⟨false, .obj [("f", .int 7)]⟩, []) ∧
      intCalcLifter "/f" "div" (some "/g") none ⟨false, .obj [("f", .int 7), ("g", .int 0)]⟩ =
        .ok (⟨false, .obj [("f", .int 7), ("g", .int 0)]⟩, []) :=
  ⟨i_calc_never_divides_by_zero ⟨"f", .str "+i_calc/div/-0"⟩
      (intCalcLifter "/f" "div" none (some 0)) ⟨false, .obj [("f", .int 7)]⟩
      "+i_calc/div/-0" "+i_calc" "-0" rfl rfl rfl (Or.inr ⟨by decide, rfl⟩),
    i_calc_never_divides_by_zero ⟨"f", .str "+i_calc/div/$g"⟩
      (intCalcLifter "/f" "div" (some "/g") none) ⟨false, .obj [("f", .int 7), ("g", .int 0)]⟩
      "+i_calc/div/$g" "+i_calc" "$g" rfl rfl rfl (Or.inl ⟨rfl, rfl⟩)⟩

theorem intOperation_exact (op : String) (a b : Int)
    (hop : op = "sum" ∨ op = "sub" ∨ op = "mul" ∨ op = "div")
    (hb0 : op = "div" → b ≠ 0)
    (hfit : INT_MIN ≤ exactResult op a b ∧ exactResult op a b ≤ INT_MAX) :
    intOperation op a b = .ok (some (exactResult op a b)) := by
  have hw := wrap32_of_fits _ hfit.1 hfit.2
  rcases hop with h | h | h | h
  · subst h
    simp only [exactResult, if_true] at hw
    simp [intOperation, exactResult, hw]
  · subst h
    have e1 : ¬("sub" = "sum") := by decide
    simp only [exactResult, e1, if_false, if_true] at hw
    simp [intOperation, exactResult, hw]
  · subst h
    have e1 : ¬("mul" = "sum") := by decide
    have e2 : ¬("mul" = "sub") := by decide
    simp only [exactResult, e1, e2, if_false, if_true] at hw
    simp [intOperation, exactResult, hw]
  · subst h
    have e1 : ¬("div" = "sum") := by decide
    have e2 : ¬("div" = "sub") := by decide
    have e3 : ¬("div" = "mul") := by decide
    simp only [exactResult, e1, e2, e3, if_false] at hw
    have hno : ¬(a = INT_MIN ∧ b = -1) := by
      rintro ⟨rfl, rfl⟩
      have h2 := hfit.2
      simp only [exactResult, e1, e2, e3, if_false] at h2
      revert h2
      decide
    simp [intOperation, exactResult, hw, hb0 rfl, hno]

/-- C5. When the target field holds a 32-bit integer `a` and the operand of a built i_calc
operator resolves to a 32-bit integer `b` (not 0 for `div`), and the exact result (`a + b` for
sum, `a - b` for sub, `a * b` for mul, the quotient truncated toward zero for div) fits a signed
32-bit integer, the application overwrites the target field with that exact result: the event
returned is the event after that write, and the target then holds the result. -/
theorem i_calc_exact_arithmetic (d : DocumentValue) (lifter : Lifter) (e : Event)
    (v t0 op p2 : String) (a b : Int)
    (hb : opBuilderHelperIntCalc d = .ok lifter)
    (hv : d.value = .str v) (hs : split (cstr v) '/' = [t0, op, p2])
    (ha : e.getEventValue (formatJsonPath (cstr d.name)) = some (.int a))
    (hia : INT_MIN ≤ a ∧ a ≤ INT_MAX)
    (hoperand : (front0 p2 = REFERENCE_ANCHOR ∧
        e.getEventValue (formatJsonPath (substr p2 1)) = some (.int b) ∧
        INT_MIN ≤ b ∧ b ≤ INT_MAX) ∨
      (front0 p2 ≠ REFERENCE_ANCHOR ∧ stoi p2 = .ok b))
    (hb0 : op = "div" → b ≠ 0)
    (hfit : INT_MIN ≤ exactResult op a b ∧ exactResult op a b ≤ INT_MAX) :
    lifter e = .ok (e.setValue (formatJsonPath (cstr d.name)) (.int (exactResult op a b)), []) ∧
      (e.setValue (formatJsonPath (cstr d.name)) (.int (exactResult op a b))).getEventValue
          (formatJsonPath (cstr d.name)) = some (.int (exactResult op a b)) := by
  obtain ⟨v', t0', op', p2', hv', hs', hop, _, hl⟩ := opBuilderHelperIntCalc_ok d lifter hb
  rw [hv] at hv'
  injection hv' with hv'
  subst hv'
  rw [hs] at hs'
  injection hs' with h1 hs'
  injection hs' with h2 hs'
  injection hs' with h3 _
  subst h1 h2 h3
  refine ⟨?_, getEventValue_setValue e _ _ (set_accepted_of_getEventValue e _ _ _ ha)⟩
  have key : ∀ refValue value,
      ((∃ r, refValue = some r ∧ e.getEventValue r = some (.int b) ∧
          INT_MIN ≤ b ∧ b ≤ INT_MAX) ∨ (refValue = none ∧ value = some b)) →
      intCalcLifter (formatJsonPath (cstr d.name)) op refValue value e =
        .ok (e.setValue (formatJsonPath (cstr d.name)) (.int (exactResult op a b)), []) := by
    intro refValue value hres
    unfold intCalcLifter
    rw [intTransformation_resolved _ _ e refValue value a b ha hia hres,
      intOperation_exact op a b hop hb0 hfit]
  rcases hl with ⟨hr, hl⟩ | ⟨hr, n, hn, hl⟩
  · subst hl
    rcases hoperand with ⟨_, hg, hb1, hb2⟩ | ⟨hnr, _⟩
    · exact key _ _ (Or.inl ⟨_, rfl, hg, hb1, hb2⟩)
    · exact absurd hr hnr
  · subst hl
    rcases hoperand with ⟨hr', _⟩ | ⟨_, hst⟩
    · exact absurd hr' hr
    · rw [hn] at hst
      injection hst with hst
      subst hst
      exact key _ _ (Or.inr ⟨rfl, rfl⟩)

theorem i_calc_exact_arithmetic_witness :
    (intCalcLifter "/f" "div" none (some 2) ⟨false, .obj [("f", .int (-7))]⟩ =
        .ok (⟨false, .obj [("f", .int (-3))]⟩, []) ∧
      EventHandler.getEventValue ⟨false, .obj [("f", .int (-3))]⟩ "/f" = some (.int (-3))) ∧
    (intCalcLifter "/f" "mul" (some "/g") none ⟨false, .obj [("f", .int 6), ("g", .int (-7))]⟩ =
        .ok (⟨false, .obj [("f", .int (-42)), ("g", .int (-7))]⟩, []) ∧
      EventHandler.getEventValue ⟨false, .obj [("f", .int (-42)), ("g", .int (-7))]⟩ "/f" =
        some (.int (-42))) :=
  ⟨i_calc_exact_arithmetic ⟨"f", .str "+i_calc/div/2"⟩
      (intCalcLifter "/f" "div" none (some 2)) ⟨false, .obj [("f", .int (-7))]⟩
      "+i_calc/div/2" "+i_calc" "div" "2" (-7) 2 rfl rfl rfl rfl (by decide)
      (Or.inr ⟨by decide, rfl⟩) (by decide) (by decide),
    i_calc_exact_arithmetic ⟨"f", .str "+i_calc/mul/$g"⟩
      (intCalcLifter "/f" "mul" (some "/g") none) ⟨false, .obj [("f", .int 6), ("g", .int (-7))]⟩
      "+i_calc/mul/$g" "+i_calc" "mul" "$g" 6 (-7) rfl rfl rfl rfl (by decide)
      (Or.inl ⟨rfl, rfl, by decide, by decide⟩) (by decide) (by decide)⟩

/-! ## s_up and s_lo -/

theorem toupper_ne_nul (c : Char) (h : c ≠ '\x00') : toupper c ≠ '\x00' := by
  unfold toupper Char.toUpper
  by_cases hr : c.toNat ≥ 97 ∧ c.toNat ≤ 122
  · simp only [hr, and_self, if_true]
    obtain ⟨h1, h2⟩ := hr
    generalize c.toNat = n at h1 h2
    interval_cases n <;> decide
  · simpa [hr] using h

theorem tolower_ne_nul (c : Char) (h : c ≠ '\x00') : tolower c ≠ '\x00' := by
  unfold tolower Char.toLower
  by_cases hr : c.toNat ≥ 65 ∧ c.toNat ≤ 90
  · simp only [hr, and_self, if_true]
    obtain ⟨h1, h2⟩ := hr
    generalize c.toNat = n at h1 h2
    interval_cases n <;> decide
  · simpa [hr] using h

theorem transform_nulFree (f : Char → Char) (hf : ∀ c, c ≠ '\x00' → f c ≠ '\x00') (s : String)
    (h : NulFree s) : NulFree (transform f s) := by
  intro c hc
  simp only [transform, List.mem_map] at hc
  obtain ⟨x, hx, rfl⟩ := hc
  exact hf x (h x hx)

/-- What a successful build of s_up returns. -/
theorem opBuilderHelperStringUP_ok (d : DocumentValue) (lifter : Lifter)
    (h : opBuilderHelperStringUP d = .ok lifter) :
    ∃ v t0 p1, d.value = .str v ∧ split (cstr v) '/' = [t0, p1] ∧
      lifter = caseLifter (formatJsonPath (cstr d.name)) 'u' (sourceOf p1).1 (sourceOf p1).2 := by
  unfold opBuilderHelperStringUP at h
  cases hv : d.value with
  | str v =>
    simp only [hv] at h
    split at h
    · rename_i t0 p1 hs
      injection h with h
      exact ⟨v, t0, p1, rfl, hs, h.symm⟩
    · cases h
  | null => simp [hv] at h
  | bool b => simp [hv] at h
  | int n => simp [hv] at h
  | arr xs => simp [hv] at h
  | obj kvs => simp [hv] at h

/-- What a successful build of s_lo returns. -/
theorem opBuilderHelperStringLO_ok (d : DocumentValue) (lifter : Lifter)
    (h : opBuilderHelperStringLO d = .ok lifter) :
    ∃ v t0 p1, d.value = .str v ∧ split (cstr v) '/' = [t0, p1] ∧
      lifter = caseLifter (formatJsonPath (cstr d.name)) 'l' (sourceOf p1).1 (sourceOf p1).2 := by
  unfold opBuilderHelperStringLO at h
  cases hv : d.value with
  | str v =>
    simp only [hv] at h
    split at h
    · rename_i t0 p1 hs
      injection h with h
      exact ⟨v, t0, p1, rfl, hs, h.symm⟩
    · cases h
  | null => simp [hv] at h
  | bool b => simp [hv] at h
  | int n => simp [hv] at h
  | arr xs => simp [hv] at h
  | obj kvs => simp [hv] at h

/-- A reference source that does not resolve to a string: the event is returned as it is. -/
theorem caseLifter_unresolved (key : String) (op : Char) (p1 : String) (e : Event)
    (hr : front0 p1 = REFERENCE_ANCHOR)
    (hbad : ∀ s, e.getEventValue (formatJsonPath (substr p1 1)) ≠ some (.str s)) :
    caseLifter key op (sourceOf p1).1 (sourceOf p1).2 e = .ok (e, []) := by
  unfold caseLifter opBuilderHelperStringTransformation sourceOf
  cases hg : e.getEventValue (formatJsonPath (substr p1 1)) with
  | none => simp only [hr, if_true, hg]
  | some x =>
    cases x with
    | str s => exact absurd hg (hbad s)
    | null => simp only [hr, if_true, hg]
    | bool b => simp only [hr, if_true, hg]
    | int n => simp only [hr, if_true, hg]
    | arr xs => simp only [hr, if_true, hg]
    | obj kvs => simp only [hr, if_true, hg]

/-- A source that resolves to the string `s`: the converted C string is written. -/
theorem caseLifter_resolved (key : String) (op : Char) (f : Char → Char) (p1 s : String)
    (e : Event)
    (hop : (op = 'u' ∧ f = toupper) ∨ (op = 'l' ∧ f = tolower))
    (hp1 : NulFree p1)
    (hsrc : (front0 p1 = REFERENCE_ANCHOR ∧
        e.getEventValue (formatJsonPath (substr p1 1)) = some (.str s)) ∨
      (front0 p1 ≠ REFERENCE_ANCHOR ∧ s = p1)) :
    caseLifter key op (sourceOf p1).1 (sourceOf p1).2 e =
      .ok (e.setValue key (.str (transform f (cstr s))), []) := by
  have hf : ∀ c, c ≠ '\x00' → f c ≠ '\x00' := by
    rcases hop with ⟨_, rfl⟩ | ⟨_, rfl⟩
    · exact toupper_ne_nul
    · exact tolower_ne_nul
  have hc := cstr_eq_self _ (transform_nulFree f hf (cstr s) (cstr_nulFree s))
  have hl : ¬('l' = 'u') := by decide
  unfold caseLifter opBuilderHelperStringTransformation sourceOf
  rcases hsrc with ⟨hr, hg⟩ | ⟨hr, rfl⟩
  · simp only [hr, if_true, hg]
    rcases hop with ⟨rfl, rfl⟩ | ⟨rfl, rfl⟩
    · simp only [if_true, hc]
    · simp only [hl, if_false, if_true, hc]
  · simp only [hr, if_false]
    have hs := cstr_eq_self _ hp1
    rw [hs] at hc
    rcases hop with ⟨rfl, rfl⟩ | ⟨rfl, rfl⟩
    · simp only [if_true, hc, hs]
    · simp only [hl, if_false, if_true, hc, hs]

/-- The lifter a case builder returned, from either builder. -/
theorem caseBuilder_ok (d : DocumentValue) (lifter : Lifter) (v t0 p1 : String)
    (hv : d.value = .str v) (hs : split (cstr v) '/' = [t0, p1]) :
    (opBuilderHelperStringUP d = .ok lifter →
      lifter = caseLifter (formatJsonPath (cstr d.name)) 'u' (sourceOf p1).1 (sourceOf p1).2) ∧
    (opBuilderHelperStringLO d = .ok lifter →
      lifter = caseLifter (formatJsonPath (cstr d.name)) 'l' (sourceOf p1).1 (sourceOf p1).2) := by
  constructor
  · intro hb
    obtain ⟨v', t0', p1', hv', hs', hl⟩ := opBuilderHelperStringUP_ok d lifter hb
    rw [hv] at hv'
    injection hv' with hv'
    subst hv'
    rw [hs] at hs'
    injection hs' with _ hs'
    injection hs' with h2 _
    subst h2
    exact hl
  · intro hb
    obtain ⟨v', t0', p1', hv', hs', hl⟩ := opBuilderHelperStringLO_ok d lifter hb
    rw [hv] at hv'
    injection hv' with hv'
    subst hv'
    rw [hs] at hs'
    injection hs' with _ hs'
    injection hs' with h2 _
    subst h2
    exact hl

/-- C8. A built s_up or s_lo operator whose source is a `$` reference leaves the event unchanged
and raises nothing when the referenced field is missing from the event or does not hold a
string. -/
theorem case_transform_unresolved_reference_noop (d : DocumentValue) (lifter : Lifter)
    (e : Event) (v t0 p1 : String)
    (hb : opBuilderHelperStringUP d = .ok lifter ∨ opBuilderHelperStringLO d = .ok lifter)
    (hv : d.value = .str v) (hs : split (cstr v) '/' = [t0, p1])
    (hr : front0 p1 = REFERENCE_ANCHOR)
    (hbad : ∀ s, e.getEventValue (formatJsonPath (substr p1 1)) ≠ some (.str s)) :
    lifter e = .ok (e, []) := by
  obtain ⟨hu, hl⟩ := caseBuilder_ok d lifter v t0 p1 hv hs
  rcases hb with hb | hb
  · rw [hu hb]
    exact caseLifter_unresolved _ _ p1 e hr hbad
  · rw [hl hb]
    exact caseLifter_unresolved _ _ p1 e hr hbad

theorem case_transform_unresolved_reference_noop_witness :
    caseLifter "/f" 'l' (some "/g") none ⟨false, .obj [("f", .str "Keep"), ("g", .bool true)]⟩ =
      .ok (⟨false, .obj [("f", .str "Keep"), ("g", .bool true)]⟩, []) :=
  case_transform_unresolved_reference_noop ⟨"f", .str "+s_lo/$g"⟩
    (caseLifter "/f" 'l' (some "/g") none)
    ⟨false, .obj [("f", .str "Keep"), ("g", .bool true)]⟩ "+s_lo/$g" "+s_lo" "$g"
    (Or.inr rfl) rfl rfl rfl (fun s h => by cases h)

/-- C7 (amended). When the source of a built s_up (resp. s_lo) operator resolves to a string
`s` (a literal fixed at build time, or a `$` reference naming a string field of the event), the
application writes to the target field the upper-case (resp. lower-case) image of `s` read up to
its first NUL character: a string of the length of that part whose i-th character is the image
of its i-th character.  That part is all of `s` when `s` holds no NUL character, and the target
holds the written string whenever the document accepts the write. -/
theorem case_transform_writes_image (d : DocumentValue) (lifter : Lifter) (e : Event)
    (v t0 p1 s : String)
    (hv : d.value = .str v) (hs : split (cstr v) '/' = [t0, p1])
    (hsrc : (front0 p1 = REFERENCE_ANCHOR ∧
        e.getEventValue (formatJsonPath (substr p1 1)) = some (.str s)) ∨
      (front0 p1 ≠ REFERENCE_ANCHOR ∧ s = p1)) :
    (opBuilderHelperStringUP d = .ok lifter →
      lifter e = .ok (e.setValue (formatJsonPath (cstr d.name))
        (.str (transform toupper (cstr s))), [])) ∧
    (opBuilderHelperStringLO d = .ok lifter →
      lifter e = .ok (e.setValue (formatJsonPath (cstr d.name))
        (.str (transform tolower (cstr s))), [])) ∧
    (∀ f : Char → Char, (transform f (cstr s)).data.length = (cstr s).data.length ∧
      ∀ (i : Nat) (c : Char), (cstr s).data[i]? = some c →
        (transform f (cstr s)).data[i]? = some (f c)) ∧
    (NulFree s → cstr s = s) ∧
    (∀ x, (Document.set e.event (formatJsonPath (cstr d.name)) x).1 = true →
      (e.setValue (formatJsonPath (cstr d.name)) x).getEventValue
        (formatJsonPath (cstr d.name)) = some x) := by
  obtain ⟨hu, hl⟩ := caseBuilder_ok d lifter v t0 p1 hv hs
  have hp1 : NulFree p1 := by
    apply split_nulFree (cstr v) '/' (cstr_nulFree v)
    rw [hs]
    simp
  refine ⟨?_, ?_, ?_, cstr_eq_self s, fun x hx => getEventValue_setValue e _ x hx⟩
  · intro hb
    rw [hu hb]
    exact caseLifter_resolved _ 'u' toupper p1 s e (Or.inl ⟨rfl, rfl⟩) hp1 hsrc
  · intro hb
    rw [hl hb]
    exact caseLifter_resolved _ 'l' tolower p1 s e (Or.inr ⟨rfl, rfl⟩) hp1 hsrc
  · intro f
    refine ⟨by simp [transform], ?_⟩
    intro i c hc
    simp [transform, List.getElem?_map, hc]

theorem case_transform_writes_image_witness :
    caseLifter "/f" 'u' (some "/g") none ⟨false, .obj [("g", .str "aBc1")]⟩ =
        .ok (⟨false, .obj [("g", .str "aBc1"), ("f", .str "ABC1")]⟩, []) ∧
      caseLifter "/f" 'l' none (some "aBc1") ⟨false, .obj [("f", .str "old")]⟩ =
        .ok (⟨false, .obj [("f", .str "abc1")]⟩, []) :=
  ⟨(case_transform_writes_image ⟨"f", .str "+s_up/$g"⟩ (caseLifter "/f" 'u' (some "/g") none)
      ⟨false, .obj [("g", .str "aBc1")]⟩ "+s_up/$g" "+s_up" "$g" "aBc1" rfl rfl
      (Or.inl ⟨rfl, rfl⟩)).1 rfl,
    (case_transform_writes_image ⟨"f", .str "+s_lo/aBc1"⟩ (caseLifter "/f" 'l' none (some "aBc1"))
      ⟨false, .obj [("f", .str "old")]⟩ "+s_lo/aBc1" "+s_lo" "aBc1" "aBc1" rfl rfl
      (Or.inr ⟨by decide, rfl⟩)).2.1 rfl⟩

/-- C7 as stated fails: the referenced field holds the three characters `a`, NUL, `b`; the
target receives the one-character string `A`, which has not the length of the source. -/
theorem case_transform_writes_image_counterexample :
    opBuilderHelperStringUP ⟨"f", .str "+s_up/$g"⟩ =
        .ok (caseLifter "/f" 'u' (some "/g") none) ∧
      EventHandler.getEventValue ⟨false, .obj [("g", .str "a\x00b")]⟩ "/g" =
        some (.str "a\x00b") ∧
      caseLifter "/f" 'u' (some "/g") none ⟨false, .obj [("g", .str "a\x00b")]⟩ =
        .ok (⟨false, .obj [("g", .str "a\x00b"), ("f", .str "A")]⟩, []) ∧
      "A".length ≠ "a\x00b".length :=
  ⟨rfl, rfl, rfl, by decide⟩

/-- C6 (amended). On an event whose target field is not a string, a built s_up or s_lo operator
leaves the event unchanged when its source is a `$` reference to a field that is missing or is
not a string, in particular a reference to the target field itself.  With a literal source the
operator writes the converted literal to the target field, and the event is not left unchanged
once the document accepts that write. -/
theorem case_transform_target_not_string (d : DocumentValue) (lifter : Lifter) (e : Event)
    (v t0 p1 : String)
    (hb : opBuilderHelperStringUP d = .ok lifter ∨ opBuilderHelperStringLO d = .ok lifter)
    (hv : d.value = .str v) (hs : split (cstr v) '/' = [t0, p1])
    (htarget : ∀ s, e.getEventValue (formatJsonPath (cstr d.name)) ≠ some (.str s)) :
    (front0 p1 = REFERENCE_ANCHOR →
      (∀ s, e.getEventValue (formatJsonPath (substr p1 1)) ≠ some (.str s)) →
      lifter e = .ok (e, [])) ∧
    (front0 p1 = REFERENCE_ANCHOR →
      formatJsonPath (substr p1 1) = formatJsonPath (cstr d.name) → lifter e = .ok (e, [])) ∧
    (front0 p1 ≠ REFERENCE_ANCHOR →
      ∃ t, (t = transform toupper p1 ∨ t = transform tolower p1) ∧
        lifter e = .ok (e.setValue (formatJsonPath (cstr d.name)) (.str t), []) ∧
        ((Document.set e.event (formatJsonPath (cstr d.name)) (.str t)).1 = true →
          e.setValue (formatJsonPath (cstr d.name)) (.str t) ≠ e)) := by
  obtain ⟨hu, hl⟩ := caseBuilder_ok d lifter v t0 p1 hv hs
  have hp1 : NulFree p1 := by
    apply split_nulFree (cstr v) '/' (cstr_nulFree v)
    rw [hs]
    simp
  have hnoop : front0 p1 = REFERENCE_ANCHOR →
      (∀ s, e.getEventValue (formatJsonPath (substr p1 1)) ≠ some (.str s)) →
      lifter e = .ok (e, []) := by
    intro hr hbad
    rcases hb with hb | hb
    · rw [hu hb]
      exact caseLifter_unresolved _ _ p1 e hr hbad
    · rw [hl hb]
      exact caseLifter_unresolved _ _ p1 e hr hbad
  refine ⟨hnoop, ?_, ?_⟩
  · intro hr hsame
    apply hnoop hr
    rw [hsame]
    exact htarget
  · intro hr
    have hchanged : ∀ t, (Document.set e.event (formatJsonPath (cstr d.name)) (.str t)).1 = true →
        e.setValue (formatJsonPath (cstr d.name)) (.str t) ≠ e := by
      intro t hacc heq
      have := getEventValue_setValue e _ (.str t) hacc
      rw [heq] at this
      exact htarget t this
    rcases hb with hb | hb
    · refine ⟨transform toupper p1, Or.inl rfl, ?_, hchanged _⟩
      rw [hu hb]
      have := caseLifter_resolved (formatJsonPath (cstr d.name)) 'u' toupper p1 p1 e
        (Or.inl ⟨rfl, rfl⟩) hp1 (Or.inr ⟨hr, rfl⟩)
      rw [cstr_eq_self p1 hp1] at this
      exact this
    · refine ⟨transform tolower p1, Or.inr rfl, ?_, hchanged _⟩
      rw [hl hb]
      have := caseLifter_resolved (formatJsonPath (cstr d.name)) 'l' tolower p1 p1 e
        (Or.inr ⟨rfl, rfl⟩) hp1 (Or.inr ⟨hr, rfl⟩)
      rw [cstr_eq_self p1 hp1] at this
      exact this

theorem case_transform_target_not_string_witness :
    caseLifter "/f" 'u' (some "/f") none ⟨false, .obj [("f", .int 1)]⟩ =
      .ok (⟨false, .obj [("f", .int 1)]⟩, []) :=
  (case_transform_target_not_string ⟨"f", .str "+s_up/$f"⟩
    (caseLifter "/f" 'u' (some "/f") none) ⟨false, .obj [("f", .int 1)]⟩
    "+s_up/$f" "+s_up" "$f" (Or.inl rfl) rfl rfl (fun s h => by cases h)).2.1 rfl rfl

/-- C6 as stated fails: the target field holds the integer 1, not a string, and the s_up
operator built with the literal source `abc` replaces it by the string `ABC`. -/
theorem case_transform_target_not_string_counterexample :
    opBuilderHelperStringUP ⟨"f", .str "+s_up/abc"⟩ =
        .ok (caseLifter "/f" 'u' none (some "abc")) ∧
      EventHandler.getEventValue ⟨false, .obj [("f", .int 1)]⟩ "/f" = some (.int 1) ∧
      caseLifter "/f" 'u' none (some "abc") ⟨false, .obj [("f", .int 1)]⟩ =
        .ok (⟨false, .obj [("f", .str "ABC")]⟩, []) ∧
      (⟨false, .obj [("f", .str "ABC")]⟩ : Event) ≠ ⟨false, .obj [("f", .int 1)]⟩ :=
  ⟨rfl, rfl, rfl, by simp⟩

/-! ## s_trim -/

theorem data_of_utf8ByteSize_one (t : String) (h : t.utf8ByteSize = 1) :
    ∃ c, t.data = [c] := by
  obtain ⟨l⟩ := t
  cases l with
  | nil => simp [String.utf8ByteSize, String.utf8ByteSize.go] at h
  | cons c rest =>
    cases rest with
    | nil => exact ⟨c, rfl⟩
    | cons c2 rest2 =>
      exfalso
      have h1 := Char.utf8Size_pos c
      have h2 := Char.utf8Size_pos c2
      simp only [String.utf8ByteSize, String.utf8ByteSize.go] at h
      omega

/-- The position `find_first_not_of` returns, in terms of the leading run. -/
theorem find_first_not_of_spec (chars : String) (c : Char) (hc : chars.data = [c]) :
    ∀ l : List Char,
      match find_first_not_of chars l with
      | none => l.dropWhile (fun x => x == c) = []
      | some n => n < l.length ∧ l.drop n = l.dropWhile (fun x => x == c) := by
  intro l
  induction l with
  | nil => simp [find_first_not_of]
  | cons x xs ih =>
    by_cases hx : x = c
    · subst hx
      simp only [find_first_not_of, hc, List.contains_cons, beq_self_eq_true, Bool.true_or,
        if_true]
      cases hf : find_first_not_of chars xs with
      | none =>
        rw [hf] at ih
        simpa using ih
      | some n =>
        rw [hf] at ih
        simpa using ih
    · have hxc : (x == c) = false := by simpa using hx
      simp [find_first_not_of, hc, hxc, hx]

theorem erase_leading (chars : String) (c : Char) (hc : chars.data = [c]) (s : String) :
    erase s 0 (find_first_not_of chars s.data) = .ok ⟨s.data.dropWhile (fun x => x == c)⟩ := by
  have h := find_first_not_of_spec chars c hc s.data
  unfold erase
  cases hf : find_first_not_of chars s.data with
  | none =>
    rw [hf] at h
    simp [h]
  | some n =>
    rw [hf] at h
    simp [h.2]

theorem erase_trailing (chars : String) (c : Char) (hc : chars.data = [c]) (s : String) :
    erase s (succPos (find_last_not_of chars s.data)) none =
      .ok ⟨s.data.rdropWhile (fun x => x == c)⟩ := by
  have h := find_first_not_of_spec chars c hc s.data.reverse
  unfold erase find_last_not_of
  cases hf : find_first_not_of chars s.data.reverse with
  | none =>
    rw [hf] at h
    simp [succPos, List.rdropWhile, h]
  | some n =>
    rw [hf] at h
    obtain ⟨hn, hd⟩ := h
    rw [List.length_reverse] at hn
    have hpos : succPos (Option.map (fun i => s.data.length - 1 - i) (some n)) =
        s.data.length - n := by
      simp only [Option.map, succPos]
      omega
    rw [hpos]
    have hle : ¬(s.data.length < s.data.length - n) := by omega
    simp only [hle, if_false]
    have : s.data.take (s.data.length - n) = (s.data.reverse.drop n).reverse := by
      rw [List.reverse_drop]
      simp
    rw [this, hd, List.rdropWhile]

/-- The `switch` of the s_trim lifter computes the trimmed text. -/
theorem trimString_spec (mode trimChar : String) (c : Char) (s : String)
    (hm : mode = "begin" ∨ mode = "end" ∨ mode = "both") (hc : trimChar.data = [c]) :
    trimString (trimTypeOf mode) trimChar s = .ok ⟨trimSpec mode c s.data⟩ := by
  rcases hm with h | h | h
  · subst h
    have h1 : trimTypeOf "begin" = 's' := by decide
    simp only [trimString, h1, if_true, trimSpec]
    exact erase_leading trimChar c hc s
  · subst h
    have h1 : trimTypeOf "end" = 'e' := by decide
    have h2 : ¬('e' = 's') := by decide
    have h3 : ¬("end" = "begin") := by decide
    simp only [trimString, h1, h2, h3, if_true, if_false, trimSpec]
    exact erase_trailing trimChar c hc s
  · subst h
    have h1 : trimTypeOf "both" = 'b' := by decide
    have h2 : ¬('b' = 's') := by decide
    have h3 : ¬('b' = 'e') := by decide
    have h4 : ¬("both" = "begin") := by decide
    have h5 : ¬("both" = "end") := by decide
    simp only [trimString, h1, h2, h3, h4, h5, if_true, if_false, trimSpec,
      erase_leading trimChar c hc s]
    exact erase_trailing trimChar c hc ⟨s.data.dropWhile (fun x => x == c)⟩

theorem trimSpec_subset (mode : String) (c : Char) (l : List Char) :
    ∀ x ∈ trimSpec mode c l, x ∈ l := by
  intro x hx
  unfold trimSpec at hx
  split_ifs at hx
  · exact (List.dropWhile_sublist _).subset hx
  · exact (List.rdropWhile_prefix _ _).subset hx
  · exact (List.dropWhile_sublist _).subset ((List.rdropWhile_prefix _ _).subset hx)

theorem dropWhile_rdropWhile_comm (p : Char → Bool) (l : List Char) :
    (l.rdropWhile p).dropWhile p = (l.dropWhile p).rdropWhile p := by
  induction l using List.reverseRecOn with
  | nil => simp
  | append_singleton l x ih =>
    by_cases hx : p x = true
    · rw [List.rdropWhile_concat_pos _ _ _ hx, List.dropWhile_append]
      by_cases he : (l.dropWhile p).isEmpty = true
      · have hnil : l.dropWhile p = [] := by simpa using he
        rw [if_pos he, ih, hnil]
        simp [hx]
      · rw [if_neg he, List.rdropWhile_concat_pos _ _ _ hx, ih]
    · rw [List.rdropWhile_concat_neg _ _ _ hx, List.dropWhile_append]
      by_cases he : (l.dropWhile p).isEmpty = true
      · rw [if_pos he]
        simp [hx, List.rdropWhile_singleton]
      · rw [if_neg he, List.rdropWhile_concat_neg _ _ _ hx]

theorem trimSpec_idempotent (mode : String) (c : Char) (l : List Char) :
    trimSpec mode c (trimSpec mode c l) = trimSpec mode c l := by
  unfold trimSpec
  split_ifs
  · exact List.dropWhile_idempotent _ _
  · exact List.rdropWhile_idempotent _ _
  · rw [dropWhile_rdropWhile_comm, List.dropWhile_idempotent, List.rdropWhile_idempotent]

/-- What a successful build of s_trim returns. -/
theorem opBuilderHelperStringTrim_ok (d : DocumentValue) (lifter : Lifter)
    (h : opBuilderHelperStringTrim d = .ok lifter) :
    ∃ v t0 mode trimChar c, d.value = .str v ∧ split (cstr v) '/' = [t0, mode, trimChar] ∧
      (mode = "begin" ∨ mode = "end" ∨ mode = "both") ∧ trimChar.data = [c] ∧
      lifter = trimLifter (formatJsonPath (cstr d.name)) (trimTypeOf mode) trimChar := by
  unfold opBuilderHelperStringTrim at h
  cases hv : d.value with
  | str v =>
    simp only [hv] at h
    split at h
    · rename_i t0 mode trimChar hs
      by_cases hm : trimTypeOf mode = '\x00'
      · rw [if_pos hm] at h
        cases h
      · rw [if_neg hm] at h
        by_cases hsz : trimChar.utf8ByteSize ≠ 1
        · rw [if_pos hsz] at h
          cases h
        · rw [if_neg hsz] at h
          injection h with h
          obtain ⟨c, hc⟩ := data_of_utf8ByteSize_one trimChar (not_not.mp hsz)
          refine ⟨v, t0, mode, trimChar, c, rfl, hs, ?_, hc, h.symm⟩
          unfold trimTypeOf at hm
          by_contra hcon
          push_neg at hcon
          simp [hcon.1, hcon.2.1, hcon.2.2] at hm
    · cases h
  | null => simp [hv] at h
  | bool b => simp [hv] at h
  | int n => simp [hv] at h
  | arr xs => simp [hv] at h
  | obj kvs => simp [hv] at h

/-- The s_trim lifter on a target that holds a string. -/
theorem trimLifter_string (field mode trimChar : String) (c : Char) (e : Event) (s : String)
    (hm : mode = "begin" ∨ mode = "end" ∨ mode = "both") (hc : trimChar.data = [c])
    (hg : e.getEventValue field = some (.str s)) :
    trimLifter field (trimTypeOf mode) trimChar e =
      .ok (e.setValue field (.str ⟨trimSpec mode c (cstr s).data⟩), []) := by
  have hnf : NulFree ⟨trimSpec mode c (cstr s).data⟩ := by
    intro x hx
    exact cstr_nulFree s x (trimSpec_subset mode c _ x hx)
  unfold trimLifter
  simp only [hg, trimString_spec mode trimChar c (cstr s) hm hc, cstr_eq_self _ hnf]

/-- The s_trim lifter on a target that is absent or holds no string. -/
theorem trimLifter_not_string (field : String) (trimType : Char) (trimChar : String)
    (e : Event) (h : ∀ s, e.getEventValue field ≠ some (.str s)) :
    trimLifter field trimType trimChar e = .ok (e, []) := by
  unfold trimLifter
  cases hg : e.getEventValue field with
  | none => rfl
  | some x =>
    cases x with
    | str s => exact absurd hg (h s)
    | null => rfl
    | bool b => rfl
    | int n => rfl
    | arr xs => rfl
    | obj kvs => rfl

theorem trimSpec_all (mode : String) (c : Char) (l : List Char) (h : ∀ x ∈ l, x = c) :
    trimSpec mode c l = [] := by
  have hd : l.dropWhile (fun x => x == c) = [] := by
    rw [List.dropWhile_eq_nil_iff]
    intro x hx
    simp [h x hx]
  have hr : l.rdropWhile (fun x => x == c) = [] := by
    rw [List.rdropWhile_eq_nil_iff]
    intro x hx
    simp [h x hx]
  unfold trimSpec
  split_ifs
  · exact hd
  · exact hr
  · rw [hd]
    simp

/-- C9 (amended). On an event whose target field holds a string `s`, a built s_trim operator
with mode `begin`, `end` or `both` and trim character `c` writes to the target field the text of
`s` read up to its first NUL character, without its maximal leading run of `c` (begin), without
its maximal trailing run of `c` (end), or without both runs (both); the target holds that text
afterwards, the text is empty when that part of `s` consists only of `c` or is empty, and that
part is all of `s` when `s` holds no NUL character. -/
theorem s_trim_strips_runs (d : DocumentValue) (lifter : Lifter) (e : Event)
    (v t0 mode trimChar s : String)
    (hb : opBuilderHelperStringTrim d = .ok lifter)
    (hv : d.value = .str v) (hs : split (cstr v) '/' = [t0, mode, trimChar])
    (hg : e.getEventValue (formatJsonPath (cstr d.name)) = some (.str s)) :
    ∃ c, trimChar.data = [c] ∧ (mode = "begin" ∨ mode = "end" ∨ mode = "both") ∧
      lifter e = .ok (e.setValue (formatJsonPath (cstr d.name))
        (.str ⟨trimSpec mode c (cstr s).data⟩), []) ∧
      (e.setValue (formatJsonPath (cstr d.name))
          (.str ⟨trimSpec mode c (cstr s).data⟩)).getEventValue (formatJsonPath (cstr d.name)) =
        some (.str ⟨trimSpec mode c (cstr s).data⟩) ∧
      ((∀ x ∈ (cstr s).data, x = c) → trimSpec mode c (cstr s).data = []) ∧
      (NulFree s → cstr s = s) := by
  obtain ⟨v', t0', mode', trimChar', c, hv', hs', hm, hc, hl⟩ :=
    opBuilderHelperStringTrim_ok d lifter hb
  rw [hv] at hv'
  injection hv' with hv'
  subst hv'
  rw [hs] at hs'
  injection hs' with _ hs'
  injection hs' with h2 hs'
  injection hs' with h3 _
  subst h2 h3
  refine ⟨c, hc, hm, ?_, ?_, trimSpec_all mode c _, cstr_eq_self s⟩
  · rw [hl]
    exact trimLifter_string _ mode trimChar c e s hm hc hg
  · exact getEventValue_setValue e _ _ (set_accepted_of_getEventValue e _ _ _ hg)

theorem s_trim_strips_runs_witness :
    ∃ c, "x".data = [c] ∧ ("both" = "begin" ∨ "both" = "end" ∨ "both" = "both") ∧
      trimLifter "/f" 'b' "x" ⟨false, .obj [("f", .str "xxhexlloxx")]⟩ =
        .ok (EventHandler.setValue ⟨false, .obj [("f", .str "xxhexlloxx")]⟩ "/f"
          (.str ⟨trimSpec "both" c "xxhexlloxx".data⟩), []) ∧
      (EventHandler.setValue ⟨false, .obj [("f", .str "xxhexlloxx")]⟩ "/f"
          (.str ⟨trimSpec "both" c "xxhexlloxx".data⟩)).getEventValue "/f" =
        some (.str ⟨trimSpec "both" c "xxhexlloxx".data⟩) ∧
      ((∀ x ∈ "xxhexlloxx".data, x = c) → trimSpec "both" c "xxhexlloxx".data = []) ∧
      (NulFree "xxhexlloxx" → cstr "xxhexlloxx" = "xxhexlloxx") :=
  s_trim_strips_runs ⟨"f", .str "+s_trim/both/x"⟩ (trimLifter "/f" 'b' "x")
    ⟨false, .obj [("f", .str "xxhexlloxx")]⟩ "+s_trim/both/x" "+s_trim" "both" "x" "xxhexlloxx"
    rfl rfl rfl rfl

/-- C9 as stated fails: the target holds the five characters `x`, `a`, NUL, `b`, `x`; trimming
both ends with `x` leaves `a` in the target, not the string without its two runs of `x`. -/
theorem s_trim_strips_runs_counterexample :
    opBuilderHelperStringTrim ⟨"f", .str "+s_trim/both/x"⟩ = .ok (trimLifter "/f" 'b' "x") ∧
      EventHandler.getEventValue ⟨false, .obj [("f", .str "xa\x00bx")]⟩ "/f" =
        some (.str "xa\x00bx") ∧
      trimLifter "/f" 'b' "x" ⟨false, .obj [("f", .str "xa\x00bx")]⟩ =
        .ok (⟨false, .obj [("f", .str "a")]⟩, []) ∧
      trimSpec "both" 'x' "xa\x00bx".data = "a\x00b".data ∧ "a" ≠ "a\x00b" :=
  ⟨rfl, rfl, rfl, by decide, by decide⟩

/-- C10. s_trim is idempotent: a built s_trim operator (any mode, any trim character) applied
to an event returns an event, and applied to that event again it returns the same event. -/
theorem s_trim_idempotent (d : DocumentValue) (lifter : Lifter) (e : Event)
    (hb : opBuilderHelperStringTrim d = .ok lifter) :
    ∃ e1, lifter e = .ok (e1, []) ∧ lifter e1 = .ok (e1, []) := by
  obtain ⟨v, t0, mode, trimChar, c, _, _, hm, hc, hl⟩ := opBuilderHelperStringTrim_ok d lifter hb
  subst hl
  by_cases hstr : ∃ s, e.getEventValue (formatJsonPath (cstr d.name)) = some (.str s)
  · obtain ⟨s, hg⟩ := hstr
    have h1 := trimLifter_string _ mode trimChar c e s hm hc hg
    refine ⟨_, h1, ?_⟩
    have hg1 := getEventValue_setValue e (formatJsonPath (cstr d.name))
      (.str ⟨trimSpec mode c (cstr s).data⟩) (set_accepted_of_getEventValue e _ _ _ hg)
    have h2 := trimLifter_string _ mode trimChar c _ _ hm hc hg1
    have hnf : NulFree ⟨trimSpec mode c (cstr s).data⟩ := by
      intro x hx
      exact cstr_nulFree s x (trimSpec_subset mode c _ x hx)
    rw [cstr_eq_self _ hnf] at h2
    simp only [trimSpec_idempotent, setValue_setValue_self] at h2
    exact h2
  · have hno : ∀ s, e.getEventValue (formatJsonPath (cstr d.name)) ≠ some (.str s) :=
      fun s hs => hstr ⟨s, hs⟩
    have h1 := trimLifter_not_string _ (trimTypeOf mode) trimChar e hno
    exact ⟨e, h1, h1⟩

theorem s_trim_idempotent_witness :
    ∃ e1, trimLifter "/f" 'e' "-" ⟨false, .obj [("f", .str "--a-b--")]⟩ = .ok (e1, []) ∧
      trimLifter "/f" 'e' "-" e1 = .ok (e1, []) :=
  s_trim_idempotent ⟨"f", .str "+s_trim/end/-"⟩ (trimLifter "/f" 'e' "-")
    ⟨false, .obj [("f", .str "--a-b--")]⟩ rfl

/-! ## Array indices -/

theorem digitsValue_snoc (a : List Char) (x : Char) :
    digitsValue (a ++ [x]) = 10 * digitsValue a + (x.toNat - 48) := by
  simp [digitsValue, List.foldl_append]

theorem digit_lt_ten (x : Char) (h : x.isDigit = true) : x.toNat - 48 < 10 ∧ 48 ≤ x.toNat := by
  simp only [Char.isDigit, Bool.and_eq_true, decide_eq_true_eq] at h
  have h1 : 48 ≤ x.toNat := UInt32.le_toNat_of_le (by decide) h.1
  have h2 : x.toNat ≤ 57 := UInt32.toNat_le_of_le (by decide) h.2
  omega

theorem char_eq_of_toNat_eq (x y : Char) (h : x.toNat = y.toNat) : x = y := by
  rw [← Char.ofNat_toNat x, ← Char.ofNat_toNat y, h]

theorem head?_snoc_of_ne_nil (a : List Char) (x : Char) (h : a ≠ []) :
    (a ++ [x]).head? = a.head? := by
  cases a with
  | nil => exact absurd rfl h
  | cons c cs => rfl

theorem digitsValue_pos (b : List Char) :
    b ≠ [] → (∀ c ∈ b, c.isDigit = true) → b.head? ≠ some '0' → 0 < digitsValue b := by
  induction b using List.reverseRecOn with
  | nil => intro h; exact absurd rfl h
  | append_singleton a x ih =>
    intro _ hd hh
    rw [digitsValue_snoc]
    by_cases ha : a = []
    · subst ha
      have hx : x ≠ '0' := by
        intro hx
        apply hh
        simp [hx]
      have hdx := digit_lt_ten x (hd x (by simp))
      have : x.toNat ≠ 48 := by
        intro h48
        apply hx
        apply char_eq_of_toNat_eq
        rw [h48]
        rfl
      omega
    · have := ih ha (fun c hc => hd c (by simp [hc])) (by rwa [head?_snoc_of_ne_nil a x ha] at hh)
      omega

theorem digitsValue_inj (l1 : List Char) :
    ∀ l2 : List Char, l1 ≠ [] → l2 ≠ [] →
      (∀ c ∈ l1, c.isDigit = true) → (∀ c ∈ l2, c.isDigit = true) →
      (l1.head? ≠ some '0' ∨ l1.length = 1) → (l2.head? ≠ some '0' ∨ l2.length = 1) →
      digitsValue l1 = digitsValue l2 → l1 = l2 := by
  induction l1 using List.reverseRecOn with
  | nil => intro l2 h; exact absurd rfl h
  | append_singleton a x ih =>
    intro l2 _ h2 hd1 hd2 hc1 hc2 hv
    rcases List.eq_nil_or_concat l2 with h | ⟨b, y, rfl⟩
    · exact absurd h h2
    · rw [List.concat_eq_append] at h2 hd2 hc2 hv ⊢
      rw [digitsValue_snoc, digitsValue_snoc] at hv
      have hx := digit_lt_ten x (hd1 x (by simp))
      have hy := digit_lt_ten y (hd2 y (by simp))
      have hxy : x = y := by
        apply char_eq_of_toNat_eq
        omega
      have hab : digitsValue a = digitsValue b := by omega
      subst hxy
      have hda : ∀ c ∈ a, c.isDigit = true := fun c hc => hd1 c (by simp [hc])
      have hdb : ∀ c ∈ b, c.isDigit = true := fun c hc => hd2 c (by simp [hc])
      have hca : a ≠ [] → a.head? ≠ some '0' := by
        intro ha
        rcases hc1 with h | h
        · rwa [head?_snoc_of_ne_nil a x ha] at h
        · exfalso
          cases a with
          | nil => exact ha rfl
          | cons c cs => simp at h
      have hcb : b ≠ [] → b.head? ≠ some '0' := by
        intro hb
        rcases hc2 with h | h
        · rwa [head?_snoc_of_ne_nil b x hb] at h
        · exfalso
          cases b with
          | nil => exact hb rfl
          | cons c cs => simp at h
      by_cases ha : a = []
      · by_cases hb : b = []
        · rw [ha, hb]
        · exfalso
          have := digitsValue_pos b hb hdb (hcb hb)
          have h0 : digitsValue ([] : List Char) = 0 := rfl
          rw [ha, h0] at hab
          omega
      · by_cases hb : b = []
        · exfalso
          have := digitsValue_pos a ha hda (hca ha)
          have h0 : digitsValue ([] : List Char) = 0 := rfl
          rw [hb, h0] at hab
          omega
        · rw [ih b ha hb hda hdb (Or.inl (hca ha)) (Or.inl (hcb hb)) hab]

/-- An array index is denoted by one token only. -/
theorem tokenIndex_inj (t u : String) (i : Nat) (ht : tokenIndex t = some i)
    (hu : tokenIndex u = some i) : t = u := by
  have key : ∀ w : String, ∀ n, tokenIndex w = some n →
      w.data ≠ [] ∧ (∀ c ∈ w.data, c.isDigit = true) ∧
      (w.data.head? ≠ some '0' ∨ w.data.length = 1) ∧ digitsValue w.data = n := by
    intro w n hw
    unfold tokenIndex at hw
    cases hwd : w.data with
    | nil => simp [hwd] at hw
    | cons c cs =>
      simp only [hwd] at hw
      split_ifs at hw with hcond
      simp only [Bool.and_eq_true, List.all_eq_true, Bool.or_eq_true, bne_iff_ne, ne_eq,
        List.isEmpty_iff] at hcond
      refine ⟨by simp, hcond.1, ?_, ?_⟩
      · rcases hcond.2 with h | h
        · left
          simpa using h
        · right
          simp [h]
      · injection hw
  obtain ⟨h1, h2, h3, h4⟩ := key t i ht
  obtain ⟨g1, g2, g3, g4⟩ := key u i hu
  have := digitsValue_inj t.data u.data h1 g1 h2 g2 h3 g3 (by rw [h4, g4])
  exact String.ext this

/-! ## Laws of the removal -/

theorem findMember_eraseMember_self (k : String) (kvs : List (String × Json)) :
    findMember k (eraseMember k kvs) = none := by
  induction kvs with
  | nil => rfl
  | cons kv rest ih =>
    obtain ⟨k', v'⟩ := kv
    by_cases hk : k' = k
    · simp [eraseMember, hk, ih]
    · simp [eraseMember, findMember, hk, ih]

theorem findMember_eraseMember_ne (k u : String) (kvs : List (String × Json)) (h : k ≠ u) :
    findMember u (eraseMember k kvs) = findMember u kvs := by
  induction kvs with
  | nil => rfl
  | cons kv rest ih =>
    obtain ⟨k', v'⟩ := kv
    by_cases hk : k' = k
    · have hu : ¬(k' = u) := by
        rw [hk]
        exact h
      simp [eraseMember, findMember, hk, ih, h]
    · by_cases hu : k' = u
      · subst hu
        simp [eraseMember, findMember, hk]
      · simp [eraseMember, findMember, hk, hu, ih]

theorem findMember_replaceMember_ne (k u : String) (v : Json) (kvs : List (String × Json))
    (h : k ≠ u) : findMember u (replaceMember k v kvs) = findMember u kvs := by
  induction kvs with
  | nil => rfl
  | cons kv rest ih =>
    obtain ⟨k', v'⟩ := kv
    by_cases hk : k' = k
    · simp [replaceMember, findMember, hk, h]
    · by_cases hu : k' = u
      · subst hu
        simp [replaceMember, findMember, hk]
      · simp [replaceMember, findMember, hk, hu, ih]

theorem findMember_append_ne (k u : String) (v : Json) (kvs : List (String × Json))
    (h : k ≠ u) : findMember u (kvs ++ [(k, v)]) = findMember u kvs := by
  induction kvs with
  | nil => simp [findMember, h]
  | cons kv rest ih =>
    obtain ⟨k', v'⟩ := kv
    by_cases hu : k' = u
    · simp [findMember, hu]
    · simp [findMember, hu, ih]

/-- Nothing is removed at a path that does not resolve. -/
theorem erasePath_none_of_getPath_none (ts : List String) :
    ∀ d : Json, d.getPath ts = none → d.erasePath ts = none := by
  induction ts with
  | nil =>
    intro d _
    cases d <;> rfl
  | cons t ts ih =>
    intro d h
    cases d with
    | obj kvs =>
      simp only [Json.getPath] at h
      cases hf : findMember t kvs with
      | none => simp [Json.erasePath, hf]
      | some c =>
        simp only [hf] at h
        cases ts with
        | nil => simp [Json.getPath] at h
        | cons t2 ts2 => simp [Json.erasePath, hf, ih c h]
    | arr xs =>
      simp only [Json.getPath] at h
      cases ts with
      | nil => simp [Json.erasePath]
      | cons t2 ts2 =>
        cases hi : tokenIndex t with
        | none => simp [Json.erasePath, hi]
        | some i =>
          simp only [hi] at h
          cases hx : xs[i]? with
          | none => simp [Json.erasePath, hi, hx]
          | some c =>
            simp only [hx] at h
            simp [Json.erasePath, hi, hx, ih c h]
    | null => rfl
    | bool b => rfl
    | int n => rfl
    | str s => rfl

/-- After a removal the path does not resolve any more, and it did resolve before. -/
theorem getPath_erasePath (ts : List String) :
    ∀ d d' : Json, d.erasePath ts = some d' →
      d'.getPath ts = none ∧ ∃ x, d.getPath ts = some x := by
  induction ts with
  | nil =>
    intro d d' h
    cases d <;> simp [Json.erasePath] at h
  | cons t ts ih =>
    intro d d' h
    cases d with
    | obj kvs =>
      simp only [Json.erasePath] at h
      cases hf : findMember t kvs with
      | none => simp [hf] at h
      | some c =>
        simp only [hf] at h
        cases ts with
        | nil =>
          simp only [List.isEmpty_nil, if_true, Option.some.injEq] at h
          subst h
          simp [Json.getPath, findMember_eraseMember_self, hf]
        | cons t2 ts2 =>
          simp only [List.isEmpty_cons, Bool.false_eq_true, if_false] at h
          cases hs : c.erasePath (t2 :: ts2) with
          | none => simp [hs] at h
          | some c' =>
            simp only [hs, Option.some.injEq] at h
            subst h
            obtain ⟨h1, x, h2⟩ := ih c c' hs
            refine ⟨?_, x, ?_⟩
            · simp only [Json.getPath, findMember_replaceMember t c' kvs c hf]
              exact h1
            · simp only [Json.getPath, hf]
              exact h2
    | arr xs =>
      simp only [Json.erasePath] at h
      cases ts with
      | nil => simp at h
      | cons t2 ts2 =>
        simp only [List.isEmpty_cons, Bool.false_eq_true, if_false] at h
        cases hi : tokenIndex t with
        | none => simp [hi] at h
        | some i =>
          simp only [hi] at h
          cases hx : xs[i]? with
          | none => simp [hx] at h
          | some c =>
            simp only [hx] at h
            cases hs : c.erasePath (t2 :: ts2) with
            | none => simp [hs] at h
            | some c' =>
              simp only [hs, Option.some.injEq] at h
              subst h
              obtain ⟨h1, x, h2⟩ := ih c c' hs
              have hlt : i < xs.length := by
                rcases List.getElem?_eq_some.mp hx with ⟨hlt, _⟩
                exact hlt
              refine ⟨?_, x, ?_⟩
              · simp only [Json.getPath, hi, List.getElem?_set_self hlt]
                exact h1
              · simp only [Json.getPath, hi, hx]
                exact h2
    | null => simp [Json.erasePath] at h
    | bool b => simp [Json.erasePath] at h
    | int n => simp [Json.erasePath] at h
    | str s => simp [Json.erasePath] at h

/-- A removal leaves the fields unrelated to the removed one as they were. -/
theorem getPath_erasePath_unrelated (p : List String) :
    ∀ (q : List String) (d d' : Json), d.erasePath p = some d' → Unrelated p q →
      d'.getPath q = d.getPath q := by
  induction p with
  | nil =>
    intro q d d' h
    cases d <;> simp [Json.erasePath] at h
  | cons t ts ih =>
    intro q d d' h hu
    cases q with
    | nil => exact absurd (List.nil_prefix) hu.2
    | cons u us =>
      have hrel : t = u → Unrelated ts us := by
        intro htu
        subst htu
        constructor
        · intro hp
          exact hu.1 ((List.prefix_cons_inj t).mpr hp)
        · intro hp
          exact hu.2 ((List.prefix_cons_inj t).mpr hp)
      cases d with
      | obj kvs =>
        simp only [Json.erasePath] at h
        cases hf : findMember t kvs with
        | none => simp [hf] at h
        | some c =>
          simp only [hf] at h
          cases ts with
          | nil =>
            simp only [List.isEmpty_nil, if_true, Option.some.injEq] at h
            subst h
            have htu : t ≠ u := by
              intro htu
              subst htu
              apply hu.1
              exact (List.prefix_cons_inj t).mpr List.nil_prefix
            simp only [Json.getPath, findMember_eraseMember_ne t u kvs htu]
          | cons t2 ts2 =>
            simp only [List.isEmpty_cons, Bool.false_eq_true, if_false] at h
            cases hs : c.erasePath (t2 :: ts2) with
            | none => simp [hs] at h
            | some c' =>
              simp only [hs, Option.some.injEq] at h
              subst h
              by_cases htu : t = u
              · have hrel' := hrel htu
                subst htu
                simp only [Json.getPath, findMember_replaceMember t c' kvs c hf, hf]
                exact ih us c c' hs hrel'
              · simp only [Json.getPath, findMember_replaceMember_ne t u c' kvs htu]
      | arr xs =>
        simp only [Json.erasePath] at h
        cases ts with
        | nil => simp at h
        | cons t2 ts2 =>
          simp only [List.isEmpty_cons, Bool.false_eq_true, if_false] at h
          cases hi : tokenIndex t with
          | none => simp [hi] at h
          | some i =>
            simp only [hi] at h
            cases hx : xs[i]? with
            | none => simp [hx] at h
            | some c =>
              simp only [hx] at h
              cases hs : c.erasePath (t2 :: ts2) with
              | none => simp [hs] at h
              | some c' =>
                simp only [hs, Option.some.injEq] at h
                subst h
                have hlt : i < xs.length := by
                  rcases List.getElem?_eq_some.mp hx with ⟨hlt, _⟩
                  exact hlt
                simp only [Json.getPath]
                cases hj : tokenIndex u with
                | none => rfl
                | some j =>
                  by_cases hij : i = j
                  · subst hij
                    have htu := tokenIndex_inj t u i hi hj
                    have hrel' := hrel htu
                    simp only [List.getElem?_set_self hlt, hx]
                    exact ih us c c' hs hrel'
                  · simp only [List.getElem?_set_ne hij]
      | null => simp [Json.erasePath] at h
      | bool b => simp [Json.erasePath] at h
      | int n => simp [Json.erasePath] at h
      | str s => simp [Json.erasePath] at h

/-- The removal succeeds exactly at the members of objects. -/
theorem erasePath_isSome_iff (ks : List String) :
    ∀ d : Json, (∃ d', d.erasePath ks = some d') ↔ IsMember d ks := by
  induction ks with
  | nil =>
    intro d
    constructor
    · rintro ⟨d', h⟩
      cases d <;> simp [Json.erasePath] at h
    · rintro ⟨ps, t, kvs, c, h, _⟩
      simp at h
  | cons k ks ih =>
    intro d
    cases ks with
    | nil =>
      constructor
      · rintro ⟨d', h⟩
        cases d with
        | obj kvs =>
          simp only [Json.erasePath] at h
          cases hf : findMember k kvs with
          | none => simp [hf] at h
          | some c => exact ⟨[], k, kvs, c, rfl, rfl, hf⟩
        | arr xs => simp [Json.erasePath] at h
        | null => simp [Json.erasePath] at h
        | bool b => simp [Json.erasePath] at h
        | int n => simp [Json.erasePath] at h
        | str s => simp [Json.erasePath] at h
      · rintro ⟨ps, t, kvs, c, h, hg, hf⟩
        have hps : ps = [] ∧ t = k := by
          cases ps with
          | nil =>
            simp only [List.nil_append, List.cons.injEq, and_true] at h
            exact ⟨rfl, h.symm⟩
          | cons p ps' =>
            have := congrArg List.length h
            simp at this
        obtain ⟨rfl, rfl⟩ := hps
        simp only [Json.getPath, Option.some.injEq] at hg
        subst hg
        exact ⟨.obj (eraseMember t kvs), by simp [Json.erasePath, hf]⟩
    | cons k2 ks2 =>
      have ih' := ih
      constructor
      · rintro ⟨d', h⟩
        cases d with
        | obj kvs =>
          simp only [Json.erasePath] at h
          cases hf : findMember k kvs with
          | none => simp [hf] at h
          | some c =>
            simp only [hf, List.isEmpty_cons, Bool.false_eq_true, if_false] at h
            cases hs : c.erasePath (k2 :: ks2) with
            | none => simp [hs] at h
            | some c' =>
              obtain ⟨ps, t, kvs', c2, h1, h2, h3⟩ := (ih' c).mp ⟨c', hs⟩
              exact ⟨k :: ps, t, kvs', c2, by simp [h1], by simp [Json.getPath, hf, h2], h3⟩
        | arr xs =>
          simp only [Json.erasePath, List.isEmpty_cons, Bool.false_eq_true, if_false] at h
          cases hi : tokenIndex k with
          | none => simp [hi] at h
          | some i =>
            simp only [hi] at h
            cases hx : xs[i]? with
            | none => simp [hx] at h
            | some c =>
              simp only [hx] at h
              cases hs : c.erasePath (k2 :: ks2) with
              | none => simp [hs] at h
              | some c' =>
                obtain ⟨ps, t, kvs', c2, h1, h2, h3⟩ := (ih' c).mp ⟨c', hs⟩
                exact ⟨k :: ps, t, kvs', c2, by simp [h1], by simp [Json.getPath, hi, hx, h2], h3⟩
        | null => simp [Json.erasePath] at h
        | bool b => simp [Json.erasePath] at h
        | int n => simp [Json.erasePath] at h
        | str s => simp [Json.erasePath] at h
      · rintro ⟨ps, t, kvs', c2, h1, h2, h3⟩
        cases ps with
        | nil =>
          have := congrArg List.length h1
          simp at this
        | cons p ps' =>
          simp only [List.cons_append, List.cons.injEq] at h1
          obtain ⟨rfl, h1⟩ := h1
          cases d with
          | obj kvs =>
            simp only [Json.getPath] at h2
            cases hf : findMember k kvs with
            | none => simp [hf] at h2
            | some c =>
              simp only [hf] at h2
              obtain ⟨c', hc'⟩ := (ih' c).mpr ⟨ps', t, kvs', c2, h1, h2, h3⟩
              exact ⟨.obj (replaceMember k c' kvs), by simp [Json.erasePath, hf, hc']⟩
          | arr xs =>
            simp only [Json.getPath] at h2
            cases hi : tokenIndex k with
            | none => simp [hi] at h2
            | some i =>
              simp only [hi] at h2
              cases hx : xs[i]? with
              | none => simp [hx] at h2
              | some c =>
                simp only [hx] at h2
                obtain ⟨c', hc'⟩ := (ih' c).mpr ⟨ps', t, kvs', c2, h1, h2, h3⟩
                exact ⟨.arr (xs.set i c'), by simp [Json.erasePath, hi, hx, hc']⟩
          | null => simp [Json.getPath] at h2
          | bool b => simp [Json.getPath] at h2
          | int n => simp [Json.getPath] at h2
          | str s => simp [Json.getPath] at h2

theorem tokensAux_ne_nil (cs cur : List Char) : tokensAux cs cur ≠ [] := by
  induction cs generalizing cur with
  | nil => simp [tokensAux]
  | cons c cs ih =>
    by_cases h : c = '/'
    · simp [tokensAux, h]
    · simp only [tokensAux, h, if_false]
      exact ih _

/-- A normalised path is a path text with at least one token. -/
theorem pointerTokens_formatJsonPath (s : String) :
    ∃ ts, pointerTokens (formatJsonPath s) = some ts ∧ ts ≠ [] :=
  ⟨tokensAux (s.data.map (fun c => if c = '.' then '/' else c)) [],
    by simp [pointerTokens, formatJsonPath], tokensAux_ne_nil _ _⟩

/-- What a successful build of delete_field returns. -/
theorem opBuilderHelperDeleteField_ok (docStr : DocumentValue → String) (d : DocumentValue)
    (lifter : Lifter) (h : opBuilderHelperDeleteField docStr d = .ok lifter) :
    lifter = deleteFieldLifter (formatJsonPath (cstr d.name))
      (docStr d ++ " delete_field Success") (docStr d ++ " delete_field Failure") := by
  unfold opBuilderHelperDeleteField at h
  simp only at h
  split_ifs at h with h1
  cases hv : d.value with
  | str v =>
    simp only [hv] at h
    split_ifs at h with h2
    injection h with h
    exact h.symm
  | null => simp [hv] at h
  | bool b => simp [hv] at h
  | int n => simp [hv] at h
  | arr xs => simp [hv] at h
  | obj kvs => simp [hv] at h

/-- The delete_field lifter in terms of the removal at the tokens of its key. -/
theorem deleteFieldLifter_spec (key s f : String) (ks : List String) (e : Event)
    (hk : pointerTokens key = some ks) :
    deleteFieldLifter key s f e =
      match e.event.erasePath ks with
      | some d' => .ok ({ e with event := d' }, [s])
      | none => .ok (e, [f]) := by
  unfold deleteFieldLifter Document.erase
  simp only [hk]
  cases e.event.erasePath ks <;> rfl

/-! ## delete_field -/

/-- C13 (amended). After the application of a built delete_field operator: when the key of the
rule member names a member of an object of the event, that field is absent from the event and
every field unrelated to it (a field that is not that field, does not lie inside it and does
not contain it) has the value it had before; when the field named by the key was already
absent, the event is unchanged.  Nothing is stated of a key that names an element of an
array. -/
theorem delete_field_frame (docStr : DocumentValue → String) (d : DocumentValue)
    (lifter : Lifter) (e : Event)
    (hb : opBuilderHelperDeleteField docStr d = .ok lifter) :
    ∃ e' msg ks, lifter e = .ok (e', [msg]) ∧
      pointerTokens (formatJsonPath (cstr d.name)) = some ks ∧
      (IsMember e.event ks →
        e'.getEventValue (formatJsonPath (cstr d.name)) = none ∧
        ∀ q qs, pointerTokens q = some qs → Unrelated ks qs →
          e'.getEventValue q = e.getEventValue q) ∧
      (e.getEventValue (formatJsonPath (cstr d.name)) = none → e' = e) := by
  have hl := opBuilderHelperDeleteField_ok docStr d lifter hb
  obtain ⟨ks, hk, _⟩ := pointerTokens_formatJsonPath (cstr d.name)
  have hspec := deleteFieldLifter_spec (formatJsonPath (cstr d.name))
    (docStr d ++ " delete_field Success") (docStr d ++ " delete_field Failure") ks e hk
  rw [← hl] at hspec
  cases hs : e.event.erasePath ks with
  | none =>
    rw [hs] at hspec
    refine ⟨e, _, ks, hspec, hk, ?_, fun _ => rfl⟩
    intro hm
    obtain ⟨d', hd'⟩ := (erasePath_isSome_iff ks e.event).mpr hm
    rw [hs] at hd'
    cases hd'
  | some d' =>
    rw [hs] at hspec
    refine ⟨{ e with event := d' }, _, ks, hspec, hk, ?_, ?_⟩
    · intro _
      constructor
      · simp only [EventHandler.getEventValue, Document.get, hk]
        exact (getPath_erasePath ks e.event d' hs).1
      · intro q qs hq hu
        simp only [EventHandler.getEventValue, Document.get, hq]
        exact getPath_erasePath_unrelated ks qs e.event d' hs hu
    · intro hg
      simp only [EventHandler.getEventValue, Document.get, hk] at hg
      rw [erasePath_none_of_getPath_none ks e.event hg] at hs
      cases hs

theorem delete_field_frame_witness :
    ∃ e' msg ks,
      deleteFieldLifter "/a/b" "D delete_field Success" "D delete_field Failure"
        ⟨false, .obj [("a", .obj [("b", .int 1), ("c", .int 2)]), ("z", .int 3)]⟩ =
          .ok (e', [msg]) ∧
      pointerTokens (formatJsonPath (cstr "a.b")) = some ks ∧
      (IsMember (.obj [("a", .obj [("b", .int 1), ("c", .int 2)]), ("z", .int 3)]) ks →
        e'.getEventValue (formatJsonPath (cstr "a.b")) = none ∧
        ∀ q qs, pointerTokens q = some qs → Unrelated ks qs →
          e'.getEventValue q =
            EventHandler.getEventValue
              ⟨false, .obj [("a", .obj [("b", .int 1), ("c", .int 2)]), ("z", .int 3)]⟩ q) ∧
      (EventHandler.getEventValue
          ⟨false, .obj [("a", .obj [("b", .int 1), ("c", .int 2)]), ("z", .int 3)]⟩
          (formatJsonPath (cstr "a.b")) = none →
        e' = ⟨false, .obj [("a", .obj [("b", .int 1), ("c", .int 2)]), ("z", .int 3)]⟩) :=
  delete_field_frame (fun _ => "D") ⟨"a.b", .str "+delete_field"⟩
    (deleteFieldLifter "/a/b" "D delete_field Success" "D delete_field Failure")
    ⟨false, .obj [("a", .obj [("b", .int 1), ("c", .int 2)]), ("z", .int 3)]⟩ rfl

/-- C13 as stated fails: deleting the field `a.b` also changes the value of the field `a`, which
is another field of the event: it held the members `b` and `c` and holds `c` alone
afterwards. -/
theorem delete_field_frame_counterexample :
    opBuilderHelperDeleteField (fun _ => "D") ⟨"a.b", .str "+delete_field"⟩ =
        .ok (deleteFieldLifter "/a/b" "D delete_field Success" "D delete_field Failure") ∧
      deleteFieldLifter "/a/b" "D delete_field Success" "D delete_field Failure"
          ⟨false, .obj [("a", .obj [("b", .int 1), ("c", .int 2)])]⟩ =
        .ok (⟨false, .obj [("a", .obj [("c", .int 2)])]⟩, ["D delete_field Success"]) ∧
      EventHandler.getEventValue ⟨false, .obj [("a", .obj [("b", .int 1), ("c", .int 2)])]⟩ "/a" =
        some (.obj [("b", .int 1), ("c", .int 2)]) ∧
      EventHandler.getEventValue ⟨false, .obj [("a", .obj [("c", .int 2)])]⟩ "/a" =
        some (.obj [("c", .int 2)]) ∧
      Json.obj [("b", .int 1), ("c", .int 2)] ≠ Json.obj [("c", .int 2)] ∧
      "/a" ≠ "/a/b" :=
  ⟨rfl, rfl, rfl, rfl, by simp, by decide⟩

/-- What a successful build of r_ext returns. -/
theorem opBuilderHelperRegexExtract_ok (re2 : RegexEngine) (d : DocumentValue)
    (lifter : Lifter) (h : opBuilderHelperRegexExtract re2 d = .ok lifter) :
    ∃ v t0 p1 p2 pm, d.value = .str v ∧ split (cstr v) '/' = [t0, p1, p2] ∧
      re2.compile p2 = .ok pm ∧
      lifter = regexExtractLifter (formatJsonPath (cstr d.name)) (formatJsonPath p1) pm := by
  unfold opBuilderHelperRegexExtract at h
  cases hv : d.value with
  | str v =>
    simp only [hv] at h
    split at h
    · rename_i t0 p1 p2 hs
      cases hc : re2.compile p2 with
      | error err => simp [hc] at h
      | ok pm =>
        simp only [hc] at h
        injection h with h
        exact ⟨v, t0, p1, p2, pm, rfl, hs, hc, h.symm⟩
    · cases h
  | null => simp [hv] at h
  | bool b => simp [hv] at h
  | int n => simp [hv] at h
  | arr xs => simp [hv] at h
  | obj kvs => simp [hv] at h

/-- The lifter a build of r_ext returned, for known tokens and compiled pattern. -/
theorem regexExtract_lifter_eq (re2 : RegexEngine) (d : DocumentValue) (lifter : Lifter)
    (v t0 p1 p2 : String) (pm : String → Option String)
    (hb : opBuilderHelperRegexExtract re2 d = .ok lifter)
    (hv : d.value = .str v) (hs : split (cstr v) '/' = [t0, p1, p2])
    (hc : re2.compile p2 = .ok pm) :
    lifter = regexExtractLifter (formatJsonPath (cstr d.name)) (formatJsonPath p1) pm := by
  obtain ⟨v', t0', p1', p2', pm', hv', hs', hc', hl⟩ := opBuilderHelperRegexExtract_ok re2 d lifter hb
  rw [hv] at hv'
  injection hv' with hv'
  subst hv'
  rw [hs] at hs'
  injection hs' with _ hs'
  injection hs' with h2 hs'
  injection hs' with h3 _
  subst h2 h3
  rw [hc] at hc'
  injection hc' with hc'
  subst hc'
  exact hl

/-- C11 (amended). When the field named by the key of the rule member holds a string whose
text, read up to its first NUL character, the compiled pattern partially matches, a built r_ext
operator writes the first capture group of that match to the field named by its first
parameter: it reads its input from the key's field and not from the field of the first
parameter.  The capture is written whole when it is a part of the matched text, and the
written field holds it whenever the document accepts the write. -/
theorem r_ext_reads_key_writes_parameter (re2 : RegexEngine) (d : DocumentValue)
    (lifter : Lifter) (e : Event) (v t0 p1 p2 s m : String) (pm : String → Option String)
    (hb : opBuilderHelperRegexExtract re2 d = .ok lifter)
    (hv : d.value = .str v) (hs : split (cstr v) '/' = [t0, p1, p2])
    (hc : re2.compile p2 = .ok pm)
    (hg : e.getEventValue (formatJsonPath (cstr d.name)) = some (.str s))
    (hm : pm (cstr s) = some m) :
    lifter e = .ok (e.setValue (formatJsonPath p1) (.str (cstr m)), []) ∧
      (m.data <:+: (cstr s).data → cstr m = m) ∧
      (NulFree s → cstr s = s) ∧
      ((Document.set e.event (formatJsonPath p1) (.str (cstr m))).1 = true →
        (e.setValue (formatJsonPath p1) (.str (cstr m))).getEventValue (formatJsonPath p1) =
          some (.str (cstr m))) := by
  have hl := regexExtract_lifter_eq re2 d lifter v t0 p1 p2 pm hb hv hs hc
  subst hl
  refine ⟨?_, ?_, cstr_eq_self s, getEventValue_setValue e _ _⟩
  · simp only [regexExtractLifter, hg, hm]
  · intro hsub
    apply cstr_eq_self
    intro c hc'
    exact cstr_nulFree s c (hsub.subset hc')

theorem r_ext_reads_key_writes_parameter_witness :
    regexExtractLifter "/f" "/g" (fun text => if isSubstringOf ['e', 'x', 'p'] text.data then
        some "exp" else none) ⟨false, .obj [("f", .str "an expression")]⟩ =
      .ok (⟨false, .obj [("f", .str "an expression"), ("g", .str "exp")]⟩, []) :=
  (r_ext_reads_key_writes_parameter exampleEngine ⟨"f", .str "+r_ext/g/(exp)"⟩
    (regexExtractLifter "/f" "/g" (fun text => if isSubstringOf ['e', 'x', 'p'] text.data then
        some "exp" else none))
    ⟨false, .obj [("f", .str "an expression")]⟩ "+r_ext/g/(exp)" "+r_ext" "g" "(exp)"
    "an expression" "exp" _ rfl rfl rfl rfl rfl rfl).1

/-- C11 as stated fails: with the rule member `target: +r_ext/src/(exp)` the field `src`, named
by the first parameter, holds a string that the pattern partially matches, yet the event is
returned as it is and `target` stays absent; when `target` holds such a string, it is `src` that
receives the capture group. -/
theorem r_ext_reads_key_writes_parameter_counterexample :
    ∃ pm, exampleEngine.compile "(exp)" = .ok pm ∧
      opBuilderHelperRegexExtract exampleEngine ⟨"target", .str "+r_ext/src/(exp)"⟩ =
        .ok (regexExtractLifter "/target" "/src" pm) ∧
      pm "an expression" = some "exp" ∧
      regexExtractLifter "/target" "/src" pm ⟨false, .obj [("src", .str "an expression")]⟩ =
        .ok (⟨false, .obj [("src", .str "an expression")]⟩, []) ∧
      EventHandler.getEventValue ⟨false, .obj [("src", .str "an expression")]⟩ "/target" = none ∧
      regexExtractLifter "/target" "/src" pm ⟨false, .obj [("target", .str "an expression")]⟩ =
        .ok (⟨false, .obj [("target", .str "an expression"), ("src", .str "exp")]⟩, []) :=
  ⟨_, rfl, rfl, rfl, rfl, rfl, rfl⟩

/-- C12 (amended). A built r_ext operator leaves the event unchanged when the field it reads its
input from (the field named by the key of the rule member) is absent or is not a string, and
also when that field is a string whose text, read up to its first NUL character, the compiled
pattern does not partially match. -/
theorem r_ext_noop (re2 : RegexEngine) (d : DocumentValue) (lifter : Lifter) (e : Event)
    (v t0 p1 p2 : String) (pm : String → Option String)
    (hb : opBuilderHelperRegexExtract re2 d = .ok lifter)
    (hv : d.value = .str v) (hs : split (cstr v) '/' = [t0, p1, p2])
    (hc : re2.compile p2 = .ok pm)
    (hno : (∀ s, e.getEventValue (formatJsonPath (cstr d.name)) ≠ some (.str s)) ∨
      ∃ s, e.getEventValue (formatJsonPath (cstr d.name)) = some (.str s) ∧
        pm (cstr s) = none) :
    lifter e = .ok (e, []) := by
  have hl := regexExtract_lifter_eq re2 d lifter v t0 p1 p2 pm hb hv hs hc
  subst hl
  rcases hno with hno | ⟨s, hg, hm⟩
  · unfold regexExtractLifter
    cases hg : e.getEventValue (formatJsonPath (cstr d.name)) with
    | none => rfl
    | some x =>
      cases x with
      | str s => exact absurd hg (hno s)
      | null => rfl
      | bool b => rfl
      | int n => rfl
      | arr xs => rfl
      | obj kvs => rfl
  · simp only [regexExtractLifter, hg, hm]

theorem r_ext_noop_witness :
    regexExtractLifter "/f" "/g" (fun text => if isSubstringOf ['e', 'x', 'p'] text.data then
          some "exp" else none) ⟨false, .obj [("f", .str "nothing"), ("g", .int 1)]⟩ =
        .ok (⟨false, .obj [("f", .str "nothing"), ("g", .int 1)]⟩, []) ∧
      regexExtractLifter "/f" "/g" (fun text => if isSubstringOf ['e', 'x', 'p'] text.data then
          some "exp" else none) ⟨false, .obj [("f", .int 7), ("g", .str "exp")]⟩ =
        .ok (⟨false, .obj [("f", .int 7), ("g", .str "exp")]⟩, []) :=
  ⟨r_ext_noop exampleEngine ⟨"f", .str "+r_ext/g/(exp)"⟩
      (regexExtractLifter "/f" "/g" (fun text => if isSubstringOf ['e', 'x', 'p'] text.data then
        some "exp" else none))
      ⟨false, .obj [("f", .str "nothing"), ("g", .int 1)]⟩ "+r_ext/g/(exp)" "+r_ext" "g" "(exp)"
      _ rfl rfl rfl rfl (Or.inr ⟨"nothing", rfl, rfl⟩),
    r_ext_noop exampleEngine ⟨"f", .str "+r_ext/g/(exp)"⟩
      (regexExtractLifter "/f" "/g" (fun text => if isSubstringOf ['e', 'x', 'p'] text.data then
        some "exp" else none))
      ⟨false, .obj [("f", .int 7), ("g", .str "exp")]⟩ "+r_ext/g/(exp)" "+r_ext" "g" "(exp)"
      _ rfl rfl rfl rfl (Or.inl (fun s h => by cases h))⟩

/-- C12 as stated fails: the field read holds the three characters `a`, NUL, `b`, a string that
the pattern `^(a)$` does not partially match; the operator matches the pattern against the text
before the NUL, `a`, and writes the capture group to the field `g`. -/
theorem r_ext_noop_counterexample :
    ∃ pm, exampleEngine.compile "^(a)$" = .ok pm ∧
      opBuilderHelperRegexExtract exampleEngine ⟨"f", .str "+r_ext/g/^(a)$"⟩ =
        .ok (regexExtractLifter "/f" "/g" pm) ∧
      EventHandler.getEventValue ⟨false, .obj [("f", .str "a\x00b")]⟩ "/f" =
        some (.str "a\x00b") ∧
      pm "a\x00b" = none ∧
      regexExtractLifter "/f" "/g" pm ⟨false, .obj [("f", .str "a\x00b")]⟩ =
        .ok (⟨false, .obj [("f", .str "a\x00b"), ("g", .str "a")]⟩, []) ∧
      (⟨false, .obj [("f", .str "a\x00b"), ("g", .str "a")]⟩ : Event) ≠
        ⟨false, .obj [("f", .str "a\x00b")]⟩ :=
  ⟨_, rfl, rfl, rfl, rfl, rfl, by simp⟩

/-! ## Failures at run time -/

/-- The s_up and s_lo lifters return an event. -/
theorem caseLifter_returns (d : DocumentValue) (lifter : Lifter) (e : Event)
    (hb : opBuilderHelperStringUP d = .ok lifter ∨ opBuilderHelperStringLO d = .ok lifter) :
    ∃ r, lifter e = .ok r := by
  have key : ∀ (op : Char) (p1 : String), op = 'u' ∨ op = 'l' →
      ∃ r, caseLifter (formatJsonPath (cstr d.name)) op (sourceOf p1).1 (sourceOf p1).2 e =
        .ok r := by
    intro op p1 hop
    have hl : ¬('l' = 'u') := by decide
    unfold caseLifter opBuilderHelperStringTransformation sourceOf
    by_cases hr : front0 p1 = REFERENCE_ANCHOR
    · simp only [hr, if_true]
      cases hg : e.getEventValue (formatJsonPath (substr p1 1)) with
      | none => exact ⟨_, rfl⟩
      | some x =>
        cases x with
        | str s =>
          rcases hop with rfl | rfl
          · simp only [if_true]
            exact ⟨_, rfl⟩
          · simp only [hl, if_false, if_true]
            exact ⟨_, rfl⟩
        | null => exact ⟨_, rfl⟩
        | bool b => exact ⟨_, rfl⟩
        | int n => exact ⟨_, rfl⟩
        | arr xs => exact ⟨_, rfl⟩
        | obj kvs => exact ⟨_, rfl⟩
    · simp only [hr, if_false]
      rcases hop with rfl | rfl
      · simp only [if_true]
        exact ⟨_, rfl⟩
      · simp only [hl, if_false, if_true]
        exact ⟨_, rfl⟩
  rcases hb with hb | hb
  · obtain ⟨v, t0, p1, _, _, hl⟩ := opBuilderHelperStringUP_ok d lifter hb
    rw [hl]
    exact key 'u' p1 (Or.inl rfl)
  · obtain ⟨v, t0, p1, _, _, hl⟩ := opBuilderHelperStringLO_ok d lifter hb
    rw [hl]
    exact key 'l' p1 (Or.inr rfl)

/-- The s_trim lifter returns an event. -/
theorem trimLifter_returns (d : DocumentValue) (lifter : Lifter) (e : Event)
    (hb : opBuilderHelperStringTrim d = .ok lifter) : ∃ r, lifter e = .ok r := by
  obtain ⟨v, t0, mode, trimChar, c, _, _, hm, hc, hl⟩ := opBuilderHelperStringTrim_ok d lifter hb
  subst hl
  by_cases hstr : ∃ s, e.getEventValue (formatJsonPath (cstr d.name)) = some (.str s)
  · obtain ⟨s, hg⟩ := hstr
    exact ⟨_, trimLifter_string _ mode trimChar c e s hm hc hg⟩
  · exact ⟨_, trimLifter_not_string _ (trimTypeOf mode) trimChar e (fun s hs => hstr ⟨s, hs⟩)⟩

theorem concatLoop_returns (e : Event) (params : List String)
    (hne : ∀ p ∈ params, p.data ≠ []) : ∀ acc, ∃ r, concatLoop e params acc = .ok r := by
  induction params with
  | nil =>
    intro acc
    exact ⟨_, rfl⟩
  | cons q rest ih =>
    intro acc
    have hq := hne q (List.mem_cons_self _ _)
    have hrest : ∀ p ∈ rest, p.data ≠ [] := fun p hp => hne p (List.mem_cons_of_mem _ hp)
    cases hqd : q.data with
    | nil => exact absurd hqd hq
    | cons c cs =>
      by_cases hc : c = REFERENCE_ANCHOR
      · cases hg : Document.get e.event (formatJsonPath ⟨cs⟩) with
        | none => exact ⟨none, by simp [concatLoop, hqd, hc, hg]⟩
        | some x =>
          cases x with
          | str v =>
            obtain ⟨r, hr⟩ := ih hrest (acc ++ cstr v)
            exact ⟨r, by simp [concatLoop, hqd, hc, hg, hr]⟩
          | null => exact ⟨none, by simp [concatLoop, hqd, hc, hg]⟩
          | bool b => exact ⟨none, by simp [concatLoop, hqd, hc, hg]⟩
          | int n => exact ⟨none, by simp [concatLoop, hqd, hc, hg]⟩
          | arr xs => exact ⟨none, by simp [concatLoop, hqd, hc, hg]⟩
          | obj kvs => exact ⟨none, by simp [concatLoop, hqd, hc, hg]⟩
      · obtain ⟨r, hr⟩ := ih hrest (acc ++ q)
        exact ⟨r, by simp [concatLoop, hqd, hc, hr]⟩

/-- The s_concat lifter returns an event. -/
theorem concatLifter_returns (docStr : DocumentValue → String) (d : DocumentValue)
    (lifter : Lifter) (e : Event)
    (hb : opBuilderHelperStringConcat docStr d = .ok lifter) : ∃ r, lifter e = .ok r := by
  obtain ⟨v, _, _, hne, hl⟩ := opBuilderHelperStringConcat_ok docStr d lifter hb
  subst hl
  obtain ⟨r, hr⟩ := concatLoop_returns e _ hne ""
  unfold concatLifter
  rw [hr]
  cases r with
  | none => exact ⟨_, rfl⟩
  | some x => exact ⟨_, rfl⟩

/-- The delete_field lifter returns an event. -/
theorem deleteFieldLifter_returns (docStr : DocumentValue → String) (d : DocumentValue)
    (lifter : Lifter) (e : Event)
    (hb : opBuilderHelperDeleteField docStr d = .ok lifter) : ∃ r, lifter e = .ok r := by
  have hl := opBuilderHelperDeleteField_ok docStr d lifter hb
  obtain ⟨ks, hk, _⟩ := pointerTokens_formatJsonPath (cstr d.name)
  rw [hl, deleteFieldLifter_spec _ _ _ ks e hk]
  cases e.event.erasePath ks with
  | none => exact ⟨_, rfl⟩
  | some d' => exact ⟨_, rfl⟩

/-- The r_ext lifter returns an event. -/
theorem regexExtractLifter_returns (re2 : RegexEngine) (d : DocumentValue)
    (lifter : Lifter) (e : Event)
    (hb : opBuilderHelperRegexExtract re2 d = .ok lifter) : ∃ r, lifter e = .ok r := by
  obtain ⟨v, t0, p1, p2, pm, _, _, _, hl⟩ := opBuilderHelperRegexExtract_ok re2 d lifter hb
  subst hl
  unfold regexExtractLifter
  cases hg : e.getEventValue (formatJsonPath (cstr d.name)) with
  | none => exact ⟨_, rfl⟩
  | some x =>
    cases x with
    | str s =>
      cases hm : pm (cstr s) with
      | none =>
        simp only [hm]
        exact ⟨_, rfl⟩
      | some m =>
        simp only [hm]
        exact ⟨_, rfl⟩
    | null => exact ⟨_, rfl⟩
    | bool b => exact ⟨_, rfl⟩
    | int n => exact ⟨_, rfl⟩
    | arr xs => exact ⟨_, rfl⟩
    | obj kvs => exact ⟨_, rfl⟩

/-- The arithmetic of i_calc fails in one case only, the quotient of `INT_MIN` by -1. -/
theorem intOperation_error_iff (op : String) (a b : Int) :
    (∃ ex, intOperation op a b = .error ex) ↔ (op = "div" ∧ a = INT_MIN ∧ b = -1) := by
  unfold intOperation
  constructor
  · rintro ⟨ex, h⟩
    split_ifs at h with h1 h2 h3 h4 h5 h6
    exact ⟨h4, h6.1, h6.2⟩
  · rintro ⟨rfl, rfl, rfl⟩
    refine ⟨.fatal_signal "SIGFPE", ?_⟩
    rw [if_neg (by decide), if_neg (by decide), if_neg (by decide), if_pos rfl,
      if_neg (by decide), if_pos ⟨rfl, rfl⟩]

/-- The i_calc lifter returns an event unless it divides a target that holds `INT_MIN`. -/
theorem intCalcLifter_returns (d : DocumentValue) (lifter : Lifter) (e : Event)
    (hb : opBuilderHelperIntCalc d = .ok lifter)
    (hsafe : e.getEventValue (formatJsonPath (cstr d.name)) ≠ some (.int INT_MIN)) :
    ∃ r, lifter e = .ok r := by
  obtain ⟨v, t0, op, p2, _, _, _, _, hl⟩ := opBuilderHelperIntCalc_ok d lifter hb
  have hop : ∀ a b, e.getEventValue (formatJsonPath (cstr d.name)) = some (.int a) →
      ∃ r, (match (match intOperation op a b with
        | .ok (some r) => Except.ok (e.setValue (formatJsonPath (cstr d.name)) (.int r))
        | .ok none => .ok e
        | .error ex => .error ex) with
        | .ok e' => (Except.ok (e', []) : Except Exception (Event × List String))
        | .error ex => .error ex) = .ok r := by
    intro a b hg
    cases hio : intOperation op a b with
    | ok r =>
      cases r with
      | none => exact ⟨_, rfl⟩
      | some r => exact ⟨_, rfl⟩
    | error ex =>
      exfalso
      obtain ⟨_, rfl, _⟩ := (intOperation_error_iff op a b).mp ⟨ex, hio⟩
      exact hsafe hg
  have key : ∀ refValue value, (refValue = none → ∃ n, value = some n) →
      ∃ r, intCalcLifter (formatJsonPath (cstr d.name)) op refValue value e = .ok r := by
    intro refValue value hval
    unfold intCalcLifter opBuilderHelperIntTransformation
    cases hg : e.getEventValue (formatJsonPath (cstr d.name)) with
    | none => exact ⟨_, rfl⟩
    | some x =>
      cases x with
      | int a =>
        by_cases hint : (Json.int a).IsInt = true
        · cases refValue with
          | some ref =>
            cases hr : e.getEventValue ref with
            | none =>
              simp only [hint, hr, if_true]
              exact ⟨_, rfl⟩
            | some y =>
              cases y with
              | int b =>
                by_cases hintb : (Json.int b).IsInt = true
                · simp only [hint, hr, hintb, if_true]
                  exact hop a b hg
                · simp only [hint, hr, hintb, if_true]
                  exact ⟨_, rfl⟩
              | null =>
                simp only [hint, hr, if_true]
                exact ⟨_, rfl⟩
              | bool b =>
                simp only [hint, hr, if_true]
                exact ⟨_, rfl⟩
              | str s =>
                simp only [hint, hr, if_true]
                exact ⟨_, rfl⟩
              | arr xs =>
                simp only [hint, hr, if_true]
                exact ⟨_, rfl⟩
              | obj kvs =>
                simp only [hint, hr, if_true]
                exact ⟨_, rfl⟩
          | none =>
            obtain ⟨n, hn⟩ := hval rfl
            subst hn
            simp only [hint, if_true]
            exact hop a n hg
        · simp only [hint]
          exact ⟨_, rfl⟩
      | null => exact ⟨_, rfl⟩
      | bool b => exact ⟨_, rfl⟩
      | str s => exact ⟨_, rfl⟩
      | arr xs => exact ⟨_, rfl⟩
      | obj kvs => exact ⟨_, rfl⟩
  rcases hl with ⟨_, hl⟩ | ⟨_, n, _, hl⟩
  · rw [hl]
    exact key _ _ (fun h => by cases h)
  · rw [hl]
    exact key _ _ (fun _ => ⟨n, rfl⟩)

/-- C15. Evaluation of the code at the failing input: the i_calc operator built for the field
`f` with the operation `div` and the literal operand -1, applied to an event whose field `f`
holds `INT_MIN`, does not return an event: it divides `INT_MIN` by -1, which ends the process
with the signal SIGFPE. -/
theorem i_calc_division_overflow :
    opBuilderHelperIntCalc ⟨"f", .str "+i_calc/div/-1"⟩ =
        .ok (intCalcLifter "/f" "div" none (some (-1))) ∧
      intCalcLifter "/f" "div" none (some (-1)) ⟨false, .obj [("f", .int (-2147483648))]⟩ =
        .error (.fatal_signal "SIGFPE") :=
  ⟨rfl, rfl⟩

/-! ## Frame of a write -/

theorem getPath_nest_unrelated (ts : List String) (v : Json) :
    ∀ us : List String, Unrelated ts us → (nest ts v).getPath us = none := by
  induction ts with
  | nil =>
    intro us hu
    exact absurd List.nil_prefix hu.1
  | cons t ts ih =>
    intro us hu
    cases us with
    | nil => exact absurd List.nil_prefix hu.2
    | cons u us =>
      by_cases htu : t = u
      · subst htu
        have hrel : Unrelated ts us :=
          ⟨fun hp => hu.1 ((List.prefix_cons_inj t).mpr hp),
            fun hp => hu.2 ((List.prefix_cons_inj t).mpr hp)⟩
        simp only [nest, Json.getPath, findMember, if_true]
        exact ih us hrel
      · simp [nest, Json.getPath, findMember, htu]

/-- A write leaves the fields unrelated to the written one as they were. -/
theorem getPath_setPath_unrelated (p : List String) (v : Json) :
    ∀ (q : List String) (d d' : Json), d.setPath p v = some d' → Unrelated p q →
      d'.getPath q = d.getPath q := by
  induction p with
  | nil =>
    intro q d d' _ hu
    exact absurd List.nil_prefix hu.1
  | cons t ts ih =>
    intro q d d' h hu
    cases q with
    | nil => exact absurd List.nil_prefix hu.2
    | cons u us =>
      have hrel : t = u → Unrelated ts us := by
        intro htu
        subst htu
        exact ⟨fun hp => hu.1 ((List.prefix_cons_inj t).mpr hp),
          fun hp => hu.2 ((List.prefix_cons_inj t).mpr hp)⟩
      cases d with
      | obj kvs =>
        simp only [Json.setPath] at h
        cases hf : findMember t kvs with
        | none =>
          simp only [hf, Option.some.injEq] at h
          subst h
          by_cases htu : t = u
          · have hrel' := hrel htu
            subst htu
            simp only [Json.getPath, findMember_append_new t _ kvs hf, hf]
            exact getPath_nest_unrelated ts v us hrel'
          · simp only [Json.getPath, findMember_append_ne t u _ kvs htu]
        | some c =>
          simp only [hf] at h
          cases hs : c.setPath ts v with
          | none => simp [hs] at h
          | some c' =>
            simp only [hs, Option.some.injEq] at h
            subst h
            by_cases htu : t = u
            · have hrel' := hrel htu
              subst htu
              simp only [Json.getPath, findMember_replaceMember t c' kvs c hf, hf]
              exact ih us c c' hs hrel'
            · simp only [Json.getPath, findMember_replaceMember_ne t u c' kvs htu]
      | arr xs =>
        simp only [Json.setPath] at h
        cases hi : tokenIndex t with
        | none => simp [hi] at h
        | some i =>
          simp only [hi] at h
          cases hx : xs[i]? with
          | none => simp [hx] at h
          | some c =>
            simp only [hx] at h
            cases hs : c.setPath ts v with
            | none => simp [hs] at h
            | some c' =>
              simp only [hs, Option.some.injEq] at h
              subst h
              have hlt : i < xs.length := by
                rcases List.getElem?_eq_some.mp hx with ⟨hlt, _⟩
                exact hlt
              simp only [Json.getPath]
              cases hj : tokenIndex u with
              | none => rfl
              | some j =>
                by_cases hij : i = j
                · subst hij
                  have htu := tokenIndex_inj t u i hi hj
                  have hrel' := hrel htu
                  simp only [List.getElem?_set_self hlt, hx]
                  exact ih us c c' hs hrel'
                · simp only [List.getElem?_set_ne hij]
      | null => simp [Json.setPath] at h
      | bool b => simp [Json.setPath] at h
      | int n => simp [Json.setPath] at h
      | str s => simp [Json.setPath] at h

/-- A write leaves the fields unrelated to the written one as they were. -/
theorem getEventValue_setValue_unrelated (e : Event) (path q : String) (v : Json)
    (h : UnrelatedPaths path q) :
    (e.setValue path v).getEventValue q = e.getEventValue q := by
  obtain ⟨ks, qs, hk, hq, hu⟩ := h
  unfold EventHandler.getEventValue EventHandler.setValue Document.get Document.set
  simp only [hk, hq]
  cases hs : e.event.setPath ks v with
  | none => rfl
  | some d' => exact getPath_setPath_unrelated ks v qs e.event d' hs hu

theorem isSubstringOf_iff (p s : List Char) : isSubstringOf p s = true ↔ p <:+: s := by
  induction s with
  | nil => simp [isSubstringOf]
  | cons c cs ih =>
    simp only [isSubstringOf, Bool.or_eq_true, ih, List.infix_cons_iff]
    rw [List.isPrefixOf_iff_prefix]

/-- What a successful build of a containment check returns. -/
theorem containmentBuilder_ok (polarity : Bool) (d : DocumentValue) (check : Event → Bool)
    (h : containmentBuilder polarity d = .ok check) :
    ∃ v, d.value = .str v ∧ (split v '/').drop 1 ≠ [] ∧
      (∀ p ∈ (split v '/').drop 1, p.data ≠ []) ∧
      check = containmentCheck polarity (formatJsonPath d.name) ((split v '/').drop 1) := by
  unfold containmentBuilder at h
  cases hv : d.value with
  | str v =>
    simp only [hv] at h
    by_cases h1 : ((split v '/').drop 1).isEmpty = true
    · rw [if_pos h1] at h
      cases h
    · rw [if_neg h1] at h
      by_cases h2 : ((split v '/').drop 1).any (fun p => p.data.isEmpty) = true
      · rw [if_pos h2] at h
        cases h
      · rw [if_neg h2] at h
        injection h with h
        refine ⟨v, rfl, ?_, ?_, h.symm⟩
        · intro h0
          apply h1
          rw [h0]
          rfl
        · intro p hp hpe
          apply h2
          rw [List.any_eq_true]
          exact ⟨p, hp, by simp [hpe]⟩
  | null => simp [hv] at h
  | bool b => simp [hv] at h
  | int n => simp [hv] at h
  | arr xs => simp [hv] at h
  | obj kvs => simp [hv] at h

/-- A parameter that stands for a string which is not empty resolves to it in the check. -/
theorem containmentParameter_of_value (e : Event) (p x : String)
    (h : parameterValue e p = some x) (hx : x.data ≠ []) :
    containmentParameter e p = some x := by
  unfold parameterValue at h
  unfold containmentParameter
  by_cases hr : front0 p = REFERENCE_ANCHOR
  · simp only [hr, if_true] at h ⊢
    cases hg : e.getEventValue (formatJsonPath (substr p 1)) with
    | none => simp [hg] at h
    | some y =>
      cases y with
      | str s =>
        simp only [hg, Option.some.injEq] at h
        subst h
        have : s.data.isEmpty = false := by
          cases hs : s.data with
          | nil => exact absurd hs hx
          | cons c cs => rfl
        simp [this]
      | null => simp [hg] at h
      | bool b => simp [hg] at h
      | int n => simp [hg] at h
      | arr xs => simp [hg] at h
      | obj kvs => simp [hg] at h
  · simp only [hr, if_false] at h ⊢
    exact h

/-- The containment check on a field that holds a string, for parameters that all stand for
strings which are not empty. -/
theorem containmentCheck_spec (polarity : Bool) (field : String) (params : List String)
    (e : Event) (s : String)
    (hg : e.getEventValue field = some (.str s))
    (hres : ∀ p ∈ params, ∃ x, parameterValue e p = some x ∧ x.data ≠ []) :
    containmentCheck polarity field params e = true ↔
      ∀ p ∈ params, ∀ x, parameterValue e p = some x →
        (isSubstringOf x.data s.data = polarity) := by
  unfold containmentCheck
  simp only [hg, List.all_eq_true]
  constructor
  · intro h p hp x hx
    obtain ⟨x', hx', hne⟩ := hres p hp
    rw [hx] at hx'
    injection hx' with hx'
    subst hx'
    have := h p hp
    rw [containmentParameter_of_value e p x hx hne] at this
    simpa using this
  · intro h p hp
    obtain ⟨x, hx, hne⟩ := hres p hp
    rw [containmentParameter_of_value e p x hx hne]
    simpa using h p hp x hx

/-- C19. On an event whose field holds a string, a built s_contains check whose parameters all
resolve to strings that are not empty passes if and only if the string of the field contains
every one of them as a substring. -/
theorem s_contains_iff_every_parameter (d : DocumentValue) (check : Event → Bool) (e : Event)
    (v s : String)
    (hb : opBuilderHelperStringContains d = .ok check)
    (hv : d.value = .str v)
    (hg : e.getEventValue (formatJsonPath d.name) = some (.str s))
    (hres : ∀ p ∈ (split v '/').drop 1, ∃ x, parameterValue e p = some x ∧ x.data ≠ []) :
    check e = true ↔
      ∀ p ∈ (split v '/').drop 1, ∀ x, parameterValue e p = some x → x.data <:+: s.data := by
  obtain ⟨v', hv', _, _, hl⟩ := containmentBuilder_ok true d check hb
  rw [hv] at hv'
  injection hv' with hv'
  subst hv'
  rw [hl, containmentCheck_spec true _ _ e s hg hres]
  simp only [isSubstringOf_iff]

theorem s_contains_iff_every_parameter_witness :
    (containmentCheck true "/fieldToCompare" ["A", "B", "C", "D", "E", "F", "G"]
        ⟨false, .obj [("fieldToCompare", .str "ABCDEFG")]⟩ = true ↔
      ∀ p ∈ (split "+s_contains/A/B/C/D/E/F/G" '/').drop 1, ∀ x,
        parameterValue ⟨false, .obj [("fieldToCompare", .str "ABCDEFG")]⟩ p = some x →
        x.data <:+: "ABCDEFG".data) ∧
    containmentCheck true "/fieldToCompare" ["A", "B", "C", "D", "E", "F", "G"]
        ⟨false, .obj [("fieldToCompare", .str "ABCDEFG")]⟩ = true ∧
    containmentCheck true "/fieldToCompare" ["A", "B", "C", "D", "E", "F", "G"]
        ⟨false, .obj [("fieldToCompare", .str "ABCDEFGH")]⟩ = true ∧
    containmentCheck true "/fieldToCompare" ["A", "B", "C", "D", "E", "F", "G"]
        ⟨false, .obj [("fieldToCompare", .str "ABCDEF")]⟩ = false :=
  ⟨s_contains_iff_every_parameter ⟨"fieldToCompare", .str "+s_contains/A/B/C/D/E/F/G"⟩
      (containmentCheck true "/fieldToCompare" ["A", "B", "C", "D", "E", "F", "G"])
      ⟨false, .obj [("fieldToCompare", .str "ABCDEFG")]⟩ "+s_contains/A/B/C/D/E/F/G" "ABCDEFG"
      rfl rfl rfl (by decide),
    rfl, rfl, rfl⟩

/-- C20. On an event whose field holds a string, a built s_not_contains check whose parameters
all resolve to strings that are not empty passes if and only if the string of the field
contains none of them as a substring. -/
theorem s_not_contains_iff_no_parameter (d : DocumentValue) (check : Event → Bool) (e : Event)
    (v s : String)
    (hb : opBuilderHelperStringNotContains d = .ok check)
    (hv : d.value = .str v)
    (hg : e.getEventValue (formatJsonPath d.name) = some (.str s))
    (hres : ∀ p ∈ (split v '/').drop 1, ∃ x, parameterValue e p = some x ∧ x.data ≠ []) :
    check e = true ↔
      ∀ p ∈ (split v '/').drop 1, ∀ x, parameterValue e p = some x →
        ¬ x.data <:+: s.data := by
  obtain ⟨v', hv', _, _, hl⟩ := containmentBuilder_ok false d check hb
  rw [hv] at hv'
  injection hv' with hv'
  subst hv'
  rw [hl, containmentCheck_spec false _ _ e s hg hres]
  simp only [← isSubstringOf_iff, Bool.not_eq_true]

theorem s_not_contains_iff_no_parameter_witness :
    (containmentCheck false "/fieldToCompare" ["A", "B", "C", "D", "E"]
        ⟨false, .obj [("fieldToCompare", .str "1")]⟩ = true ↔
      ∀ p ∈ (split "+s_not_contains/A/B/C/D/E" '/').drop 1, ∀ x,
        parameterValue ⟨false, .obj [("fieldToCompare", .str "1")]⟩ p = some x →
        ¬ x.data <:+: "1".data) ∧
    containmentCheck false "/fieldToCompare" ["A", "B", "C", "D", "E"]
        ⟨false, .obj [("fieldToCompare", .str "1")]⟩ = true ∧
    containmentCheck false "/fieldToCompare" ["A", "B", "C", "D", "E"]
        ⟨false, .obj [("fieldToCompare", .str "1A")]⟩ = false :=
  ⟨s_not_contains_iff_no_parameter ⟨"fieldToCompare", .str "+s_not_contains/A/B/C/D/E"⟩
      (containmentCheck false "/fieldToCompare" ["A", "B", "C", "D", "E"])
      ⟨false, .obj [("fieldToCompare", .str "1")]⟩ "+s_not_contains/A/B/C/D/E" "1"
      rfl rfl rfl (by decide),
    rfl, rfl⟩

/-! ## Successive removals -/

/-- What a successful build of json_delete_fields returns. -/
theorem opBuilderHelperJsonDeleteFields_ok (d : DocumentValue) (lifter : Lifter)
    (h : opBuilderHelperJsonDeleteFields d = .ok lifter) :
    ∃ v, d.value = .str v ∧ (split v '/').drop 1 ≠ [] ∧
      (∀ p ∈ (split v '/').drop 1, p.data ≠ []) ∧
      lifter = jsonDeleteFieldsLifter (formatJsonPath d.name) ((split v '/').drop 1) := by
  unfold opBuilderHelperJsonDeleteFields at h
  cases hv : d.value with
  | str v =>
    simp only [hv] at h
    by_cases h1 : ((split v '/').drop 1).isEmpty = true
    · rw [if_pos h1] at h
      cases h
    · rw [if_neg h1] at h
      by_cases h2 : ((split v '/').drop 1).any (fun p => p.data.isEmpty) = true
      · rw [if_pos h2] at h
        cases h
      · rw [if_neg h2] at h
        injection h with h
        refine ⟨v, rfl, ?_, ?_, h.symm⟩
        · intro h0
          apply h1
          rw [h0]
          rfl
        · intro p hp hpe
          apply h2
          rw [List.any_eq_true]
          exact ⟨p, hp, by simp [hpe]⟩
  | null => simp [hv] at h
  | bool b => simp [hv] at h
  | int n => simp [hv] at h
  | arr xs => simp [hv] at h
  | obj kvs => simp [hv] at h

/-! ## json_delete_fields -/

/-- A reference that is missing, holds no string or holds the empty string is no parameter of
a containment check. -/
theorem containmentParameter_unresolved (e : Event) (p : String)
    (hr : front0 p = REFERENCE_ANCHOR)
    (hn : ∀ s, e.getEventValue (formatJsonPath (substr p 1)) = some (.str s) → s.data = []) :
    containmentParameter e p = none := by
  unfold containmentParameter
  rw [if_pos hr]
  cases hg : e.getEventValue (formatJsonPath (substr p 1)) with
  | none => rfl
  | some y =>
    cases y with
    | str s => simp [hn s hg]
    | null => rfl
    | bool b => rfl
    | int n => rfl
    | arr xs => rfl
    | obj kvs => rfl

/-- A containment check with a parameter that does not resolve is false. -/
theorem containmentCheck_unresolved (polarity : Bool) (field : String) (params : List String)
    (e : Event) (p : String) (hp : p ∈ params) (h : containmentParameter e p = none) :
    containmentCheck polarity field params e = false := by
  unfold containmentCheck
  cases hg : e.getEventValue field with
  | none => rfl
  | some y =>
    cases y with
    | str s =>
      simp only
      rw [List.all_eq_false]
      exact ⟨p, hp, by simp [h]⟩
    | null => rfl
    | bool b => rfl
    | int n => rfl
    | arr xs => rfl
    | obj kvs => rfl

/-- C21. For every event and every built s_contains or s_not_contains check, a reference
parameter that names a field which is missing, holds no string or holds the empty string makes
the check false, whatever the field of the check holds and whatever the other parameters
are. -/
theorem containment_unresolved_reference_fails (d : DocumentValue) (check : Event → Bool)
    (e : Event) (v p : String)
    (hb : opBuilderHelperStringContains d = .ok check ∨
      opBuilderHelperStringNotContains d = .ok check)
    (hv : d.value = .str v) (hp : p ∈ (split v '/').drop 1)
    (hr : front0 p = REFERENCE_ANCHOR)
    (hn : ∀ s, e.getEventValue (formatJsonPath (substr p 1)) = some (.str s) → s.data = []) :
    check e = false := by
  have key : ∀ polarity, containmentBuilder polarity d = .ok check → check e = false := by
    intro polarity hb'
    obtain ⟨v', hv', _, _, hl⟩ := containmentBuilder_ok polarity d check hb'
    rw [hv] at hv'
    injection hv' with hv'
    subst hv'
    rw [hl]
    exact containmentCheck_unresolved polarity _ _ e p hp
      (containmentParameter_unresolved e p hr hn)
  rcases hb with hb | hb
  · exact key true hb
  · exact key false hb

theorem containment_unresolved_reference_fails_witness :
    containmentCheck true "/Field" ["$fieldToCompare", "$anotherField"]
        ⟨false, .obj [("anotherField", .str ""), ("Field", .str "Value"),
          ("fieldToCompare", .str "V")]⟩ = false ∧
    containmentCheck false "/Field" ["$anotherField"]
        ⟨false, .obj [("Field", .str "something"), ("fieldToCompare", .str "s")]⟩ = false :=
  ⟨containment_unresolved_reference_fails
      ⟨"Field", .str "+s_contains/$fieldToCompare/$anotherField"⟩
      (containmentCheck true "/Field" ["$fieldToCompare", "$anotherField"])
      ⟨false, .obj [("anotherField", .str ""), ("Field", .str "Value"),
        ("fieldToCompare", .str "V")]⟩
      "+s_contains/$fieldToCompare/$anotherField" "$anotherField" (Or.inl rfl) rfl
      (by decide) rfl
      (by
        intro s h
        have h2 : EventHandler.getEventValue
            ⟨false, .obj [("anotherField", .str ""), ("Field", .str "Value"),
              ("fieldToCompare", .str "V")]⟩
            (formatJsonPath (substr "$anotherField" 1)) = some (.str "") := rfl
        rw [h2] at h
        injection h with h
        injection h with h
        rw [← h]),
    containment_unresolved_reference_fails
      ⟨"Field", .str "+s_not_contains/$anotherField"⟩
      (containmentCheck false "/Field" ["$anotherField"])
      ⟨false, .obj [("Field", .str "something"), ("fieldToCompare", .str "s")]⟩
      "+s_not_contains/$anotherField" "$anotherField" (Or.inr rfl) rfl
      (by decide) rfl
      (by
        intro s h
        have h2 : EventHandler.getEventValue
            ⟨false, .obj [("Field", .str "something"), ("fieldToCompare", .str "s")]⟩
            (formatJsonPath (substr "$anotherField" 1)) = none := rfl
        rw [h2] at h
        cases h)⟩

/-! ## The event object -/

/-- One use of the object leaves a flag that is set as it is. -/
theorem after_isDecoded (h h' : EventHandlerObject) (c : EventCall)
    (hc : h.after c = some h') (hd : h.isDecoded = true) : h'.isDecoded = true := by
  cases c with
  | isDecoded =>
    injection hc with hc
    rw [← hc]
    exact hd
  | setDecoded =>
    injection hc with hc
    rw [← hc]
    rfl
  | getEvent =>
    injection hc with hc
    rw [← hc]
    exact hd
  | setEventValue key value =>
    unfold EventHandlerObject.after EventHandlerObject.setEventValue at hc
    cases he : h.event with
    | none => simp [he] at hc
    | some d =>
      simp only [he, Option.some.injEq] at hc
      rw [← hc]
      exact hd
  | getEventValue key =>
    simp only [EventHandlerObject.after] at hc
    split at hc
    · cases hc
    · injection hc with hc
      rw [← hc]
      exact hd
  | getEventDocAllocator =>
    simp only [EventHandlerObject.after] at hc
    split at hc
    · injection hc with hc
      rw [← hc]
      exact hd
    · cases hc
  | throughPointer change =>
    unfold EventHandlerObject.after EventHandlerObject.getEvent at hc
    cases he : h.event with
    | none => simp [he] at hc
    | some d =>
      simp only [he, Option.some.injEq] at hc
      rw [← hc]
      exact hd

/-- One use of the object leaves the pointer empty or not as it is. -/
theorem after_event_isSome (h h' : EventHandlerObject) (c : EventCall)
    (hc : h.after c = some h') : h'.event.isSome = h.event.isSome := by
  cases c with
  | isDecoded =>
    injection hc with hc
    rw [← hc]
  | setDecoded =>
    injection hc with hc
    rw [← hc]
    rfl
  | getEvent =>
    injection hc with hc
    rw [← hc]
  | setEventValue key value =>
    unfold EventHandlerObject.after EventHandlerObject.setEventValue at hc
    cases he : h.event with
    | none => simp [he] at hc
    | some d =>
      simp only [he, Option.some.injEq] at hc
      rw [← hc]
      rfl
  | getEventValue key =>
    simp only [EventHandlerObject.after] at hc
    split at hc
    · cases hc
    · injection hc with hc
      rw [← hc]
  | getEventDocAllocator =>
    simp only [EventHandlerObject.after] at hc
    split at hc
    · injection hc with hc
      rw [← hc]
    · cases hc
  | throughPointer change =>
    unfold EventHandlerObject.after EventHandlerObject.getEvent at hc
    cases he : h.event with
    | none => simp [he] at hc
    | some d =>
      simp only [he, Option.some.injEq] at hc
      rw [← hc]
      rfl

/-- On an object whose pointer holds a document every use returns. -/
theorem after_isSome (h : EventHandlerObject) (c : EventCall) (d : Json)
    (he : h.event = some d) : ∃ h', h.after c = some h' := by
  cases c with
  | isDecoded => exact ⟨h, rfl⟩
  | setDecoded => exact ⟨h.setDecoded, rfl⟩
  | getEvent => exact ⟨h, rfl⟩
  | setEventValue key value =>
    exact ⟨{ h with event := some (Document.set d key value).2 }, by
      simp [EventHandlerObject.after, EventHandlerObject.setEventValue, he]⟩
  | getEventValue key =>
    refine ⟨h, ?_⟩
    unfold EventHandlerObject.after EventHandlerObject.getEventValue
      EventHandlerObject.getEvent
    simp only [he]
    cases Document.get d key <;> rfl
  | getEventDocAllocator =>
    refine ⟨h, ?_⟩
    simp [EventHandlerObject.after, EventHandlerObject.getEventDocAllocator,
      EventHandlerObject.getEvent, he]
  | throughPointer change =>
    exact ⟨{ h with event := some (change d) }, by
      simp [EventHandlerObject.after, EventHandlerObject.getEvent, he]⟩

/-- A sequence of uses leaves a flag that is set as it is. -/
theorem afterAll_isDecoded (cs : List EventCall) :
    ∀ h h' : EventHandlerObject, h.afterAll cs = some h' → h.isDecoded = true →
      h'.isDecoded = true := by
  induction cs with
  | nil =>
    intro h h' hc hd
    injection hc with hc
    rw [← hc]
    exact hd
  | cons c rest ih =>
    intro h h' hc hd
    unfold EventHandlerObject.afterAll at hc
    cases h1 : h.after c with
    | none => simp [h1] at hc
    | some h2 =>
      simp only [h1] at hc
      exact ih h2 h' hc (after_isDecoded h h2 c h1 hd)

/-- A sequence of uses leaves the pointer empty or not as it is. -/
theorem afterAll_event_isSome (cs : List EventCall) :
    ∀ h h' : EventHandlerObject, h.afterAll cs = some h' →
      h'.event.isSome = h.event.isSome := by
  induction cs with
  | nil =>
    intro h h' hc
    injection hc with hc
    rw [← hc]
  | cons c rest ih =>
    intro h h' hc
    unfold EventHandlerObject.afterAll at hc
    cases h1 : h.after c with
    | none => simp [h1] at hc
    | some h2 =>
      simp only [h1] at hc
      rw [ih h2 h' hc, after_event_isSome h h2 c h1]

/-- On an object whose pointer holds a document every sequence of uses returns. -/
theorem afterAll_isSome (cs : List EventCall) :
    ∀ (h : EventHandlerObject) (d : Json), h.event = some d →
      ∃ h', h.afterAll cs = some h' := by
  induction cs with
  | nil =>
    intro h d _
    exact ⟨h, rfl⟩
  | cons c rest ih =>
    intro h d he
    obtain ⟨h2, h1⟩ := after_isSome h c d he
    have hs := after_event_isSome h h2 c h1
    rw [he] at hs
    cases he2 : h2.event with
    | none => simp [he2] at hs
    | some d2 =>
      obtain ⟨h', h3⟩ := ih h2 d2 he2
      exact ⟨h', by simp [EventHandlerObject.afterAll, h1, h3]⟩

/-- C22. The decoded flag of an event object is a one-way flag: a newly constructed object has
`isDecoded() = false`, after `setDecoded()` it has `isDecoded() = true`, and no sequence of
uses of the object (its methods, or changes of the document through the pointer `getEvent`
returns) changes the flag from true back to false; on an object that holds a document every
such sequence runs to its end. -/
theorem decoded_flag_one_way :
    (∀ event, (EventHandlerObject.EventHandler event).isDecoded = false) ∧
    (∀ h : EventHandlerObject, h.setDecoded.isDecoded = true) ∧
    (∀ (h h' : EventHandlerObject) (cs : List EventCall),
      h.isDecoded = true → h.afterAll cs = some h' → h'.isDecoded = true) ∧
    (∀ (h : EventHandlerObject) (d : Json) (cs : List EventCall),
      h.event = some d → ∃ h', h.afterAll cs = some h') :=
  ⟨fun _ => rfl, fun _ => rfl, fun h h' cs hd hc => afterAll_isDecoded cs h h' hc hd,
    fun h d cs he => afterAll_isSome cs h d he⟩

theorem decoded_flag_one_way_witness :
    (∃ h', ((EventHandlerObject.EventHandler (some (.obj []))).setDecoded).afterAll
        [.setEventValue "/a" (.int 1), .getEventValue "/b", .getEvent, .getEventDocAllocator,
          .setDecoded] = some h') ∧
    ∀ h', ((EventHandlerObject.EventHandler (some (.obj []))).setDecoded).afterAll
        [.setEventValue "/a" (.int 1), .getEventValue "/b", .getEvent, .getEventDocAllocator,
          .setDecoded] = some h' → h'.isDecoded = true :=
  ⟨decoded_flag_one_way.2.2.2
      ((EventHandlerObject.EventHandler (some (.obj []))).setDecoded) (.obj []) _ rfl,
    fun h' hc => decoded_flag_one_way.2.2.1
      ((EventHandlerObject.EventHandler (some (.obj []))).setDecoded) h' _ rfl hc⟩

/-- C23. Evaluation of the code at the failing input: the constructor accepts the empty
pointer and the object it makes holds no document; the first read of a field through that
object ends the process. -/
theorem constructor_accepts_empty_pointer :
    (EventHandlerObject.EventHandler none).getEvent = none ∧
    (EventHandlerObject.EventHandler none).getEventValue "/a" =
      .error (.fatal_signal "SIGSEGV") :=
  ⟨rfl, rfl⟩

/-! ## Calls of the tracer -/

theorem caseLifter_trace (key : String) (op : Char) (a b : Option String) (e : Event)
    (r : Event × List String) (h : caseLifter key op a b e = .ok r) : r.2 = [] := by
  unfold caseLifter at h
  cases ht : opBuilderHelperStringTransformation key op e a b with
  | error ex => simp [ht] at h
  | ok e' =>
    simp only [ht, Except.ok.injEq] at h
    rw [← h]

theorem intCalcLifter_trace (field op : String) (a : Option String) (b : Option Int)
    (e : Event) (r : Event × List String) (h : intCalcLifter field op a b e = .ok r) :
    r.2 = [] := by
  unfold intCalcLifter at h
  cases ht : opBuilderHelperIntTransformation field op e a b with
  | error ex => simp [ht] at h
  | ok e' =>
    simp only [ht, Except.ok.injEq] at h
    rw [← h]

theorem trimLifter_trace (field : String) (trimType : Char) (trimChar : String) (e : Event)
    (r : Event × List String) (h : trimLifter field trimType trimChar e = .ok r) :
    r.2 = [] := by
  unfold trimLifter at h
  split at h
  · split at h
    · injection h with h
      rw [← h]
    · cases h
  · injection h with h
    rw [← h]

theorem regexExtractLifter_trace (field map_field : String) (pm : String → Option String)
    (e : Event) (r : Event × List String)
    (h : regexExtractLifter field map_field pm e = .ok r) : r.2 = [] := by
  unfold regexExtractLifter at h
  split at h
  · split at h
    · injection h with h
      rw [← h]
    · injection h with h
      rw [← h]
  · injection h with h
    rw [← h]

theorem concatLifter_trace (field : String) (params : List String) (s f : String) (e : Event)
    (r : Event × List String) (h : concatLifter field params s f e = .ok r) :
    r.2 = [s] ∨ r.2 = [f] := by
  unfold concatLifter at h
  split at h
  · injection h with h
    rw [← h]
    exact Or.inl rfl
  · injection h with h
    rw [← h]
    exact Or.inr rfl
  · cases h

theorem deleteFieldLifter_trace (key s f : String) (ks : List String) (e : Event)
    (hk : pointerTokens key = some ks) (r : Event × List String)
    (h : deleteFieldLifter key s f e = .ok r) : r.2 = [s] ∨ r.2 = [f] := by
  rw [deleteFieldLifter_spec key s f ks e hk] at h
  cases hs : e.event.erasePath ks with
  | none =>
    simp only [hs, Except.ok.injEq] at h
    rw [← h]
    exact Or.inr rfl
  | some d' =>
    simp only [hs, Except.ok.injEq] at h
    rw [← h]
    exact Or.inl rfl

/-- An application that returns without a message, as a pair. -/
theorem ok_without_trace (x : Except Exception (Event × List String))
    (h1 : ∃ r, x = .ok r) (h2 : ∀ r, x = .ok r → r.2 = []) : ∃ e', x = .ok (e', []) := by
  obtain ⟨r, hr⟩ := h1
  have := h2 r hr
  obtain ⟨e', msgs⟩ := r
  simp only at this
  subst this
  exact ⟨e', hr⟩

/-- An application that returns with one of two messages, as a pair. -/
theorem ok_with_one_trace (x : Except Exception (Event × List String)) (s f : String)
    (h1 : ∃ r, x = .ok r) (h2 : ∀ r, x = .ok r → r.2 = [s] ∨ r.2 = [f]) :
    ∃ e' msg, x = .ok (e', [msg]) ∧ (msg = s ∨ msg = f) := by
  obtain ⟨r, hr⟩ := h1
  have := h2 r hr
  obtain ⟨e', msgs⟩ := r
  simp only at this
  rcases this with h | h
  · subst h
    exact ⟨e', s, hr, Or.inl rfl⟩
  · subst h
    exact ⟨e', f, hr, Or.inr rfl⟩

/-! ## Lifters under a tracer that returns -/

/-- The loop with the messages is the loop with the tracer, its two failures read as one. -/
theorem concatLoop_eq_scan (e : Event) (ps : List String) (acc : String) :
    concatLoop e ps acc =
      match concatScan e ps acc with
      | .ok (.appended r) => .ok (some r)
      | .ok _ => .ok none
      | .error ex => .error ex := by
  induction ps generalizing acc with
  | nil => rfl
  | cons p rest ih =>
    rw [concatLoop, concatScan]
    cases hp : p.data with
    | nil => rfl
    | cons c cs =>
      simp only []
      by_cases hc : c = REFERENCE_ANCHOR
      · rw [if_pos hc, if_pos hc]
        cases hg : Document.get e.event (formatJsonPath ⟨cs⟩) with
        | none => rfl
        | some j =>
          cases j with
          | str v => exact ih _
          | null => rfl
          | bool b => rfl
          | int n => rfl
          | arr xs => rfl
          | obj kvs => rfl
      · rw [if_neg hc, if_neg hc]
        exact ih _

/-- Under a tracer that returns, the s_concat lifter with its tracer gives the event of the
lifter with the messages, and the tracer has received the one message. -/
theorem concatLifterTraced_returns {τ : Type} (field : String) (params : List String)
    (s f : String) (tr : TracerFn τ) (htr : tr.Returns) (e e' : Event) (msg : String) (t : τ)
    (h : concatLifter field params s f e = .ok (e', [msg])) :
    concatLifterTraced field params s f tr e t = (.ok e', (tr msg t).1) := by
  unfold concatLifter at h
  rw [concatLoop_eq_scan] at h
  unfold concatLifterTraced
  have hs : tr s t = ((tr s t).1, none) := Prod.ext rfl (htr s t)
  have hf : tr f t = ((tr f t).1, none) := Prod.ext rfl (htr f t)
  cases hsc : concatScan e params "" with
  | error ex =>
    rw [hsc] at h
    cases h
  | ok r =>
    rw [hsc] at h
    cases r with
    | appended result =>
      simp only [Except.ok.injEq, Prod.mk.injEq, List.cons.injEq, and_true] at h
      obtain ⟨h1, h2⟩ := h
      subst h1 h2
      simp only []
      rw [hs]
    | no_string =>
      simp only [Except.ok.injEq, Prod.mk.injEq, List.cons.injEq, and_true] at h
      obtain ⟨h1, h2⟩ := h
      subst h1 h2
      simp only []
      rw [hf]
    | no_value =>
      simp only [Except.ok.injEq, Prod.mk.injEq, List.cons.injEq, and_true] at h
      obtain ⟨h1, h2⟩ := h
      subst h1 h2
      simp only []
      rw [hf]

/-- Under a tracer that returns, the delete_field lifter with its tracer gives the event of the
lifter with the messages, and the tracer has received the one message. -/
theorem deleteFieldLifterTraced_returns {τ : Type} (key s f : String) (tr : TracerFn τ)
    (htr : tr.Returns) (e e' : Event) (msg : String) (t : τ)
    (h : deleteFieldLifter key s f e = .ok (e', [msg])) :
    deleteFieldLifterTraced key s f tr e t = (.ok e', (tr msg t).1) := by
  unfold deleteFieldLifter at h
  unfold deleteFieldLifterTraced
  have hm : ∀ m, tr m t = ((tr m t).1, none) := fun m => Prod.ext rfl (htr m t)
  cases he : Document.erase e.event key with
  | error ex =>
    rw [he] at h
    simp only [Except.ok.injEq, Prod.mk.injEq, List.cons.injEq, and_true] at h
    obtain ⟨h1, h2⟩ := h
    subst h1 h2
    simp only []
    rw [hm]
  | ok r =>
    rw [he] at h
    obtain ⟨b, d'⟩ := r
    cases b with
    | true =>
      simp only [Except.ok.injEq, Prod.mk.injEq, List.cons.injEq, and_true] at h
      obtain ⟨h1, h2⟩ := h
      subst h1 h2
      simp only [if_true]
      rw [hm]
    | false =>
      simp only [Except.ok.injEq, Prod.mk.injEq, List.cons.injEq, and_true] at h
      obtain ⟨h1, h2⟩ := h
      subst h1 h2
      simp only [Bool.false_eq_true, if_false]
      rw [hm]

/-- The s_concat builder accepts a rule member with every tracer alike, and builds the lifter
with the same field, segments and messages. -/
theorem opBuilderHelperStringConcatTraced_ok {τ : Type} (docStr : DocumentValue → String)
    (d : DocumentValue) (lifter : Lifter) (tr : TracerFn τ)
    (h : opBuilderHelperStringConcat docStr d = .ok lifter) :
    ∃ field params,
      lifter = concatLifter field params (docStr d ++ " s_concat Success")
        (docStr d ++ " s_concat Failure") ∧
      opBuilderHelperStringConcatTraced docStr d tr =
        .ok (concatLifterTraced field params (docStr d ++ " s_concat Success")
          (docStr d ++ " s_concat Failure") tr) := by
  unfold opBuilderHelperStringConcat at h
  unfold opBuilderHelperStringConcatTraced
  cases hv : d.value with
  | str v =>
    simp only [hv] at h ⊢
    by_cases hl : (split (cstr v) '/').length < 3
    · rw [if_pos hl] at h
      cases h
    · rw [if_neg hl] at h ⊢
      by_cases ha : ((split (cstr v) '/').drop 1).any (fun param => param.data.isEmpty) = true
      · rw [if_pos ha] at h
        cases h
      · rw [if_neg ha] at h ⊢
        injection h with h
        exact ⟨_, _, h.symm, rfl⟩
  | null => simp [hv] at h
  | bool b => simp [hv] at h
  | int n => simp [hv] at h
  | arr xs => simp [hv] at h
  | obj kvs => simp [hv] at h

/-- The delete_field builder accepts a rule member with every tracer alike, and builds the
lifter with the same key and messages. -/
theorem opBuilderHelperDeleteFieldTraced_ok {τ : Type} (docStr : DocumentValue → String)
    (d : DocumentValue) (lifter : Lifter) (tr : TracerFn τ)
    (h : opBuilderHelperDeleteField docStr d = .ok lifter) :
    lifter = deleteFieldLifter (formatJsonPath (cstr d.name))
        (docStr d ++ " delete_field Success") (docStr d ++ " delete_field Failure") ∧
      opBuilderHelperDeleteFieldTraced docStr d tr =
        .ok (deleteFieldLifterTraced (formatJsonPath (cstr d.name))
          (docStr d ++ " delete_field Success") (docStr d ++ " delete_field Failure") tr) := by
  refine ⟨opBuilderHelperDeleteField_ok docStr d lifter h, ?_⟩
  unfold opBuilderHelperDeleteField at h
  unfold opBuilderHelperDeleteFieldTraced
  simp only at h ⊢
  split_ifs at h with h1
  rw [if_neg h1]
  cases hv : d.value with
  | str v =>
    simp only [hv] at h ⊢
    split_ifs at h with h2
    rw [if_neg h2]
  | null => simp [hv] at h
  | bool b => simp [hv] at h
  | int n => simp [hv] at h
  | arr xs => simp [hv] at h
  | obj kvs => simp [hv] at h

/-- C24 (amended). For every operator built by the helper map builders and every event, one
application calls the tracer at most once: never for s_up, s_lo, s_trim, r_ext and i_calc
(which returns the event unless it divides `INT_MIN`), whatever the tracer; exactly once for
s_concat and delete_field under a tracer that returns from its calls, with their success or
their failure message; and the event that results from s_concat and from delete_field is the
same under every tracer that returns from its calls. -/
theorem tracer_called_at_most_once (e : Event) :
    (∀ d lifter,
      (opBuilderHelperStringUP d = .ok lifter ∨ opBuilderHelperStringLO d = .ok lifter ∨
        opBuilderHelperStringTrim d = .ok lifter) →
      ∃ e', lifter e = .ok (e', [])) ∧
    (∀ re2 d lifter, opBuilderHelperRegexExtract re2 d = .ok lifter →
      ∃ e', lifter e = .ok (e', [])) ∧
    (∀ d lifter, opBuilderHelperIntCalc d = .ok lifter →
      (∀ r, lifter e = .ok r → r.2 = []) ∧
      (e.getEventValue (formatJsonPath (cstr d.name)) ≠ some (.int INT_MIN) →
        ∃ e', lifter e = .ok (e', []))) ∧
    (∀ docStr d lifter, opBuilderHelperStringConcat docStr d = .ok lifter →
      ∃ e' msg, lifter e = .ok (e', [msg]) ∧
        (msg = docStr d ++ " s_concat Success" ∨ msg = docStr d ++ " s_concat Failure") ∧
        ∀ (τ : Type) (tr : TracerFn τ), tr.Returns →
          ∃ traced, opBuilderHelperStringConcatTraced docStr d tr = .ok traced ∧
            ∀ t, traced e t = (.ok e', (tr msg t).1)) ∧
    (∀ docStr d lifter, opBuilderHelperDeleteField docStr d = .ok lifter →
      ∃ e' msg, lifter e = .ok (e', [msg]) ∧
        (msg = docStr d ++ " delete_field Success" ∨
          msg = docStr d ++ " delete_field Failure") ∧
        ∀ (τ : Type) (tr : TracerFn τ), tr.Returns →
          ∃ traced, opBuilderHelperDeleteFieldTraced docStr d tr = .ok traced ∧
            ∀ t, traced e t = (.ok e', (tr msg t).1)) := by
  refine ⟨?_, ?_, ?_, ?_, ?_⟩
  · intro d lifter hb
    rcases hb with hb | hb | hb
    · apply ok_without_trace _ (caseLifter_returns d lifter e (Or.inl hb))
      obtain ⟨v, t0, p1, _, _, hl⟩ := opBuilderHelperStringUP_ok d lifter hb
      rw [hl]
      exact caseLifter_trace _ _ _ _ e
    · apply ok_without_trace _ (caseLifter_returns d lifter e (Or.inr hb))
      obtain ⟨v, t0, p1, _, _, hl⟩ := opBuilderHelperStringLO_ok d lifter hb
      rw [hl]
      exact caseLifter_trace _ _ _ _ e
    · apply ok_without_trace _ (trimLifter_returns d lifter e hb)
      obtain ⟨v, t0, mode, trimChar, c, _, _, _, _, hl⟩ :=
        opBuilderHelperStringTrim_ok d lifter hb
      rw [hl]
      exact trimLifter_trace _ _ _ e
  · intro re2 d lifter hb
    apply ok_without_trace _ (regexExtractLifter_returns re2 d lifter e hb)
    obtain ⟨v, t0, p1, p2, pm, _, _, _, hl⟩ := opBuilderHelperRegexExtract_ok re2 d lifter hb
    rw [hl]
    exact regexExtractLifter_trace _ _ _ e
  · intro d lifter hb
    have htr : ∀ r, lifter e = .ok r → r.2 = [] := by
      obtain ⟨v, t0, op, p2, _, _, _, _, hl⟩ := opBuilderHelperIntCalc_ok d lifter hb
      rcases hl with ⟨_, hl⟩ | ⟨_, n, _, hl⟩
      · rw [hl]
        exact intCalcLifter_trace _ _ _ _ e
      · rw [hl]
        exact intCalcLifter_trace _ _ _ _ e
    exact ⟨htr, fun hsafe =>
      ok_without_trace _ (intCalcLifter_returns d lifter e hb hsafe) htr⟩
  · intro docStr d lifter hb
    have hone : ∃ e' msg, lifter e = .ok (e', [msg]) ∧
        (msg = docStr d ++ " s_concat Success" ∨ msg = docStr d ++ " s_concat Failure") := by
      apply ok_with_one_trace _ _ _ (concatLifter_returns docStr d lifter e hb)
      obtain ⟨v, _, _, _, hl⟩ := opBuilderHelperStringConcat_ok docStr d lifter hb
      rw [hl]
      exact concatLifter_trace _ _ _ _ e
    obtain ⟨e', msg, hle, hmsg⟩ := hone
    refine ⟨e', msg, hle, hmsg, ?_⟩
    intro τ tr htr
    obtain ⟨field, params, hl, hbt⟩ := opBuilderHelperStringConcatTraced_ok docStr d lifter tr hb
    refine ⟨_, hbt, fun t => ?_⟩
    rw [hl] at hle
    exact concatLifterTraced_returns field params _ _ tr htr e e' msg t hle
  · intro docStr d lifter hb
    have hone : ∃ e' msg, lifter e = .ok (e', [msg]) ∧
        (msg = docStr d ++ " delete_field Success" ∨
          msg = docStr d ++ " delete_field Failure") := by
      apply ok_with_one_trace _ _ _ (deleteFieldLifter_returns docStr d lifter e hb)
      have hl := opBuilderHelperDeleteField_ok docStr d lifter hb
      obtain ⟨ks, hk, _⟩ := pointerTokens_formatJsonPath (cstr d.name)
      rw [hl]
      exact deleteFieldLifter_trace _ _ _ ks e hk
    obtain ⟨e', msg, hle, hmsg⟩ := hone
    refine ⟨e', msg, hle, hmsg, ?_⟩
    intro τ tr htr
    obtain ⟨hl, hbt⟩ := opBuilderHelperDeleteFieldTraced_ok docStr d lifter tr hb
    refine ⟨_, hbt, fun t => ?_⟩
    rw [hl] at hle
    exact deleteFieldLifterTraced_returns _ _ _ tr htr e e' msg t hle

theorem tracer_called_at_most_once_witness :
    (∃ e' msg,
      concatLifter "/f" ["a", "$g"] "D s_concat Success" "D s_concat Failure"
        ⟨false, .obj [("g", .str "b")]⟩ = .ok (e', [msg]) ∧
      (msg = "D" ++ " s_concat Success" ∨ msg = "D" ++ " s_concat Failure") ∧
      ∃ traced,
        opBuilderHelperStringConcatTraced (fun _ => "D") ⟨"f", .str "+s_concat/a/$g"⟩
          (fun m (n : Nat) => (n + m.length, none)) = .ok traced ∧
        ∀ t, traced ⟨false, .obj [("g", .str "b")]⟩ t = (.ok e', t + msg.length)) ∧
    concatLifter "/f" ["a", "$g"] "D s_concat Success" "D s_concat Failure"
        ⟨false, .obj [("g", .str "b")]⟩ =
      .ok (⟨false, .obj [("g", .str "b"), ("f", .str "ab")]⟩, ["D s_concat Success"]) ∧
    concatLifterTraced "/f" ["a", "$g"] "D s_concat Success" "D s_concat Failure"
        (fun m (n : Nat) => (n + m.length, none)) ⟨false, .obj [("g", .str "b")]⟩ 0 =
      (.ok ⟨false, .obj [("g", .str "b"), ("f", .str "ab")]⟩, 18) :=
  ⟨((tracer_called_at_most_once ⟨false, .obj [("g", .str "b")]⟩).2.2.2.1 (fun _ => "D")
      ⟨"f", .str "+s_concat/a/$g"⟩
      (concatLifter "/f" ["a", "$g"] "D s_concat Success" "D s_concat Failure") rfl).imp
      (fun _ h => h.imp (fun _ h' =>
        ⟨h'.1, h'.2.1, h'.2.2 Nat (fun m n => (n + m.length, none)) (fun _ _ => rfl)⟩)),
    rfl, rfl⟩

/-- C24 as stated fails for a tracer that throws.  For the rule `f: +s_concat/a/b` and the
empty event, a tracer that returns lets the lifter write `ab` to the field `f`, and a tracer
that throws a `std::runtime_error` makes it return the event without the write: the event
that results depends on the tracer.  For the rule `f: +s_concat/$g` and an event whose field
`g` holds an integer, a tracer that throws is called twice, inside the `try` and again by the
handler. -/
theorem tracer_called_at_most_once_counterexample :
    opBuilderHelperStringConcatTraced (fun _ => "D") ⟨"f", .str "+s_concat/a/b"⟩
        (fun _ (t : Unit) => (t, none)) =
      .ok (concatLifterTraced "/f" ["a", "b"] "D s_concat Success" "D s_concat Failure"
        (fun _ (t : Unit) => (t, none))) ∧
    opBuilderHelperStringConcatTraced (fun _ => "D") ⟨"f", .str "+s_concat/a/b"⟩
        (fun _ (t : Unit) => (t, some (.runtime_error "tracer"))) =
      .ok (concatLifterTraced "/f" ["a", "b"] "D s_concat Success" "D s_concat Failure"
        (fun _ (t : Unit) => (t, some (.runtime_error "tracer")))) ∧
    concatLifterTraced "/f" ["a", "b"] "D s_concat Success" "D s_concat Failure"
        (fun _ (t : Unit) => (t, none)) ⟨false, .obj []⟩ () =
      (.ok ⟨false, .obj [("f", .str "ab")]⟩, ()) ∧
    concatLifterTraced "/f" ["a", "b"] "D s_concat Success" "D s_concat Failure"
        (fun _ (t : Unit) => (t, some (.runtime_error "tracer"))) ⟨false, .obj []⟩ () =
      (.ok ⟨false, .obj []⟩, ()) ∧
    Json.obj [("f", .str "ab")] ≠ Json.obj [] ∧
    concatLifterTraced "/f" ["$g"] "D s_concat Success" "D s_concat Failure"
        (fun _ (n : Nat) => (n + 1, some (.runtime_error "tracer")))
        ⟨false, .obj [("g", .int 1)]⟩ 0 =
      (.error (.runtime_error "tracer"), 2) :=
  ⟨rfl, rfl, rfl, rfl, by simp, rfl⟩

/-! ## Operators that leave the event as it is -/

/-- The operand of i_calc is a reference that does not hold a 32-bit integer: the event is
returned as received. -/
theorem intTransformation_reference_not_int (field op ref : String) (e : Event)
    (value : Option Int)
    (h : ∀ b, e.getEventValue ref = some (.int b) → ¬(INT_MIN ≤ b ∧ b ≤ INT_MAX)) :
    opBuilderHelperIntTransformation field op e (some ref) value = .ok e := by
  unfold opBuilderHelperIntTransformation
  split
  · split
    · have hres : (match e.getEventValue ref with
          | some (.int b) => if (Json.int b).IsInt then some (some b) else none
          | _ => (none : Option (Option Int))) = none := by
        split
        · rename_i b hb
          have := h b hb
          simp only [Json.IsInt, Bool.and_eq_true, decide_eq_true_eq]
          rw [if_neg this]
        · rfl
      simp only [hres]
    · rfl
  · rfl

/-- C25. For every event, a built i_calc operator leaves the event unchanged when the target
field is absent or does not hold an integer (of the 32-bit range), and also when the operand
is a reference whose field is missing or does not hold such an integer. -/
theorem i_calc_leaves_event_unchanged (d : DocumentValue) (lifter : Lifter) (e : Event)
    (v t0 op p2 : String)
    (hb : opBuilderHelperIntCalc d = .ok lifter)
    (hv : d.value = .str v) (hs : split (cstr v) '/' = [t0, op, p2])
    (h : (∀ a, e.getEventValue (formatJsonPath (cstr d.name)) = some (.int a) →
          ¬(INT_MIN ≤ a ∧ a ≤ INT_MAX)) ∨
      (front0 p2 = REFERENCE_ANCHOR ∧
        ∀ b, e.getEventValue (formatJsonPath (substr p2 1)) = some (.int b) →
          ¬(INT_MIN ≤ b ∧ b ≤ INT_MAX))) :
    lifter e = .ok (e, []) := by
  obtain ⟨v', t0', op', p2', hv', hs', _, _, hl⟩ := opBuilderHelperIntCalc_ok d lifter hb
  rw [hv] at hv'
  injection hv' with hv'
  subst hv'
  rw [hs] at hs'
  injection hs' with h1 hs'
  injection hs' with h2 hs'
  injection hs' with h3 _
  subst h1 h2 h3
  rcases h with h | ⟨hr, h⟩
  · rcases hl with ⟨_, hl⟩ | ⟨_, n, _, hl⟩
    · rw [hl]
      simp only [intCalcLifter, intTransformation_target_not_int _ _ e _ _ h]
    · rw [hl]
      simp only [intCalcLifter, intTransformation_target_not_int _ _ e _ _ h]
  · rcases hl with ⟨_, hl⟩ | ⟨hnr, _⟩
    · rw [hl]
      simp only [intCalcLifter, intTransformation_reference_not_int _ _ _ e _ h]
    · exact absurd hr hnr

theorem i_calc_leaves_event_unchanged_witness :
    intCalcLifter "/f" "sum" (some "/g") none ⟨false, .obj [("f", .int 1), ("g", .str "x")]⟩ =
        .ok (⟨false, .obj [("f", .int 1), ("g", .str "x")]⟩, []) ∧
    intCalcLifter "/f" "sum" none (some 1) ⟨false, .obj [("f", .int 3000000000)]⟩ =
        .ok (⟨false, .obj [("f", .int 3000000000)]⟩, []) :=
  ⟨i_calc_leaves_event_unchanged ⟨"f", .str "+i_calc/sum/$g"⟩
      (intCalcLifter "/f" "sum" (some "/g") none)
      ⟨false, .obj [("f", .int 1), ("g", .str "x")]⟩ "+i_calc/sum/$g" "+i_calc" "sum" "$g"
      rfl rfl rfl
      (Or.inr ⟨rfl, by
        intro b hb
        have h2 : EventHandler.getEventValue ⟨false, .obj [("f", .int 1), ("g", .str "x")]⟩
            (formatJsonPath (substr "$g" 1)) = some (.str "x") := rfl
        rw [h2] at hb
        injection hb with hb
        cases hb⟩),
    i_calc_leaves_event_unchanged ⟨"f", .str "+i_calc/sum/1"⟩
      (intCalcLifter "/f" "sum" none (some 1))
      ⟨false, .obj [("f", .int 3000000000)]⟩ "+i_calc/sum/1" "+i_calc" "sum" "1"
      rfl rfl rfl
      (Or.inl (by
        intro a ha
        have h2 : EventHandler.getEventValue ⟨false, .obj [("f", .int 3000000000)]⟩
            (formatJsonPath (cstr "f")) = some (.int 3000000000) := rfl
        rw [h2] at ha
        injection ha with ha
        injection ha with ha
        rw [← ha]
        decide))⟩

/-- C26. For every event whose target field is absent or is not a string, the application of
a built s_trim operator, of any mode and any trim character, leaves the event unchanged. -/
theorem s_trim_leaves_event_unchanged (d : DocumentValue) (lifter : Lifter) (e : Event)
    (hb : opBuilderHelperStringTrim d = .ok lifter)
    (h : ∀ s, e.getEventValue (formatJsonPath (cstr d.name)) ≠ some (.str s)) :
    lifter e = .ok (e, []) := by
  obtain ⟨v, t0, mode, trimChar, c, _, _, _, _, hl⟩ := opBuilderHelperStringTrim_ok d lifter hb
  rw [hl]
  exact trimLifter_not_string _ _ _ e h

theorem s_trim_leaves_event_unchanged_witness :
    trimLifter "/f" 'b' "-" ⟨false, .obj [("f", .int 5)]⟩ =
      .ok (⟨false, .obj [("f", .int 5)]⟩, []) :=
  s_trim_leaves_event_unchanged ⟨"f", .str "+s_trim/both/-"⟩ (trimLifter "/f" 'b' "-")
    ⟨false, .obj [("f", .int 5)]⟩ rfl
    (by
      intro s hs
      have h2 : EventHandler.getEventValue ⟨false, .obj [("f", .int 5)]⟩
          (formatJsonPath (cstr "f")) = some (.int 5) := rfl
      rw [h2] at hs
      injection hs with hs
      cases hs)

/-! ## Validation at build time -/

theorem utf8Size_eq_one_iff (c : Char) : c.utf8Size = 1 ↔ c.toNat < 128 := by
  unfold Char.utf8Size Char.toNat
  have h : c.val ≤ 127 ↔ c.val.toNat ≤ 127 := by
    simp [UInt32.le_def, BitVec.le_def, UInt32.toNat]
  simp only []
  split_ifs with h1 h2 h3
  · have := h.mp h1
    constructor
    · intro _
      omega
    · intro _
      rfl
  · constructor
    · intro h0
      cases h0
    · intro h0
      exact absurd (h.mpr (by omega)) h1
  · constructor
    · intro h0
      cases h0
    · intro h0
      exact absurd (h.mpr (by omega)) h1
  · constructor
    · intro h0
      cases h0
    · intro h0
      exact absurd (h.mpr (by omega)) h1

/-- A string of one byte is a string of one character of the ASCII range. -/
theorem utf8ByteSize_eq_one_iff (t : String) :
    t.utf8ByteSize = 1 ↔ ∃ c, t.data = [c] ∧ c.toNat < 128 := by
  constructor
  · intro h
    obtain ⟨c, hc⟩ := data_of_utf8ByteSize_one t h
    refine ⟨c, hc, ?_⟩
    obtain ⟨l⟩ := t
    simp only at hc
    subst hc
    simp only [String.utf8ByteSize, String.utf8ByteSize.go] at h
    exact (utf8Size_eq_one_iff c).mp (by omega)
  · rintro ⟨c, hc, hlt⟩
    obtain ⟨l⟩ := t
    simp only at hc
    subst hc
    simp only [String.utf8ByteSize, String.utf8ByteSize.go]
    have := (utf8Size_eq_one_iff c).mpr hlt
    omega

theorem trimTypeOf_ne_nul_iff (mode : String) :
    trimTypeOf mode ≠ '\x00' ↔ (mode = "begin" ∨ mode = "end" ∨ mode = "both") := by
  unfold trimTypeOf
  by_cases h1 : mode = "begin"
  · simp [h1]
  · by_cases h2 : mode = "end"
    · simp [h2]
    · by_cases h3 : mode = "both"
      · simp [h3]
      · simp [h1, h2, h3]

/-- The build of s_trim for an expression of three tokens. -/
theorem opBuilderHelperStringTrim_three (d : DocumentValue) (v t0 mode trimChar : String)
    (hv : d.value = .str v) (hs : split (cstr v) '/' = [t0, mode, trimChar]) :
    opBuilderHelperStringTrim d =
      if trimTypeOf mode = '\x00' then
        .error (.runtime_error "Invalid trim type for s_trim operator")
      else if trimChar.utf8ByteSize ≠ 1 then
        .error (.runtime_error "Invalid trim char for s_trim operator")
      else .ok (trimLifter (formatJsonPath (cstr d.name)) (trimTypeOf mode) trimChar) := by
  unfold opBuilderHelperStringTrim
  simp only [hv, hs]

/-- The build of s_trim for an expression that has not three tokens. -/
theorem opBuilderHelperStringTrim_not_three (d : DocumentValue) (v : String)
    (hv : d.value = .str v) (hs : (split (cstr v) '/').length ≠ 3) :
    opBuilderHelperStringTrim d =
      .error (.runtime_error "Invalid number of parameters for s_trim operator") := by
  unfold opBuilderHelperStringTrim
  simp only [hv]
  split
  · rename_i t0 mode trimChar heq
    rw [heq] at hs
    exact absurd rfl hs
  · rfl

/-- C27 (amended). Building s_trim from a string-valued definition succeeds if and only if the
expression splits on the slash into exactly 3 tokens, the mode token is one of begin, end,
both, and the trim-character token is exactly one byte long, that is one character of the
ASCII range; in every other case the builder raises a runtime error and returns no
operator. -/
theorem s_trim_build_iff (d : DocumentValue) (v : String) (hv : d.value = .str v) :
    ((∃ lifter, opBuilderHelperStringTrim d = .ok lifter) ↔
      ∃ t0 mode trimChar, split (cstr v) '/' = [t0, mode, trimChar] ∧
        (mode = "begin" ∨ mode = "end" ∨ mode = "both") ∧
        ∃ c, trimChar.data = [c] ∧ c.toNat < 128) ∧
    ((∃ lifter, opBuilderHelperStringTrim d = .ok lifter) ∨
      ∃ what, opBuilderHelperStringTrim d = .error (.runtime_error what)) := by
  by_cases h3 : (split (cstr v) '/').length = 3
  · obtain ⟨t0, rest, h0⟩ := List.exists_cons_of_ne_nil
      (List.ne_nil_of_length_pos (by omega : 0 < (split (cstr v) '/').length))
    rw [h0] at h3
    obtain ⟨mode, rest2, h1⟩ := List.exists_cons_of_ne_nil
      (List.ne_nil_of_length_pos (by simp only [List.length_cons] at h3; omega : 0 < rest.length))
    subst h1
    obtain ⟨trimChar, rest3, h2⟩ := List.exists_cons_of_ne_nil
      (List.ne_nil_of_length_pos (by simp only [List.length_cons] at h3; omega : 0 < rest2.length))
    subst h2
    have h4 : rest3 = [] := List.eq_nil_of_length_eq_zero (by simp only [List.length_cons] at h3; omega)
    subst h4
    have hbuild := opBuilderHelperStringTrim_three d v t0 mode trimChar hv h0
    by_cases hm : trimTypeOf mode = '\x00'
    · rw [if_pos hm] at hbuild
      refine ⟨?_, Or.inr ⟨_, hbuild⟩⟩
      constructor
      · rintro ⟨lifter, hl⟩
        rw [hbuild] at hl
        cases hl
      · rintro ⟨t0', mode', trimChar', hs', hmode, _⟩
        rw [h0] at hs'
        injection hs' with _ hs'
        injection hs' with hmm _
        subst hmm
        exact absurd hm ((trimTypeOf_ne_nul_iff mode).mpr hmode)
    · rw [if_neg hm] at hbuild
      by_cases hc : trimChar.utf8ByteSize ≠ 1
      · rw [if_pos hc] at hbuild
        refine ⟨?_, Or.inr ⟨_, hbuild⟩⟩
        constructor
        · rintro ⟨lifter, hl⟩
          rw [hbuild] at hl
          cases hl
        · rintro ⟨t0', mode', trimChar', hs', _, hch⟩
          rw [h0] at hs'
          injection hs' with _ hs'
          injection hs' with _ hs'
          injection hs' with hcc _
          subst hcc
          exact absurd ((utf8ByteSize_eq_one_iff trimChar).mpr hch) hc
      · rw [if_neg hc] at hbuild
        refine ⟨?_, Or.inl ⟨_, hbuild⟩⟩
        constructor
        · intro _
          exact ⟨t0, mode, trimChar, h0, (trimTypeOf_ne_nul_iff mode).mp hm,
            (utf8ByteSize_eq_one_iff trimChar).mp (not_not.mp hc)⟩
        · intro _
          exact ⟨_, hbuild⟩
  · have hbuild := opBuilderHelperStringTrim_not_three d v hv h3
    refine ⟨?_, Or.inr ⟨_, hbuild⟩⟩
    constructor
    · rintro ⟨lifter, hl⟩
      rw [hbuild] at hl
      cases hl
    · rintro ⟨t0, mode, trimChar, hs, _⟩
      rw [hs] at h3
      exact absurd rfl h3

theorem s_trim_build_iff_witness :
    (∃ lifter, opBuilderHelperStringTrim ⟨"f", .str "+s_trim/both/-"⟩ = .ok lifter) ∧
    ∃ t0 mode trimChar, split (cstr "+s_trim/both/-") '/' = [t0, mode, trimChar] ∧
      (mode = "begin" ∨ mode = "end" ∨ mode = "both") ∧
      ∃ c, trimChar.data = [c] ∧ c.toNat < 128 :=
  ⟨⟨_, rfl⟩,
    (s_trim_build_iff ⟨"f", .str "+s_trim/both/-"⟩ "+s_trim/both/-" rfl).1.mp ⟨_, rfl⟩⟩

theorem s_trim_build_iff_counterexample :
    split (cstr "+s_trim/both/é") '/' = ["+s_trim", "both", "é"] ∧
    ("é" : String).length = 1 ∧
    opBuilderHelperStringTrim ⟨"f", .str "+s_trim/both/é"⟩ =
      .error (.runtime_error "Invalid trim char for s_trim operator") :=
  ⟨by decide, by decide, rfl⟩

/-- C28 (amended). Building s_concat from a string-valued definition fails unless the
expression has at least 3 slash-delimited tokens, the operator name included (that is at least
2 segments after the operator name), and fails whenever a segment is the empty string; it
succeeds for every expression that meets both conditions. -/
theorem s_concat_build_iff (docStr : DocumentValue → String) (d : DocumentValue) (v : String)
    (hv : d.value = .str v) :
    ((∃ lifter, opBuilderHelperStringConcat docStr d = .ok lifter) ↔
      (2 ≤ ((split (cstr v) '/').drop 1).length ∧
        ∀ p ∈ (split (cstr v) '/').drop 1, p.data ≠ [])) ∧
    (((split (cstr v) '/').drop 1).length < 2 →
      opBuilderHelperStringConcat docStr d =
        .error (.runtime_error "Invalid number of parameters for s_concat operator")) ∧
    (2 ≤ ((split (cstr v) '/').drop 1).length →
      (∃ p ∈ (split (cstr v) '/').drop 1, p.data = []) →
      opBuilderHelperStringConcat docStr d =
        .error (.runtime_error "one parameter is an empty string")) := by
  have hlen : ((split (cstr v) '/').drop 1).length = (split (cstr v) '/').length - 1 :=
    List.length_drop 1 _
  have hfew : ((split (cstr v) '/').drop 1).length < 2 →
      opBuilderHelperStringConcat docStr d =
        .error (.runtime_error "Invalid number of parameters for s_concat operator") := by
    intro h
    unfold opBuilderHelperStringConcat
    simp only [hv]
    rw [if_pos (by omega)]
  have hempty : 2 ≤ ((split (cstr v) '/').drop 1).length →
      (∃ p ∈ (split (cstr v) '/').drop 1, p.data = []) →
      opBuilderHelperStringConcat docStr d =
        .error (.runtime_error "one parameter is an empty string") := by
    intro h ⟨p, hp, hpe⟩
    unfold opBuilderHelperStringConcat
    simp only [hv]
    rw [if_neg (by omega), if_pos]
    rw [List.any_eq_true]
    exact ⟨p, hp, by simp [hpe]⟩
  refine ⟨?_, hfew, hempty⟩
  constructor
  · rintro ⟨lifter, hl⟩
    obtain ⟨v', hv', h3, hne, _⟩ := opBuilderHelperStringConcat_ok docStr d lifter hl
    rw [hv] at hv'
    injection hv' with hv'
    subst hv'
    exact ⟨by omega, hne⟩
  · rintro ⟨h2, hne⟩
    unfold opBuilderHelperStringConcat
    simp only [hv]
    rw [if_neg (by omega), if_neg]
    · exact ⟨_, rfl⟩
    · rw [List.any_eq_true]
      rintro ⟨p, hp, hpe⟩
      apply hne p hp
      simpa using hpe

theorem s_concat_build_iff_witness :
    (∃ lifter, opBuilderHelperStringConcat (fun _ => "D") ⟨"f", .str "+s_concat/a/b/c"⟩ =
      .ok lifter) ∧
    opBuilderHelperStringConcat (fun _ => "D") ⟨"f", .str "+s_concat/a"⟩ =
      .error (.runtime_error "Invalid number of parameters for s_concat operator") ∧
    opBuilderHelperStringConcat (fun _ => "D") ⟨"f", .str "+s_concat/a//c"⟩ =
      .error (.runtime_error "one parameter is an empty string") :=
  ⟨(s_concat_build_iff (fun _ => "D") ⟨"f", .str "+s_concat/a/b/c"⟩ "+s_concat/a/b/c" rfl).1.mpr
      (by decide),
    (s_concat_build_iff (fun _ => "D") ⟨"f", .str "+s_concat/a"⟩ "+s_concat/a" rfl).2.1
      (by decide),
    (s_concat_build_iff (fun _ => "D") ⟨"f", .str "+s_concat/a//c"⟩ "+s_concat/a//c" rfl).2.2
      (by decide) (by decide)⟩

theorem s_concat_build_iff_counterexample :
    (split (cstr "+s_concat/a/b") '/').drop 1 = ["a", "b"] ∧
    opBuilderHelperStringConcat (fun _ => "D") ⟨"f", .str "+s_concat/a/b"⟩ =
      .ok (concatLifter "/f" ["a", "b"] "D s_concat Success" "D s_concat Failure") :=
  ⟨by decide, rfl⟩

/-- The build of i_calc for an expression that has not three tokens. -/
theorem opBuilderHelperIntCalc_not_three (d : DocumentValue) (v : String)
    (hv : d.value = .str v) (hs : (split (cstr v) '/').length ≠ 3) :
    opBuilderHelperIntCalc d = .error (.runtime_error "Invalid parameters") := by
  unfold opBuilderHelperIntCalc
  simp only [hv]
  split
  · rename_i t0 op p2 heq
    rw [heq] at hs
    exact absurd rfl hs
  · rfl

/-- The build of i_calc for an expression of three tokens. -/
theorem opBuilderHelperIntCalc_three (d : DocumentValue) (v t0 op p2 : String)
    (hv : d.value = .str v) (hs : split (cstr v) '/' = [t0, op, p2]) :
    opBuilderHelperIntCalc d =
      if op ≠ "sum" ∧ op ≠ "sub" ∧ op ≠ "mul" ∧ op ≠ "div" then
        .error (.runtime_error "Invalid operator")
      else if op = "div" ∧ p2 = "0" then
        .error (.runtime_error "Division by zero")
      else if front0 p2 = REFERENCE_ANCHOR then
        .ok (intCalcLifter (formatJsonPath (cstr d.name)) op
          (some (formatJsonPath (substr p2 1))) none)
      else
        match stoi p2 with
        | .ok n => .ok (intCalcLifter (formatJsonPath (cstr d.name)) op none (some n))
        | .error ex => .error ex := by
  unfold opBuilderHelperIntCalc
  simp only [hv, hs]

/-- C29. Building i_calc from a string-valued definition fails whenever the expression does
not split on the slash into exactly 3 tokens, and whenever the operation token is not one of
sum, sub, mul, div. -/
theorem i_calc_build_rejects (d : DocumentValue) (v : String) (hv : d.value = .str v) :
    ((split (cstr v) '/').length ≠ 3 →
      opBuilderHelperIntCalc d = .error (.runtime_error "Invalid parameters")) ∧
    (∀ t0 op p2, split (cstr v) '/' = [t0, op, p2] →
      op ≠ "sum" → op ≠ "sub" → op ≠ "mul" → op ≠ "div" →
      opBuilderHelperIntCalc d = .error (.runtime_error "Invalid operator")) := by
  refine ⟨opBuilderHelperIntCalc_not_three d v hv, ?_⟩
  intro t0 op p2 hs h1 h2 h3 h4
  rw [opBuilderHelperIntCalc_three d v t0 op p2 hv hs, if_pos ⟨h1, h2, h3, h4⟩]

theorem i_calc_build_rejects_witness :
    opBuilderHelperIntCalc ⟨"f", .str "+i_calc/sum"⟩ =
      .error (.runtime_error "Invalid parameters") ∧
    opBuilderHelperIntCalc ⟨"f", .str "+i_calc/sum/1/2"⟩ =
      .error (.runtime_error "Invalid parameters") ∧
    opBuilderHelperIntCalc ⟨"f", .str "+i_calc/mod/2"⟩ =
      .error (.runtime_error "Invalid operator") :=
  ⟨(i_calc_build_rejects ⟨"f", .str "+i_calc/sum"⟩ "+i_calc/sum" rfl).1 (by decide),
    (i_calc_build_rejects ⟨"f", .str "+i_calc/sum/1/2"⟩ "+i_calc/sum/1/2" rfl).1 (by decide),
    (i_calc_build_rejects ⟨"f", .str "+i_calc/mod/2"⟩ "+i_calc/mod/2" rfl).2
      "+i_calc" "mod" "2" rfl (by decide) (by decide) (by decide) (by decide)⟩

/-! ## The literal operand of i_calc -/

theorem isspace_not_digit (c : Char) (h : isspace c = true) : c.isDigit = false := by
  unfold isspace at h
  simp only [Bool.or_eq_true, decide_eq_true_eq] at h
  rcases h with ((((h | h) | h) | h) | h) | h <;> subst h <;> decide

theorem takeWhile_digits (ds rest : List Char) (hdig : ∀ c ∈ ds, c.isDigit = true)
    (hrest : ∀ c, rest.head? = some c → c.isDigit = false) :
    (ds ++ rest).takeWhile Char.isDigit = ds := by
  rw [List.takeWhile_append_of_pos hdig]
  cases rest with
  | nil => simp
  | cons c cs => simp [List.takeWhile, hrest c rfl]

theorem dropWhile_space (ws body : List Char) (hws : ∀ c ∈ ws, isspace c = true)
    (hb : ∀ c, body.head? = some c → isspace c = false) :
    (ws ++ body).dropWhile isspace = body := by
  rw [List.dropWhile_append_of_pos hws]
  cases body with
  | nil => rfl
  | cons c cs => simp [List.dropWhile, hb c rfl]

/-- The sign `stoi` reads in a text that does not start with a sign. -/
theorem stoi_no_sign (c : Char) (cs : List Char) (h1 : c ≠ '-') (h2 : c ≠ '+') :
    (match c :: cs with
      | '-' :: r => (true, r)
      | '+' :: r => (false, r)
      | _ => (false, c :: cs)) = (false, c :: cs) := by
  split
  · rename_i r heq
    injection heq with h _
    exact absurd h h1
  · rename_i r heq
    injection heq with h _
    exact absurd h h2
  · rfl

/-- What `stoi` reads: white space, a sign, a run of digits; what follows the digits is not
looked at. -/
theorem stoi_reads (ws ds rest : List Char) (neg : Bool) (sign : List Char)
    (hws : ∀ c ∈ ws, isspace c = true)
    (hsign : (neg = true ∧ sign = ['-']) ∨ (neg = false ∧ (sign = [] ∨ sign = ['+'])))
    (hds : ds ≠ []) (hdig : ∀ c ∈ ds, c.isDigit = true)
    (hrest : ∀ c, rest.head? = some c → c.isDigit = false) :
    stoi ⟨ws ++ (sign ++ (ds ++ rest))⟩ =
      if signedValue neg ds < INT_MIN ∨ INT_MAX < signedValue neg ds then
        .error (.out_of_range "stoi")
      else .ok (signedValue neg ds) := by
  obtain ⟨d0, ds', rfl⟩ := List.exists_cons_of_ne_nil hds
  have hd0 : d0.isDigit = true := hdig d0 (List.mem_cons_self _ _)
  have hsp : isspace d0 = false := by
    cases h : isspace d0 with
    | false => rfl
    | true =>
      rw [isspace_not_digit d0 h] at hd0
      cases hd0
  have htw := takeWhile_digits (d0 :: ds') rest hdig hrest
  unfold stoi signedValue
  rcases hsign with ⟨hn, hs⟩ | ⟨hn, hs | hs⟩
  · subst hn hs
    have hb : (ws ++ (['-'] ++ (d0 :: ds' ++ rest))).dropWhile isspace =
        '-' :: (d0 :: ds' ++ rest) :=
      dropWhile_space ws _ hws (by intro c hc; injection hc with hc; subst hc; decide)
    simp only [hb, htw]
    simp
  · subst hn hs
    have hb : (ws ++ ([] ++ (d0 :: ds' ++ rest))).dropWhile isspace = d0 :: (ds' ++ rest) :=
      dropWhile_space ws _ hws (by intro c hc; injection hc with hc; subst hc; exact hsp)
    have h1 : d0 ≠ '-' := by rintro rfl; revert hd0; decide
    have h2 : d0 ≠ '+' := by rintro rfl; revert hd0; decide
    simp only [hb, stoi_no_sign d0 (ds' ++ rest) h1 h2]
    rw [show d0 :: (ds' ++ rest) = d0 :: ds' ++ rest from rfl, htw]
    simp
  · subst hn hs
    have hb : (ws ++ (['+'] ++ (d0 :: ds' ++ rest))).dropWhile isspace =
        '+' :: (d0 :: ds' ++ rest) :=
      dropWhile_space ws _ hws (by intro c hc; injection hc with hc; subst hc; decide)
    simp only [hb, htw]
    simp

/-- What `stoi` refuses: a text in which no digit follows the white space and the sign. -/
theorem stoi_refuses (ws sign rest : List Char)
    (hws : ∀ c ∈ ws, isspace c = true)
    (hsign : sign = [] ∨ sign = ['-'] ∨ sign = ['+'])
    (hrest : ∀ c, rest.head? = some c → c.isDigit = false ∧
      (sign = [] → isspace c = false ∧ c ≠ '-' ∧ c ≠ '+')) :
    stoi ⟨ws ++ (sign ++ rest)⟩ = .error (.invalid_argument "stoi") := by
  have htw : rest.takeWhile Char.isDigit = [] := by
    cases rest with
    | nil => rfl
    | cons c cs => simp [List.takeWhile, (hrest c rfl).1]
  unfold stoi
  rcases hsign with hs | hs | hs
  · subst hs
    cases rest with
    | nil =>
      have hb : (ws ++ ([] ++ ([] : List Char))).dropWhile isspace = [] :=
        dropWhile_space ws _ hws (by intro c hc; cases hc)
      simp only [hb]
      rfl
    | cons c cs =>
      obtain ⟨_, h⟩ := hrest c rfl
      obtain ⟨hsp, h1, h2⟩ := h rfl
      have hb : (ws ++ ([] ++ (c :: cs))).dropWhile isspace = c :: cs :=
        dropWhile_space ws _ hws (by intro x hx; injection hx with hx; subst hx; exact hsp)
      simp only [hb, stoi_no_sign c cs h1 h2, htw]
      rfl
  · subst hs
    have hb : (ws ++ (['-'] ++ rest)).dropWhile isspace = '-' :: rest :=
      dropWhile_space ws _ hws (by intro c hc; injection hc with hc; subst hc; decide)
    simp only [hb, htw]
    rfl
  · subst hs
    have hb : (ws ++ (['+'] ++ rest)).dropWhile isspace = '+' :: rest :=
      dropWhile_space ws _ hws (by intro c hc; injection hc with hc; subst hc; decide)
    simp only [hb, htw]
    rfl

/-- The build of i_calc with a literal operand is decided by `stoi`. -/
theorem opBuilderHelperIntCalc_literal (d : DocumentValue) (v t0 op p2 : String)
    (hv : d.value = .str v) (hs : split (cstr v) '/' = [t0, op, p2])
    (hop : op = "sum" ∨ op = "sub" ∨ op = "mul" ∨ op = "div")
    (hz : ¬(op = "div" ∧ p2 = "0")) (hlit : front0 p2 ≠ REFERENCE_ANCHOR) :
    opBuilderHelperIntCalc d =
      match stoi p2 with
      | .ok n => .ok (intCalcLifter (formatJsonPath (cstr d.name)) op none (some n))
      | .error ex => .error ex := by
  rw [opBuilderHelperIntCalc_three d v t0 op p2 hv hs, if_neg, if_neg hz, if_neg hlit]
  rintro ⟨h1, h2, h3, h4⟩
  rcases hop with h | h | h | h
  · exact h1 h
  · exact h2 h
  · exact h3 h
  · exact h4 h

/-- C30 (amended). The build of i_calc parses a literal operand with `std::stoi`: white space
before the number and whatever follows its digits are not looked at.  For a literal token
made of white space (possibly none), an optional sign, at least one decimal digit and then any
text that does not start with a digit, the built operator uses the integer of the sign and the
digits as operand when it fits 32 bits, and the build fails with `out_of_range` when it does
not; the build fails with `invalid_argument` for every literal token in which no digit
follows the white space and the sign.  (The token `0` of a division is refused before.) -/
theorem i_calc_literal_operand (d : DocumentValue) (v t0 op p2 : String)
    (hv : d.value = .str v) (hs : split (cstr v) '/' = [t0, op, p2])
    (hop : op = "sum" ∨ op = "sub" ∨ op = "mul" ∨ op = "div")
    (hz : ¬(op = "div" ∧ p2 = "0")) (hlit : front0 p2 ≠ REFERENCE_ANCHOR) :
    (∀ (ws sign ds rest : List Char) (neg : Bool),
      p2.data = ws ++ (sign ++ (ds ++ rest)) →
      (∀ c ∈ ws, isspace c = true) →
      ((neg = true ∧ sign = ['-']) ∨ (neg = false ∧ (sign = [] ∨ sign = ['+']))) →
      ds ≠ [] → (∀ c ∈ ds, c.isDigit = true) →
      (∀ c, rest.head? = some c → c.isDigit = false) →
      (INT_MIN ≤ signedValue neg ds → signedValue neg ds ≤ INT_MAX →
        opBuilderHelperIntCalc d =
          .ok (intCalcLifter (formatJsonPath (cstr d.name)) op none
            (some (signedValue neg ds)))) ∧
      (signedValue neg ds < INT_MIN ∨ INT_MAX < signedValue neg ds →
        opBuilderHelperIntCalc d = .error (.out_of_range "stoi"))) ∧
    (∀ (ws sign rest : List Char),
      p2.data = ws ++ (sign ++ rest) →
      (∀ c ∈ ws, isspace c = true) →
      (sign = [] ∨ sign = ['-'] ∨ sign = ['+']) →
      (∀ c, rest.head? = some c → c.isDigit = false ∧
        (sign = [] → isspace c = false ∧ c ≠ '-' ∧ c ≠ '+')) →
      opBuilderHelperIntCalc d = .error (.invalid_argument "stoi")) := by
  have hbuild := opBuilderHelperIntCalc_literal d v t0 op p2 hv hs hop hz hlit
  have hp2 : ∀ l, p2.data = l → p2 = ⟨l⟩ := by
    intro l hl
    rw [← hl]
  constructor
  · intro ws sign ds rest neg hdata hws hsign hds hdig hrest
    have hst := stoi_reads ws ds rest neg sign hws hsign hds hdig hrest
    rw [← hp2 _ hdata] at hst
    constructor
    · intro h1 h2
      rw [hbuild, hst, if_neg (by omega)]
    · intro h
      rw [hbuild, hst, if_pos h]
  · intro ws sign rest hdata hws hsign hrest
    have hst := stoi_refuses ws sign rest hws hsign hrest
    rw [← hp2 _ hdata] at hst
    rw [hbuild, hst]

theorem i_calc_literal_operand_witness :
    opBuilderHelperIntCalc ⟨"f", .str "+i_calc/sum/-42"⟩ =
      .ok (intCalcLifter (formatJsonPath (cstr "f")) "sum" none
        (some (signedValue true ['4', '2']))) ∧
    signedValue true ['4', '2'] = -42 ∧
    opBuilderHelperIntCalc ⟨"f", .str "+i_calc/sum/abc"⟩ = .error (.invalid_argument "stoi") ∧
    opBuilderHelperIntCalc ⟨"f", .str "+i_calc/sum/4294967296"⟩ =
      .error (.out_of_range "stoi") :=
  ⟨((i_calc_literal_operand ⟨"f", .str "+i_calc/sum/-42"⟩ "+i_calc/sum/-42" "+i_calc" "sum"
      "-42" rfl rfl (Or.inl rfl) (by decide) (by decide)).1 [] ['-'] ['4', '2'] [] true rfl
      (by decide) (Or.inl ⟨rfl, rfl⟩) (by decide) (by decide) (by decide)).1
      (by decide) (by decide),
    by decide,
    (i_calc_literal_operand ⟨"f", .str "+i_calc/sum/abc"⟩ "+i_calc/sum/abc" "+i_calc" "sum"
      "abc" rfl rfl (Or.inl rfl) (by decide) (by decide)).2 [] [] ['a', 'b', 'c'] rfl
      (by decide) (Or.inl rfl) (by decide),
    ((i_calc_literal_operand ⟨"f", .str "+i_calc/sum/4294967296"⟩ "+i_calc/sum/4294967296"
      "+i_calc" "sum" "4294967296" rfl rfl (Or.inl rfl) (by decide) (by decide)).1 [] []
      ['4', '2', '9', '4', '9', '6', '7', '2', '9', '6'] [] false rfl
      (by decide) (Or.inr ⟨rfl, Or.inl rfl⟩) (by decide) (by decide) (by decide)).2
      (by decide)⟩

theorem i_calc_literal_operand_counterexample :
    opBuilderHelperIntCalc ⟨"f", .str "+i_calc/sum/12abc"⟩ =
      .ok (intCalcLifter "/f" "sum" none (some 12)) ∧
    opBuilderHelperIntCalc ⟨"f", .str "+i_calc/sum/ 12"⟩ =
      .ok (intCalcLifter "/f" "sum" none (some 12)) ∧
    intCalcLifter "/f" "sum" none (some 12) ⟨false, .obj [("f", .int 1)]⟩ =
      .ok (⟨false, .obj [("f", .int 13)]⟩, []) :=
  ⟨rfl, rfl, rfl⟩

/-! ## Validation at build time of the operators modelled from the specification -/

/-- C31. Building json_delete_fields from a string-valued definition fails with a runtime
error when the expression has no field parameter after the operator name and when a field
parameter is empty; it succeeds when there is at least one parameter and none is empty. -/
theorem json_delete_fields_build_iff (d : DocumentValue) (v : String)
    (hv : d.value = .str v) :
    ((∃ lifter, opBuilderHelperJsonDeleteFields d = .ok lifter) ↔
      ((split v '/').drop 1 ≠ [] ∧ ∀ p ∈ (split v '/').drop 1, p.data ≠ [])) ∧
    ((split v '/').drop 1 = [] →
      opBuilderHelperJsonDeleteFields d =
        .error (.runtime_error "Invalid number of parameters")) ∧
    ((∃ p ∈ (split v '/').drop 1, p.data = []) →
      opBuilderHelperJsonDeleteFields d = .error (.runtime_error "Empty parameter")) := by
  have hnone : (split v '/').drop 1 = [] →
      opBuilderHelperJsonDeleteFields d =
        .error (.runtime_error "Invalid number of parameters") := by
    intro h
    unfold opBuilderHelperJsonDeleteFields
    simp only [hv, h]
    rfl
  have hempty : (∃ p ∈ (split v '/').drop 1, p.data = []) →
      opBuilderHelperJsonDeleteFields d = .error (.runtime_error "Empty parameter") := by
    rintro ⟨p, hp, hpe⟩
    unfold opBuilderHelperJsonDeleteFields
    simp only [hv]
    rw [if_neg, if_pos]
    · rw [List.any_eq_true]
      exact ⟨p, hp, by simp [hpe]⟩
    · intro h
      rw [List.isEmpty_iff] at h
      rw [h] at hp
      cases hp
  refine ⟨?_, hnone, hempty⟩
  constructor
  · rintro ⟨lifter, hl⟩
    obtain ⟨v', hv', h1, h2, _⟩ := opBuilderHelperJsonDeleteFields_ok d lifter hl
    rw [hv] at hv'
    injection hv' with hv'
    subst hv'
    exact ⟨h1, h2⟩
  · rintro ⟨h1, h2⟩
    unfold opBuilderHelperJsonDeleteFields
    simp only [hv]
    rw [if_neg, if_neg]
    · exact ⟨_, rfl⟩
    · rw [List.any_eq_true]
      rintro ⟨p, hp, hpe⟩
      apply h2 p hp
      simpa using hpe
    · intro h
      rw [List.isEmpty_iff] at h
      exact h1 h

theorem json_delete_fields_build_iff_witness :
    (∃ lifter, opBuilderHelperJsonDeleteFields
      ⟨"qttyOfDeletedFields", .str "+json_delete_fields/First/Second"⟩ = .ok lifter) ∧
    opBuilderHelperJsonDeleteFields ⟨"qttyOfDeletedFields", .str "+json_delete_fields"⟩ =
      .error (.runtime_error "Invalid number of parameters") ∧
    opBuilderHelperJsonDeleteFields ⟨"qttyOfDeletedFields", .str "+json_delete_fields//"⟩ =
      .error (.runtime_error "Empty parameter") ∧
    opBuilderHelperJsonDeleteFields ⟨"qttyOfDeletedFields", .str "+json_delete_fields//2"⟩ =
      .error (.runtime_error "Empty parameter") :=
  ⟨(json_delete_fields_build_iff
      ⟨"qttyOfDeletedFields", .str "+json_delete_fields/First/Second"⟩
      "+json_delete_fields/First/Second" rfl).1.mpr (by decide),
    (json_delete_fields_build_iff ⟨"qttyOfDeletedFields", .str "+json_delete_fields"⟩
      "+json_delete_fields" rfl).2.1 (by decide),
    (json_delete_fields_build_iff ⟨"qttyOfDeletedFields", .str "+json_delete_fields//"⟩
      "+json_delete_fields//" rfl).2.2 (by decide),
    (json_delete_fields_build_iff ⟨"qttyOfDeletedFields", .str "+json_delete_fields//2"⟩
      "+json_delete_fields//2" rfl).2.2 (by decide)⟩

/-- The build of a containment check, of either polarity. -/
theorem containmentBuilder_iff (polarity : Bool) (d : DocumentValue) (v : String)
    (hv : d.value = .str v) :
    ((∃ check, containmentBuilder polarity d = .ok check) ↔
      ((split v '/').drop 1 ≠ [] ∧ ∀ p ∈ (split v '/').drop 1, p.data ≠ [])) ∧
    ((split v '/').drop 1 = [] →
      containmentBuilder polarity d =
        .error (.runtime_error "Invalid number of parameters")) ∧
    ((∃ p ∈ (split v '/').drop 1, p.data = []) →
      containmentBuilder polarity d = .error (.runtime_error "Empty parameter")) := by
  have hnone : (split v '/').drop 1 = [] →
      containmentBuilder polarity d =
        .error (.runtime_error "Invalid number of parameters") := by
    intro h
    unfold containmentBuilder
    simp only [hv, h]
    rfl
  have hempty : (∃ p ∈ (split v '/').drop 1, p.data = []) →
      containmentBuilder polarity d = .error (.runtime_error "Empty parameter") := by
    rintro ⟨p, hp, hpe⟩
    unfold containmentBuilder
    simp only [hv]
    rw [if_neg, if_pos]
    · rw [List.any_eq_true]
      exact ⟨p, hp, by simp [hpe]⟩
    · intro h
      rw [List.isEmpty_iff] at h
      rw [h] at hp
      cases hp
  refine ⟨?_, hnone, hempty⟩
  constructor
  · rintro ⟨check, hl⟩
    obtain ⟨v', hv', h1, h2, _⟩ := containmentBuilder_ok polarity d check hl
    rw [hv] at hv'
    injection hv' with hv'
    subst hv'
    exact ⟨h1, h2⟩
  · rintro ⟨h1, h2⟩
    unfold containmentBuilder
    simp only [hv]
    rw [if_neg, if_neg]
    · exact ⟨_, rfl⟩
    · rw [List.any_eq_true]
      rintro ⟨p, hp, hpe⟩
      apply h2 p hp
      simpa using hpe
    · intro h
      rw [List.isEmpty_iff] at h
      exact h1 h

/-- C32. Building s_contains, and likewise s_not_contains, from a string-valued definition
fails with a runtime error when the expression has no parameter after the operator name and
when a parameter is empty, wherever it stands; it succeeds when there is at least one
parameter and none is empty. -/
theorem containment_build_iff (d : DocumentValue) (v : String) (hv : d.value = .str v) :
    (((∃ check, opBuilderHelperStringContains d = .ok check) ↔
        ((split v '/').drop 1 ≠ [] ∧ ∀ p ∈ (split v '/').drop 1, p.data ≠ [])) ∧
      ((∃ check, opBuilderHelperStringNotContains d = .ok check) ↔
        ((split v '/').drop 1 ≠ [] ∧ ∀ p ∈ (split v '/').drop 1, p.data ≠ []))) ∧
    ((split v '/').drop 1 = [] →
      opBuilderHelperStringContains d =
          .error (.runtime_error "Invalid number of parameters") ∧
        opBuilderHelperStringNotContains d =
          .error (.runtime_error "Invalid number of parameters")) ∧
    ((∃ p ∈ (split v '/').drop 1, p.data = []) →
      opBuilderHelperStringContains d = .error (.runtime_error "Empty parameter") ∧
        opBuilderHelperStringNotContains d = .error (.runtime_error "Empty parameter")) :=
  ⟨⟨(containmentBuilder_iff true d v hv).1, (containmentBuilder_iff false d v hv).1⟩,
    fun h => ⟨(containmentBuilder_iff true d v hv).2.1 h,
      (containmentBuilder_iff false d v hv).2.1 h⟩,
    fun h => ⟨(containmentBuilder_iff true d v hv).2.2 h,
      (containmentBuilder_iff false d v hv).2.2 h⟩⟩

theorem containment_build_iff_witness :
    (∃ check, opBuilderHelperStringContains
      ⟨"fieldToCompare", .str "+s_contains/First/Second"⟩ = .ok check) ∧
    opBuilderHelperStringContains ⟨"fieldToCompare", .str "+s_contains"⟩ =
      .error (.runtime_error "Invalid number of parameters") ∧
    opBuilderHelperStringContains ⟨"fieldToCompare", .str "+s_contains//"⟩ =
      .error (.runtime_error "Empty parameter") ∧
    opBuilderHelperStringContains ⟨"Field", .str "+s_contains/First//Third"⟩ =
      .error (.runtime_error "Empty parameter") ∧
    opBuilderHelperStringNotContains ⟨"Field", .str "+s_not_contains/First//Third"⟩ =
      .error (.runtime_error "Empty parameter") :=
  ⟨(containment_build_iff ⟨"fieldToCompare", .str "+s_contains/First/Second"⟩
      "+s_contains/First/Second" rfl).1.1.mpr (by decide),
    ((containment_build_iff ⟨"fieldToCompare", .str "+s_contains"⟩
      "+s_contains" rfl).2.1 (by decide)).1,
    ((containment_build_iff ⟨"fieldToCompare", .str "+s_contains//"⟩
      "+s_contains//" rfl).2.2 (by decide)).1,
    ((containment_build_iff ⟨"Field", .str "+s_contains/First//Third"⟩
      "+s_contains/First//Third" rfl).2.2 (by decide)).1,
    ((containment_build_iff ⟨"Field", .str "+s_not_contains/First//Third"⟩
      "+s_not_contains/First//Third" rfl).2.2 (by decide)).2⟩

/-! ## Frame of the map operators -/

/-- The string transformation returns the event as received or with the target written. -/
theorem stringTransformation_writes_target (field : String) (op : Char) (e e' : Event)
    (refValue value : Option String)
    (h : opBuilderHelperStringTransformation field op e refValue value = .ok e') :
    e' = e ∨ ∃ v, e' = e.setValue field v := by
  unfold opBuilderHelperStringTransformation at h
  simp only at h
  split at h
  · injection h with h
    exact Or.inl h.symm
  · cases h
  · split_ifs at h
    · injection h with h
      exact Or.inr ⟨_, h.symm⟩
    · injection h with h
      exact Or.inr ⟨_, h.symm⟩

/-- The integer transformation returns the event as received or with the target written. -/
theorem intTransformation_writes_target (field op : String) (e e' : Event)
    (refValue : Option String) (value : Option Int)
    (h : opBuilderHelperIntTransformation field op e refValue value = .ok e') :
    e' = e ∨ ∃ v, e' = e.setValue field v := by
  unfold opBuilderHelperIntTransformation at h
  simp only at h
  split at h
  · split at h
    · split at h
      · injection h with h
        exact Or.inl h.symm
      · cases h
      · split at h
        · injection h with h
          exact Or.inr ⟨_, h.symm⟩
        · injection h with h
          exact Or.inl h.symm
        · cases h
    · injection h with h
      exact Or.inl h.symm
  · injection h with h
    exact Or.inl h.symm

theorem caseLifter_writes_target (key : String) (op : Char) (a b : Option String) (e : Event)
    (r : Event × List String) (h : caseLifter key op a b e = .ok r) :
    r.1 = e ∨ ∃ v, r.1 = e.setValue key v := by
  unfold caseLifter at h
  cases ht : opBuilderHelperStringTransformation key op e a b with
  | error ex => simp [ht] at h
  | ok e' =>
    simp only [ht, Except.ok.injEq] at h
    rw [← h]
    exact stringTransformation_writes_target key op e e' a b ht

theorem intCalcLifter_writes_target (field op : String) (a : Option String) (b : Option Int)
    (e : Event) (r : Event × List String) (h : intCalcLifter field op a b e = .ok r) :
    r.1 = e ∨ ∃ v, r.1 = e.setValue field v := by
  unfold intCalcLifter at h
  cases ht : opBuilderHelperIntTransformation field op e a b with
  | error ex => simp [ht] at h
  | ok e' =>
    simp only [ht, Except.ok.injEq] at h
    rw [← h]
    exact intTransformation_writes_target field op e e' a b ht

theorem trimLifter_writes_target (field : String) (trimType : Char) (trimChar : String)
    (e : Event) (r : Event × List String) (h : trimLifter field trimType trimChar e = .ok r) :
    r.1 = e ∨ ∃ v, r.1 = e.setValue field v := by
  unfold trimLifter at h
  split at h
  · split at h
    · injection h with h
      rw [← h]
      exact Or.inr ⟨_, rfl⟩
    · cases h
  · injection h with h
    rw [← h]
    exact Or.inl rfl

theorem concatLifter_writes_target (field : String) (params : List String) (s f : String)
    (e : Event) (r : Event × List String) (h : concatLifter field params s f e = .ok r) :
    r.1 = e ∨ ∃ v, r.1 = e.setValue field v := by
  unfold concatLifter at h
  split at h
  · injection h with h
    rw [← h]
    exact Or.inr ⟨_, rfl⟩
  · injection h with h
    rw [← h]
    exact Or.inl rfl
  · cases h

/-- An event that is the one received, or that one with the target written, holds at every
field unrelated to the target what the event received held. -/
theorem frame_of_writes_target (e e' : Event) (target q : String)
    (h : e' = e ∨ ∃ v, e' = e.setValue target v) (hu : UnrelatedPaths target q) :
    e'.getEventValue q = e.getEventValue q := by
  rcases h with h | ⟨v, h⟩
  · rw [h]
  · rw [h]
    exact getEventValue_setValue_unrelated e target q v hu

/-- C37 (amended). For every event and every built s_up, s_lo, s_trim, s_concat or i_calc
operator, every field unrelated to the target field (a field that is not the target, does not
lie inside it and does not contain it) has the same value after the application as before,
and no such field is added or removed. -/
theorem map_operators_frame (e : Event) (d : DocumentValue) (lifter : Lifter)
    (hb : opBuilderHelperStringUP d = .ok lifter ∨ opBuilderHelperStringLO d = .ok lifter ∨
      opBuilderHelperStringTrim d = .ok lifter ∨ opBuilderHelperIntCalc d = .ok lifter ∨
      ∃ docStr, opBuilderHelperStringConcat docStr d = .ok lifter)
    (r : Event × List String) (hr : lifter e = .ok r) (q : String)
    (hu : UnrelatedPaths (formatJsonPath (cstr d.name)) q) :
    r.1.getEventValue q = e.getEventValue q := by
  apply frame_of_writes_target e r.1 (formatJsonPath (cstr d.name)) q _ hu
  rcases hb with hb | hb | hb | hb | ⟨docStr, hb⟩
  · obtain ⟨v, t0, p1, _, _, hl⟩ := opBuilderHelperStringUP_ok d lifter hb
    rw [hl] at hr
    exact caseLifter_writes_target _ _ _ _ e r hr
  · obtain ⟨v, t0, p1, _, _, hl⟩ := opBuilderHelperStringLO_ok d lifter hb
    rw [hl] at hr
    exact caseLifter_writes_target _ _ _ _ e r hr
  · obtain ⟨v, t0, mode, trimChar, c, _, _, _, _, hl⟩ :=
      opBuilderHelperStringTrim_ok d lifter hb
    rw [hl] at hr
    exact trimLifter_writes_target _ _ _ e r hr
  · obtain ⟨v, t0, op, p2, _, _, _, _, hl⟩ := opBuilderHelperIntCalc_ok d lifter hb
    rcases hl with ⟨_, hl⟩ | ⟨_, n, _, hl⟩
    · rw [hl] at hr
      exact intCalcLifter_writes_target _ _ _ _ e r hr
    · rw [hl] at hr
      exact intCalcLifter_writes_target _ _ _ _ e r hr
  · obtain ⟨v, _, _, _, hl⟩ := opBuilderHelperStringConcat_ok docStr d lifter hb
    rw [hl] at hr
    exact concatLifter_writes_target _ _ _ _ e r hr

theorem map_operators_frame_witness :
    caseLifter "/a/b" 'u' none (some "x")
        ⟨false, .obj [("a", .obj [("c", .int 1)]), ("g", .int 2)]⟩ =
      .ok (⟨false, .obj [("a", .obj [("c", .int 1), ("b", .str "X")]), ("g", .int 2)]⟩, []) ∧
    EventHandler.getEventValue
        ⟨false, .obj [("a", .obj [("c", .int 1), ("b", .str "X")]), ("g", .int 2)]⟩ "/g" =
      EventHandler.getEventValue
        ⟨false, .obj [("a", .obj [("c", .int 1)]), ("g", .int 2)]⟩ "/g" :=
  ⟨rfl, map_operators_frame ⟨false, .obj [("a", .obj [("c", .int 1)]), ("g", .int 2)]⟩
    ⟨"a.b", .str "+s_up/x"⟩ (caseLifter "/a/b" 'u' none (some "x")) (Or.inl rfl)
    (⟨false, .obj [("a", .obj [("c", .int 1), ("b", .str "X")]), ("g", .int 2)]⟩, []) rfl "/g"
    ⟨["a", "b"], ["g"], rfl, rfl, by unfold Unrelated; decide⟩⟩

theorem map_operators_frame_counterexample :
    opBuilderHelperStringUP ⟨"a.b", .str "+s_up/x"⟩ =
      .ok (caseLifter "/a/b" 'u' none (some "x")) ∧
    caseLifter "/a/b" 'u' none (some "x") ⟨false, .obj [("g", .int 2)]⟩ =
      .ok (⟨false, .obj [("g", .int 2), ("a", .obj [("b", .str "X")])]⟩, []) ∧
    EventHandler.getEventValue ⟨false, .obj [("g", .int 2)]⟩ "/a" = none ∧
    EventHandler.getEventValue
        ⟨false, .obj [("g", .int 2), ("a", .obj [("b", .str "X")])]⟩ "/a" =
      some (.obj [("b", .str "X")]) ∧
    "/a" ≠ "/a/b" :=
  ⟨rfl, rfl, rfl, rfl, by decide⟩

/-! ## A write over a write -/

theorem setPath_nest_other (ts : List String) (x y : Json) :
    (nest ts x).setPath ts y = some (nest ts y) := by
  induction ts with
  | nil => cases x <;> rfl
  | cons t ts ih => simp [nest, Json.setPath, findMember, ih, replaceMember]

theorem replaceMember_replaceMember (k : String) (v w : Json) (kvs : List (String × Json)) :
    replaceMember k w (replaceMember k v kvs) = replaceMember k w kvs := by
  induction kvs with
  | nil => rfl
  | cons kv rest ih =>
    obtain ⟨k', v'⟩ := kv
    by_cases h : k' = k
    · simp [replaceMember, h]
    · simp [replaceMember, h, ih]

theorem replaceMember_append_new (k : String) (v w : Json) (kvs : List (String × Json))
    (h : findMember k kvs = none) :
    replaceMember k w (kvs ++ [(k, v)]) = kvs ++ [(k, w)] := by
  induction kvs with
  | nil => simp [replaceMember]
  | cons kv rest ih =>
    obtain ⟨k', v'⟩ := kv
    by_cases hk : k' = k
    · simp [findMember, hk] at h
    · simp only [findMember, hk, if_false] at h
      simp [replaceMember, hk, ih h]

/-- A write at a path where a write was accepted gives what it gives without the first
write. -/
theorem setPath_setPath (ts : List String) (x y : Json) :
    ∀ d d' : Json, d.setPath ts x = some d' → d'.setPath ts y = d.setPath ts y := by
  induction ts with
  | nil =>
    intro d d' h
    cases d <;> cases d' <;> rfl
  | cons t ts ih =>
    intro d d' h
    cases d with
    | obj kvs =>
      simp only [Json.setPath] at h
      cases hf : findMember t kvs with
      | none =>
        simp only [hf, Option.some.injEq] at h
        subst h
        have h1 := findMember_append_new t (nest ts x) kvs hf
        simp [Json.setPath, h1, hf, setPath_nest_other, replaceMember_append_new _ _ _ _ hf]
      | some c =>
        simp only [hf] at h
        cases hs : c.setPath ts x with
        | none => simp [hs] at h
        | some c' =>
          simp only [hs, Option.some.injEq] at h
          subst h
          have h1 := findMember_replaceMember t c' kvs c hf
          simp only [Json.setPath, h1, hf, ih c c' hs]
          cases c.setPath ts y with
          | none => rfl
          | some c'' => simp [replaceMember_replaceMember]
    | arr xs =>
      simp only [Json.setPath] at h
      cases hi : tokenIndex t with
      | none => simp [hi] at h
      | some i =>
        simp only [hi] at h
        cases hx : xs[i]? with
        | none => simp [hx] at h
        | some c =>
          simp only [hx] at h
          cases hs : c.setPath ts x with
          | none => simp [hs] at h
          | some c' =>
            simp only [hs, Option.some.injEq] at h
            subst h
            have hlt : i < xs.length := by
              rcases List.getElem?_eq_some.mp hx with ⟨hlt, _⟩
              exact hlt
            simp only [Json.setPath, hi, List.getElem?_set_self hlt, hx, ih c c' hs]
            cases c.setPath ts y with
            | none => rfl
            | some c'' => simp [List.set_set]
    | null => simp [Json.setPath] at h
    | bool b => simp [Json.setPath] at h
    | int n => simp [Json.setPath] at h
    | str s => simp [Json.setPath] at h

/-- A write over a write at the same path is the second write alone. -/
theorem setValue_setValue (e : Event) (path : String) (x y : Json) :
    (e.setValue path x).setValue path y = e.setValue path y := by
  unfold EventHandler.setValue Document.set
  cases hp : pointerTokens path with
  | none => simp
  | some ts =>
    cases hs : e.event.setPath ts x with
    | none => simp [hp, hs]
    | some d' =>
      have h1 := setPath_setPath ts x y e.event d' hs
      obtain ⟨d'', h2⟩ := setPath_isSome_of_getPath ts y d' x (getPath_setPath ts x e.event d' hs)
      rw [h2] at h1
      simp [hp, hs, h2, ← h1]

/-! ## The two-sided trim and the one-sided trims -/

theorem trimSpec_end_begin (c : Char) (l : List Char) :
    trimSpec "end" c (trimSpec "begin" c l) = trimSpec "both" c l := by
  unfold trimSpec
  rw [if_neg (by decide), if_pos rfl, if_pos rfl, if_neg (by decide), if_neg (by decide)]

theorem trimSpec_begin_end (c : Char) (l : List Char) :
    trimSpec "begin" c (trimSpec "end" c l) = trimSpec "both" c l := by
  unfold trimSpec
  rw [if_pos rfl, if_neg (by decide), if_pos rfl, if_neg (by decide), if_neg (by decide)]
  exact dropWhile_rdropWhile_comm _ l

/-- A one-sided trim after another, in terms of the trimmed texts. -/
theorem trimLifter_compose (field m1 m2 trimChar : String) (c : Char) (e : Event)
    (h1 : m1 = "begin" ∨ m1 = "end" ∨ m1 = "both")
    (h2 : m2 = "begin" ∨ m2 = "end" ∨ m2 = "both") (hc : trimChar.data = [c]) :
    (∀ s, e.getEventValue field = some (.str s) →
      ∃ e2, trimLifter field (trimTypeOf m1) trimChar e = .ok (e2, []) ∧
        trimLifter field (trimTypeOf m2) trimChar e2 =
          .ok (e.setValue field
            (.str ⟨trimSpec m2 c (trimSpec m1 c (cstr s).data)⟩), [])) ∧
    ((∀ s, e.getEventValue field ≠ some (.str s)) →
      trimLifter field (trimTypeOf m1) trimChar e = .ok (e, []) ∧
        trimLifter field (trimTypeOf m2) trimChar e = .ok (e, [])) := by
  constructor
  · intro s hg
    refine ⟨_, trimLifter_string field m1 trimChar c e s h1 hc hg, ?_⟩
    have hacc := set_accepted_of_getEventValue e field
      (.str ⟨trimSpec m1 c (cstr s).data⟩) (.str s) hg
    have hg2 := getEventValue_setValue e field (.str ⟨trimSpec m1 c (cstr s).data⟩) hacc
    rw [trimLifter_string field m2 trimChar c _ _ h2 hc hg2, setValue_setValue]
    have hnf : NulFree ⟨trimSpec m1 c (cstr s).data⟩ := by
      intro x hx
      exact cstr_nulFree s x (trimSpec_subset m1 c _ x hx)
    rw [cstr_eq_self _ hnf]
  · intro hn
    exact ⟨trimLifter_not_string field _ trimChar e hn,
      trimLifter_not_string field _ trimChar e hn⟩

/-- The lifter a build of s_trim returned, for known tokens. -/
theorem trimLifter_of_build (d : DocumentValue) (lifter : Lifter) (v t0 mode trimChar : String)
    (hb : opBuilderHelperStringTrim d = .ok lifter)
    (hv : d.value = .str v) (hs : split (cstr v) '/' = [t0, mode, trimChar]) :
    lifter = trimLifter (formatJsonPath (cstr d.name)) (trimTypeOf mode) trimChar ∧
      ∃ c, trimChar.data = [c] := by
  obtain ⟨v', t0', mode', trimChar', c, hv', hs', _, hc, hl⟩ :=
    opBuilderHelperStringTrim_ok d lifter hb
  rw [hv] at hv'
  injection hv' with hv'
  subst hv'
  rw [hs] at hs'
  injection hs' with h1 hs'
  injection hs' with h2 hs'
  injection hs' with h3 _
  subst h1 h2 h3
  exact ⟨hl, c, hc⟩

/-- C38. For every event and every trim character, the operator s_trim/both/c produces the
same event as s_trim/begin/c followed by s_trim/end/c, and the same event as s_trim/end/c
followed by s_trim/begin/c, all three built for the same target field. -/
theorem s_trim_both_is_begin_and_end (dboth dbegin dend : DocumentValue)
    (lboth lbegin lend : Lifter) (vb vs ve t0 t1 t2 trimChar : String) (e : Event)
    (hn1 : dbegin.name = dboth.name) (hn2 : dend.name = dboth.name)
    (hb : opBuilderHelperStringTrim dboth = .ok lboth)
    (hvb : dboth.value = .str vb) (hsb : split (cstr vb) '/' = [t0, "both", trimChar])
    (hs : opBuilderHelperStringTrim dbegin = .ok lbegin)
    (hvs : dbegin.value = .str vs) (hss : split (cstr vs) '/' = [t1, "begin", trimChar])
    (he : opBuilderHelperStringTrim dend = .ok lend)
    (hve : dend.value = .str ve) (hse : split (cstr ve) '/' = [t2, "end", trimChar]) :
    ∃ e1, lboth e = .ok (e1, []) ∧
      (∃ e2, lbegin e = .ok (e2, []) ∧ lend e2 = .ok (e1, [])) ∧
      (∃ e3, lend e = .ok (e3, []) ∧ lbegin e3 = .ok (e1, [])) := by
  obtain ⟨hlb, c, hc⟩ := trimLifter_of_build dboth lboth vb t0 "both" trimChar hb hvb hsb
  obtain ⟨hls, _⟩ := trimLifter_of_build dbegin lbegin vs t1 "begin" trimChar hs hvs hss
  obtain ⟨hle, _⟩ := trimLifter_of_build dend lend ve t2 "end" trimChar he hve hse
  rw [hn1] at hls
  rw [hn2] at hle
  subst hlb hls hle
  have hbe := trimLifter_compose (formatJsonPath (cstr dboth.name)) "begin" "end" trimChar c e
    (Or.inl rfl) (Or.inr (Or.inl rfl)) hc
  have heb := trimLifter_compose (formatJsonPath (cstr dboth.name)) "end" "begin" trimChar c e
    (Or.inr (Or.inl rfl)) (Or.inl rfl) hc
  by_cases hstr : ∃ s, e.getEventValue (formatJsonPath (cstr dboth.name)) = some (.str s)
  · obtain ⟨s, hg⟩ := hstr
    refine ⟨_, trimLifter_string _ "both" trimChar c e s (Or.inr (Or.inr rfl)) hc hg, ?_, ?_⟩
    · obtain ⟨e2, h1, h2⟩ := hbe.1 s hg
      rw [trimSpec_end_begin] at h2
      exact ⟨e2, h1, h2⟩
    · obtain ⟨e3, h1, h2⟩ := heb.1 s hg
      rw [trimSpec_begin_end] at h2
      exact ⟨e3, h1, h2⟩
  · have hn : ∀ s, e.getEventValue (formatJsonPath (cstr dboth.name)) ≠ some (.str s) :=
      fun s hs => hstr ⟨s, hs⟩
    refine ⟨e, trimLifter_not_string _ _ trimChar e hn, ?_, ?_⟩
    · exact ⟨e, (hbe.2 hn).1, (hbe.2 hn).2⟩
    · exact ⟨e, (heb.2 hn).1, (heb.2 hn).2⟩

theorem s_trim_both_is_begin_and_end_witness :
    ∃ e1, trimLifter "/f" 'b' "-" ⟨false, .obj [("f", .str "--a-b--")]⟩ = .ok (e1, []) ∧
      (∃ e2, trimLifter "/f" 's' "-" ⟨false, .obj [("f", .str "--a-b--")]⟩ = .ok (e2, []) ∧
        trimLifter "/f" 'e' "-" e2 = .ok (e1, [])) ∧
      (∃ e3, trimLifter "/f" 'e' "-" ⟨false, .obj [("f", .str "--a-b--")]⟩ = .ok (e3, []) ∧
        trimLifter "/f" 's' "-" e3 = .ok (e1, [])) :=
  s_trim_both_is_begin_and_end ⟨"f", .str "+s_trim/both/-"⟩ ⟨"f", .str "+s_trim/begin/-"⟩
    ⟨"f", .str "+s_trim/end/-"⟩ (trimLifter "/f" 'b' "-") (trimLifter "/f" 's' "-")
    (trimLifter "/f" 'e' "-") "+s_trim/both/-" "+s_trim/begin/-" "+s_trim/end/-"
    "+s_trim" "+s_trim" "+s_trim" "-" ⟨false, .obj [("f", .str "--a-b--")]⟩
    rfl rfl rfl rfl rfl rfl rfl rfl rfl rfl rfl

/-! ## Strings in arrays -/

theorem cstr_data_ne_nul (s : String) : ∀ c ∈ (cstr s).data, (c != '\x00') = true := by
  intro c hc
  have := cstr_nulFree s c hc
  simpa using this

theorem stringIn_append_nul (a rest : List Char) (h : ∀ c ∈ a, (c != '\x00') = true) :
    stringIn (a ++ '\x00' :: rest) = ⟨a⟩ := by
  unfold stringIn
  rw [List.takeWhile_append_of_pos h]
  simp [List.takeWhile]

theorem stringIn_arrayOf (s : String) : stringIn (arrayOf s) = cstr s := by
  unfold arrayOf
  rw [stringIn_append_nul _ _ (cstr_data_ne_nul s)]

theorem strlen_arrayOf (s : String) : strlen (arrayOf s) = (cstr s).data.length := by
  unfold strlen
  rw [stringIn_arrayOf]

theorem cstr_cstr (s : String) : cstr (cstr s) = cstr s :=
  cstr_eq_self _ (cstr_nulFree s)

theorem front0_cstr_ne_nul (s : String) (h : (cstr s).data ≠ []) : front0 (cstr s) ≠ '\x00' := by
  unfold front0
  cases hd : (cstr s).data with
  | nil => exact absurd hd h
  | cons c cs =>
    simp only [List.headD_cons]
    apply cstr_nulFree s c
    rw [hd]
    exact List.mem_cons_self _ _

theorem charAt_nat (m : List Char) (i : Nat) (h : i < m.length) :
    charAt m (i : Int) = .ok (m.getD i '\x00') := by
  unfold charAt
  rw [if_pos ⟨by omega, by omega⟩]
  simp

theorem assignAt_nat (m : List Char) (i : Nat) (c : Char) (h : i < m.length) :
    assignAt m (i : Int) c = .ok (m.set i c) := by
  unfold assignAt
  rw [if_pos ⟨by omega, by omega⟩]
  simp

/-! ## The backup of the reading context -/

/-- C36. For every buffer that holds a string which is not empty, after
`oslog_ctxt_backup(b, ctxt)` the call `oslog_ctxt_restore(out, ctxt)` returns true and leaves
in `out` the string of `b`; after `oslog_ctxt_clean(ctxt)` it returns false and leaves `out` as
it was. -/
theorem ctxt_backup_restore_round_trip (b out : String) (ctxt : w_oslog_ctxt_t) (now : Int) :
    ((cstr b).data ≠ [] →
      oslog_ctxt_restore out (oslog_ctxt_backup now b ctxt) = (true, cstr b)) ∧
    oslog_ctxt_restore out (oslog_ctxt_clean ctxt) = (false, out) := by
  constructor
  · intro h
    unfold oslog_ctxt_restore oslog_ctxt_backup
    simp only
    rw [if_neg (front0_cstr_ne_nul b h), cstr_cstr]
  · rfl

theorem ctxt_backup_restore_round_trip_witness :
    oslog_ctxt_restore "out" (oslog_ctxt_backup 1604900708 "a log\n" ⟨"", 0⟩) =
      (true, "a log\n") ∧
    oslog_ctxt_restore "out"
        (oslog_ctxt_clean (oslog_ctxt_backup 1604900708 "a log\n" ⟨"", 0⟩)) =
      (false, "out") :=
  ⟨(ctxt_backup_restore_round_trip "a log\n" "out" ⟨"", 0⟩ 1604900708).1 (by decide),
    (ctxt_backup_restore_round_trip "a log\n" "out"
      (oslog_ctxt_backup 1604900708 "a log\n" ⟨"", 0⟩) 0).2⟩

/-! ## The last line of a buffer -/

theorem lastIndexOf_eq_none_iff (c : Char) (l : List Char) :
    lastIndexOf c l = none ↔ ∀ j : Nat, l[j]? ≠ some c := by
  induction l with
  | nil => simp [lastIndexOf]
  | cons x xs ih =>
    unfold lastIndexOf
    cases hl : lastIndexOf c xs with
    | some i =>
      simp only [false_iff, not_forall, not_not, reduceCtorEq]
      have : ¬ ∀ j : Nat, xs[j]? ≠ some c := fun h => by
        rw [ih.mpr h] at hl
        cases hl
      simp only [not_forall, not_not] at this
      obtain ⟨j, hj⟩ := this
      exact ⟨j + 1, by simpa using hj⟩
    | none =>
      have hxs := ih.mp hl
      simp only
      by_cases hx : x = c
      · simp only [hx, if_true, false_iff, not_forall, not_not, reduceCtorEq]
        exact ⟨0, by simp⟩
      · simp only [hx, if_false, true_iff]
        intro j
        cases j with
        | zero => simpa using hx
        | succ k => simpa using hxs k

theorem lastIndexOf_eq_some_iff (c : Char) (l : List Char) :
    ∀ i : Nat, lastIndexOf c l = some i ↔
      (l[i]? = some c ∧ ∀ j : Nat, i < j → l[j]? ≠ some c) := by
  induction l with
  | nil =>
    intro i
    simp [lastIndexOf]
  | cons x xs ih =>
    intro i
    unfold lastIndexOf
    cases hl : lastIndexOf c xs with
    | some k =>
      have hk := (ih k).mp hl
      simp only [Option.some.injEq]
      constructor
      · intro h
        subst h
        refine ⟨by simpa using hk.1, ?_⟩
        intro j hj
        cases j with
        | zero => omega
        | succ j' =>
          have := hk.2 j' (by omega)
          simpa using this
      · rintro ⟨h1, h2⟩
        by_contra hne
        rcases Nat.lt_or_gt_of_ne hne with hlt | hgt
        · cases i with
          | zero => omega
          | succ i' =>
            have := hk.2 i' (by omega)
            apply this
            simpa using h1
        · have := h2 (k + 1) (by omega)
          apply this
          simpa using hk.1
    | none =>
      have hxs := (lastIndexOf_eq_none_iff c xs).mp hl
      simp only
      by_cases hx : x = c
      · simp only [hx, if_true, Option.some.injEq]
        constructor
        · intro h
          subst h
          refine ⟨by simp, ?_⟩
          intro j hj
          cases j with
          | zero => omega
          | succ j' => simpa using hxs j'
        · rintro ⟨h1, _⟩
          cases i with
          | zero => rfl
          | succ i' =>
            exfalso
            apply hxs i'
            simpa using h1
      · simp only [hx, if_false, false_iff, not_and, reduceCtorEq]
        intro h1
        cases i with
        | zero =>
          exfalso
          apply hx
          simpa using h1
        | succ i' =>
          exfalso
          apply hxs i'
          simpa using h1

/-- The function on a buffer that holds the empty string. -/
theorem oslog_get_valid_lastline_empty (s : String) (h : (cstr s).data = []) :
    oslog_get_valid_lastline (some s) = .ok (none, some (cstr s)) := by
  unfold oslog_get_valid_lastline
  have hm : arrayOf s = ['\x00'] := by simp [arrayOf, h]
  have h0 : charAt (arrayOf s) 0 = .ok '\x00' := by
    rw [hm]
    rfl
  simp only [h0, if_true, stringIn_arrayOf]

/-- The function on a buffer that holds the characters `init` and then `last`. -/
theorem oslog_get_valid_lastline_concat (s : String) (init : List Char) (last : Char)
    (h : (cstr s).data = init ++ [last]) :
    oslog_get_valid_lastline (some s) = .ok (lastIndexOf '\n' init, some (cstr s)) := by
  have hnf : ∀ c ∈ init ++ [last], (c != '\x00') = true := by
    rw [← h]
    exact cstr_data_ne_nul s
  have hinit : ∀ c ∈ init, (c != '\x00') = true :=
    fun c hc => hnf c (List.mem_append_left _ hc)
  have hm : arrayOf s = init ++ [last, '\x00'] := by simp [arrayOf, h]
  have hlen : strlen (arrayOf s) = init.length + 1 := by
    rw [strlen_arrayOf, h]
    simp
  have hidx : ((strlen (arrayOf s) : Nat) : Int) - 1 = ((init.length : Nat) : Int) := by
    rw [hlen]
    push_cast
    omega
  have hlt : init.length < (arrayOf s).length := by
    rw [hm]
    simp
  have h0 : ∃ c0, charAt (arrayOf s) 0 = .ok c0 ∧ c0 ≠ '\x00' := by
    have := charAt_nat (arrayOf s) 0 (by omega)
    refine ⟨_, this, ?_⟩
    rw [hm]
    cases init with
    | nil =>
      have := hnf last (by simp)
      simpa using this
    | cons a rest =>
      have := hnf a (by simp)
      simpa using this
  obtain ⟨c0, hc0, hne0⟩ := h0
  have h1 : charAt (arrayOf s) ((init.length : Nat) : Int) = .ok last := by
    have hget : (init ++ [last, '\x00'])[init.length]? = some last := by
      rw [List.getElem?_append_right (Nat.le_refl _)]
      simp
    rw [charAt_nat _ _ hlt, hm, List.getD_eq_getElem?_getD, hget]
    rfl
  have h2 : assignAt (arrayOf s) ((init.length : Nat) : Int) '\x00' =
      .ok (init ++ ['\x00', '\x00']) := by
    rw [assignAt_nat _ _ _ hlt, hm]
    simp
  have h3 : assignAt (init ++ ['\x00', '\x00']) ((init.length : Nat) : Int) last =
      .ok (arrayOf s) := by
    rw [assignAt_nat _ _ _ (by simp), hm]
    simp
  have h4 : strrchr (init ++ ['\x00', '\x00']) '\n' = lastIndexOf '\n' init := by
    unfold strrchr
    rw [stringIn_append_nul init ['\x00'] hinit]
  unfold oslog_get_valid_lastline
  simp only [hc0, if_neg hne0, hidx, h1, h2, h3, h4, stringIn_arrayOf]

/-- C34. The function oslog_get_valid_lastline returns the position of the last newline among
the characters of `str` other than its final character, and NULL when `str` is NULL, is empty
or has no newline before its final character; on return `str` holds the characters it held on
entry. -/
theorem oslog_get_valid_lastline_spec :
    oslog_get_valid_lastline none = .ok (none, none) ∧
    ∀ s : String, ∃ r, oslog_get_valid_lastline (some s) = .ok (r, some (cstr s)) ∧
      (∀ i : Nat, r = some i ↔
        (i + 1 < (cstr s).data.length ∧ (cstr s).data[i]? = some '\n' ∧
          ∀ j : Nat, i < j → j + 1 < (cstr s).data.length → (cstr s).data[j]? ≠ some '\n')) ∧
      (r = none ↔
        ∀ j : Nat, j + 1 < (cstr s).data.length → (cstr s).data[j]? ≠ some '\n') := by
  refine ⟨rfl, ?_⟩
  intro s
  rcases List.eq_nil_or_concat (cstr s).data with h | ⟨init, last, h⟩
  · refine ⟨none, oslog_get_valid_lastline_empty s h, ?_, ?_⟩
    · intro i
      rw [h]
      simp
    · rw [h]
      simp
  · rw [List.concat_eq_append] at h
    refine ⟨lastIndexOf '\n' init, oslog_get_valid_lastline_concat s init last h, ?_, ?_⟩
    · intro i
      rw [lastIndexOf_eq_some_iff, h]
      have hget : ∀ j : Nat, j < init.length → (init ++ [last])[j]? = init[j]? :=
        fun j hj => List.getElem?_append_left hj
      constructor
      · rintro ⟨h1, h2⟩
        have hi : i < init.length := by
          rcases Nat.lt_or_ge i init.length with hi | hi
          · exact hi
          · rw [List.getElem?_eq_none hi] at h1
            cases h1
        refine ⟨by simp; omega, by rw [hget i hi]; exact h1, ?_⟩
        intro j hij hj
        rw [hget j (by simp at hj; omega)]
        exact h2 j hij
      · rintro ⟨h1, h2, h3⟩
        have hi : i < init.length := by
          simp at h1
          omega
        refine ⟨by rw [← hget i hi]; exact h2, ?_⟩
        intro j hij
        rcases Nat.lt_or_ge j init.length with hj | hj
        · rw [← hget j hj]
          exact h3 j hij (by simp; omega)
        · rw [List.getElem?_eq_none hj]
          simp
    · rw [lastIndexOf_eq_none_iff, h]
      constructor
      · intro h1 j hj
        rw [List.getElem?_append_left (by simp at hj; omega)]
        exact h1 j
      · intro h1 j
        rcases Nat.lt_or_ge j init.length with hj | hj
        · rw [← List.getElem?_append_left hj]
          exact h1 j (by simp; omega)
        · rw [List.getElem?_eq_none hj]
          simp

theorem oslog_get_valid_lastline_spec_witness :
    oslog_get_valid_lastline (some "first\nsecond\nthird\n") =
      .ok (some 12, some "first\nsecond\nthird\n") ∧
    oslog_get_valid_lastline (some "one line\n") = .ok (none, some "one line\n") ∧
    ∃ r, oslog_get_valid_lastline (some "first\nsecond\nthird\n") =
        .ok (r, some (cstr "first\nsecond\nthird\n")) ∧
      (r = none ↔ ∀ j : Nat, j + 1 < (cstr "first\nsecond\nthird\n").data.length →
        (cstr "first\nsecond\nthird\n").data[j]? ≠ some '\n') :=
  ⟨rfl, rfl,
    (oslog_get_valid_lastline_spec.2 "first\nsecond\nthird\n").imp
      (fun _ h => ⟨h.1, h.2.2⟩)⟩

/-! ## Headers of the log stream -/

/-- The last test of a branch on a buffer that holds a string which is not empty. -/
theorem dropEndOfLine_spec (oslog_cfg : w_oslog_config_t) (s : String) (before : List Int)
    (report : String) (hne : (cstr s).data ≠ []) :
    ∃ r, dropEndOfLine oslog_cfg (arrayOf s) (strlen (arrayOf s) : Int) before report = .ok r ∧
      r.retval = true ∧ r.oslog_cfg = oslog_cfg ∧
      ∀ i ∈ r.accessed, i ∈ before ∨ i = ((cstr s).data.length : Int) - 1 := by
  have hpos : 0 < (cstr s).data.length := List.length_pos.mpr hne
  have hidx : ((strlen (arrayOf s) : Nat) : Int) - 1 = (((cstr s).data.length - 1 : Nat) : Int) := by
    rw [strlen_arrayOf]
    omega
  have hlt : (cstr s).data.length - 1 < (arrayOf s).length := by
    rw [arrayOf, List.length_append]
    simp only [List.length_cons, List.length_nil]
    omega
  have hi : (((cstr s).data.length - 1 : Nat) : Int) = ((cstr s).data.length : Int) - 1 := by
    omega
  unfold dropEndOfLine
  rw [hidx, charAt_nat _ _ hlt]
  simp only
  by_cases hc : (arrayOf s).getD ((cstr s).data.length - 1) '\x00' = '\n'
  · rw [if_pos hc, assignAt_nat _ _ _ hlt]
    refine ⟨_, rfl, rfl, rfl, ?_⟩
    intro i hi'
    simp only [List.mem_append, List.mem_cons, List.mem_singleton, List.not_mem_nil,
      or_false, or_self] at hi'
    rcases hi' with h | h
    · exact Or.inl h
    · exact Or.inr (by rw [h, hi])
  · rw [if_neg hc]
    refine ⟨_, rfl, rfl, rfl, ?_⟩
    intro i hi'
    simp only [List.mem_append, List.mem_singleton] at hi'
    rcases hi' with h | h
    · exact Or.inl h
    · exact Or.inr (by rw [h, hi])

/-- A buffer that starts as the error text does holds at least its four characters. -/
theorem strncmp_log_length (s : String)
    (h : strncmp (arrayOf s) (arrayOf LOG_ERROR_STR) LOG_ERROR_LENGHT = true) :
    4 ≤ (cstr s).data.length := by
  unfold strncmp at h
  rw [stringIn_arrayOf, stringIn_arrayOf] at h
  have h2 : (cstr LOG_ERROR_STR).data.take LOG_ERROR_LENGHT = ['l', 'o', 'g', ':'] := by decide
  rw [h2] at h
  have h3 : (cstr s).data.take LOG_ERROR_LENGHT = ['l', 'o', 'g', ':'] := by simpa using h
  have h4 := congrArg List.length h3
  rw [List.length_take] at h4
  simp only [List.length_cons, List.length_nil] at h4
  omega

/-- The function on a line that the start-of-log expression matches. -/
theorem oslog_is_header_match (oslog_cfg : w_oslog_config_t) (buffer : String)
    (hm : oslog_cfg.start_log_regex (cstr buffer) = true) :
    oslog_is_header oslog_cfg buffer =
      .ok ⟨false, { oslog_cfg with is_header_processed := true }, cstr buffer, [], []⟩ := by
  unfold oslog_is_header
  simp only [stringIn_arrayOf, hm, if_true]

/-- The function on a line that the start-of-log expression does not match and that is not
empty. -/
theorem oslog_is_header_other (oslog_cfg : w_oslog_config_t) (buffer : String)
    (hm : oslog_cfg.start_log_regex (cstr buffer) = false)
    (hne : (cstr buffer).data ≠ []) :
    ∃ r, oslog_is_header oslog_cfg buffer = .ok r ∧ r.retval = true ∧
      r.oslog_cfg = oslog_cfg ∧
      ∀ i ∈ r.accessed, 0 ≤ i ∧ i < ((cstr buffer).data.length : Int) := by
  have hpos : 0 < (cstr buffer).data.length := List.length_pos.mpr hne
  unfold oslog_is_header
  simp only [stringIn_arrayOf, hm, Bool.false_eq_true, if_false]
  by_cases hlog : strncmp (arrayOf buffer) (arrayOf LOG_ERROR_STR) LOG_ERROR_LENGHT = true
  · have h4 := strncmp_log_length buffer hlog
    have hidx : ((strlen (arrayOf buffer) : Nat) : Int) - 2 =
        (((cstr buffer).data.length - 2 : Nat) : Int) := by
      rw [strlen_arrayOf]
      omega
    have hlt : (cstr buffer).data.length - 2 < (arrayOf buffer).length := by
      rw [arrayOf, List.length_append]
      simp only [List.length_cons, List.length_nil]
      omega
    rw [if_pos hlog, hidx, charAt_nat _ _ hlt]
    simp only
    by_cases hc : (arrayOf buffer).getD ((cstr buffer).data.length - 2) '\x00' = ':'
    · rw [if_pos hc, assignAt_nat _ _ _ hlt]
      refine ⟨_, rfl, rfl, rfl, ?_⟩
      intro i hi
      simp only [List.mem_cons, List.mem_singleton, List.not_mem_nil, or_false, or_self] at hi
      rw [hi]
      omega
    · rw [if_neg hc, ← hidx]
      obtain ⟨r, hr, h1, h2, h3⟩ := dropEndOfLine_spec oslog_cfg buffer
        [(strlen (arrayOf buffer) : Int) - 2] "merror" hne
      refine ⟨r, hr, h1, h2, ?_⟩
      intro i hi
      rcases h3 i hi with h | h
      · simp only [List.mem_singleton] at h
        rw [h, hidx]
        omega
      · rw [h]
        omega
  · rw [if_neg hlog]
    obtain ⟨r, hr, h1, h2, h3⟩ := dropEndOfLine_spec oslog_cfg buffer [] "mdebug2" hne
    refine ⟨r, hr, h1, h2, ?_⟩
    intro i hi
    rcases h3 i hi with h | h
    · cases h
    · rw [h]
      omega

/-- C35 (amended). The function oslog_is_header returns false if and only if the line matches
the start-of-log expression, and in that case it sets `is_header_processed` to true and leaves
the line unchanged; for every other line that is not empty it returns true and leaves
`is_header_processed` as it was. -/
theorem oslog_is_header_spec (oslog_cfg : w_oslog_config_t) (buffer : String) :
    (oslog_cfg.start_log_regex (cstr buffer) = true →
      ∃ r, oslog_is_header oslog_cfg buffer = .ok r ∧ r.retval = false ∧
        r.oslog_cfg.is_header_processed = true ∧ r.buffer = cstr buffer) ∧
    (oslog_cfg.start_log_regex (cstr buffer) = false → (cstr buffer).data ≠ [] →
      ∃ r, oslog_is_header oslog_cfg buffer = .ok r ∧ r.retval = true ∧
        r.oslog_cfg.is_header_processed = oslog_cfg.is_header_processed) ∧
    (∀ r, oslog_is_header oslog_cfg buffer = .ok r →
      (r.retval = false ↔ oslog_cfg.start_log_regex (cstr buffer) = true)) := by
  refine ⟨?_, ?_, ?_⟩
  · intro hm
    exact ⟨_, oslog_is_header_match oslog_cfg buffer hm, rfl, rfl, rfl⟩
  · intro hm hne
    obtain ⟨r, hr, h1, h2, _⟩ := oslog_is_header_other oslog_cfg buffer hm hne
    exact ⟨r, hr, h1, by rw [h2]⟩
  · intro r hr
    cases hm : oslog_cfg.start_log_regex (cstr buffer) with
    | true =>
      rw [oslog_is_header_match oslog_cfg buffer hm] at hr
      injection hr with hr
      rw [← hr]
      simp
    | false =>
      by_cases hne : (cstr buffer).data = []
      · exfalso
        have hm0 : arrayOf buffer = ['\x00'] := by simp [arrayOf, hne]
        have hs0 : stringIn (arrayOf buffer) = cstr buffer := stringIn_arrayOf buffer
        unfold oslog_is_header at hr
        simp only [hs0, hm, Bool.false_eq_true, if_false] at hr
        have hcmp : strncmp (arrayOf buffer) (arrayOf LOG_ERROR_STR) LOG_ERROR_LENGHT =
            false := by
          rw [hm0]
          decide
        have hlen : strlen (arrayOf buffer) = 0 := by
          rw [strlen_arrayOf, hne]
          rfl
        rw [hcmp, hlen] at hr
        have hch : charAt ['\x00'] (((0 : Nat) : Int) - 1) = .error (.out_of_bounds (-1)) := rfl
        simp only [Bool.false_eq_true, if_false, dropEndOfLine, hm0, hch] at hr
        cases hr
      · obtain ⟨r', hr', h1, _, _⟩ := oslog_is_header_other oslog_cfg buffer hm hne
        rw [hr] at hr'
        injection hr' with hr'
        subst hr'
        simp [h1]

theorem oslog_is_header_spec_witness :
    (∃ r, oslog_is_header ⟨fun s => s.data.take 4 == ['2', '0', '2', '0'], false, ⟨"", 0⟩⟩
        "2020-11-09 05:45:08.000000-0800 a log\n" = .ok r ∧ r.retval = false ∧
      r.oslog_cfg.is_header_processed = true ∧
      r.buffer = cstr "2020-11-09 05:45:08.000000-0800 a log\n") ∧
    ∃ r, oslog_is_header ⟨fun s => s.data.take 4 == ['2', '0', '2', '0'], false, ⟨"", 0⟩⟩
        "Timestamp  Thread\n" = .ok r ∧ r.retval = true ∧
      r.oslog_cfg.is_header_processed = false :=
  ⟨(oslog_is_header_spec ⟨fun s => s.data.take 4 == ['2', '0', '2', '0'], false, ⟨"", 0⟩⟩
      "2020-11-09 05:45:08.000000-0800 a log\n").1 (by decide),
    (oslog_is_header_spec ⟨fun s => s.data.take 4 == ['2', '0', '2', '0'], false, ⟨"", 0⟩⟩
      "Timestamp  Thread\n").2.1 (by decide) (by decide)⟩

theorem oslog_is_header_spec_counterexample :
    (cstr "").data = [] ∧
    oslog_is_header ⟨fun _ => false, false, ⟨"", 0⟩⟩ "" = .error (.out_of_bounds (-1)) :=
  ⟨rfl, rfl⟩

/-- C40. For every line that is not empty, every position of the buffer that oslog_is_header
indexes lies inside the line, between 0 and the length minus 1, and the function returns; a
line that takes the branch of the error text has at least 4 characters. -/
theorem oslog_is_header_in_bounds (oslog_cfg : w_oslog_config_t) (buffer : String)
    (hne : (cstr buffer).data ≠ []) :
    (∃ r, oslog_is_header oslog_cfg buffer = .ok r ∧
      ∀ i ∈ r.accessed, 0 ≤ i ∧ i ≤ ((cstr buffer).data.length : Int) - 1) ∧
    (strncmp (arrayOf buffer) (arrayOf LOG_ERROR_STR) LOG_ERROR_LENGHT = true →
      4 ≤ (cstr buffer).data.length) := by
  refine ⟨?_, strncmp_log_length buffer⟩
  cases hm : oslog_cfg.start_log_regex (cstr buffer) with
  | true =>
    refine ⟨_, oslog_is_header_match oslog_cfg buffer hm, ?_⟩
    intro i hi
    cases hi
  | false =>
    obtain ⟨r, hr, _, _, h3⟩ := oslog_is_header_other oslog_cfg buffer hm hne
    refine ⟨r, hr, ?_⟩
    intro i hi
    have := h3 i hi
    omega

theorem oslog_is_header_in_bounds_witness :
    (∃ r, oslog_is_header ⟨fun _ => false, false, ⟨"", 0⟩⟩ "log: bad predicate:\n" = .ok r ∧
      ∀ i ∈ r.accessed, 0 ≤ i ∧ i ≤ ((cstr "log: bad predicate:\n").data.length : Int) - 1) ∧
    (oslog_is_header ⟨fun _ => false, false, ⟨"", 0⟩⟩ "log: bad predicate:\n").map
        (fun r => (r.retval, r.buffer, r.accessed)) =
      .ok (true, "log: bad predicate", [18, 18]) ∧
    (oslog_is_header ⟨fun _ => false, false, ⟨"", 0⟩⟩ "x").map
        (fun r => (r.retval, r.buffer, r.accessed)) = .ok (true, "x", [0]) :=
  ⟨(oslog_is_header_in_bounds ⟨fun _ => false, false, ⟨"", 0⟩⟩ "log: bad predicate:\n"
      (by decide)).1, rfl, rfl⟩

/-! ## The loop of the reader -/

/-- Without a limit of lines, the loop pushes every log it takes that is not empty. -/
theorem read_oslog_loop_unlimited (stream : List String) :
    ∀ (count_logs : Int) (r : ReadResult),
      (read_oslog_loop 0 0 stream count_logs r).taken = r.taken ++ stream.map cstr ∧
      (read_oslog_loop 0 0 stream count_logs r).pushed =
        r.pushed ++ (stream.map cstr).filter (fun l => !l.data.isEmpty) := by
  induction stream with
  | nil =>
    intro count_logs r
    simp [read_oslog_loop]
  | cons b rest ih =>
    intro count_logs r
    unfold read_oslog_loop
    rw [if_pos (Or.inl rfl)]
    obtain ⟨h1, h2⟩ := ih (wrap32 (count_logs + 1))
      ⟨if (0 : Int) = 0 ∧ 0 < strlen (arrayOf b) then r.pushed ++ [cstr b] else r.pushed,
        r.taken ++ [cstr b]⟩
    rw [h1, h2]
    constructor
    · simp
    · rw [strlen_arrayOf]
      cases hb : (cstr b).data with
      | nil => simp [hb]
      | cons c cs => simp [hb]

/-- Without a limit of lines and with `drop_it == 0`, read_oslog pushes every log that is not
empty among those oslog_getlog returned. -/
theorem read_oslog_unlimited (can_read : Int) (stream : List String) (h : can_read ≠ 0) :
    (read_oslog can_read 0 0 stream).pushed =
      (read_oslog can_read 0 0 stream).taken.filter (fun l => !l.data.isEmpty) := by
  unfold read_oslog
  rw [if_neg h]
  obtain ⟨h1, h2⟩ := read_oslog_loop_unlimited stream 0 ⟨[], []⟩
  rw [h1, h2]
  simp

/-- C39. Evaluation of the code at the failing input: with `maximum_lines` 1 and `drop_it` 0,
on a stream that holds two logs, read_oslog takes both logs from the stream (the condition of
its loop calls oslog_getlog before it compares the count with the limit) and pushes the first
one only; the second log is in no queue and no more in the stream. -/
theorem read_oslog_drops_log_at_limit :
    (read_oslog 1 1 0 ["first log", "second log"]).taken = ["first log", "second log"] ∧
    (read_oslog 1 1 0 ["first log", "second log"]).pushed = ["first log"] :=
  ⟨rfl, rfl⟩

/-! ## The short time stamp -/

theorem utf8Bytes_length (c : Char) : (utf8Bytes c).length = c.utf8Size := by
  unfold utf8Bytes
  rw [List.length_map, String.length_utf8EncodeChar]

/-- The number of bytes of a text is its size. -/
theorem bytesOf_length (s : String) : (bytesOf s).length = s.utf8ByteSize := by
  obtain ⟨l⟩ := s
  unfold bytesOf
  simp only [String.utf8ByteSize]
  induction l with
  | nil => rfl
  | cons c cs ih =>
    simp only [List.flatMap_cons, List.length_append, utf8Bytes_length, String.utf8ByteSize.go]
    rw [ih]
    omega

theorem cstringBytes_ne_nul (s : String) : ∀ c ∈ cstringBytes s, (c != '\x00') = true := by
  intro c hc
  unfold cstringBytes at hc
  have h := List.mem_takeWhile_imp hc
  exact h

theorem strlen_byteArrayOf (s : String) : strlen (byteArrayOf s) = (cstringBytes s).length := by
  unfold strlen byteArrayOf
  rw [stringIn_append_nul _ _ (cstringBytes_ne_nul s)]

theorem memcpy_ok (dst : List Char) (pos : Nat) (src : List Char) (start n : Nat)
    (h1 : start + n ≤ src.length) (h2 : pos + n ≤ dst.length) :
    memcpy dst pos src start n =
      .ok (dst.take pos ++ ((src.drop start).take n ++ dst.drop (pos + n))) := by
  unfold memcpy
  rw [if_neg (by omega), if_neg (by omega)]

/-- The function on a string of the full length: the bytes it copies. -/
theorem w_oslog_trim_full_timestamp_full (L : TimestampLengths) (s : String)
    (hfull : L.OS_LOGCOLLECTOR_FULL_TIMESTAMP_LEN =
      L.OS_LOGCOLLECTOR_BASIC_TIMESTAMP_LEN + L.OS_LOGCOLLECTOR_TIMESTAMP_MS_LEN +
        L.OS_LOGCOLLECTOR_TIMESTAMP_TZ_LEN)
    (hshort : L.OS_LOGCOLLECTOR_SHORT_TIMESTAMP_LEN =
      L.OS_LOGCOLLECTOR_BASIC_TIMESTAMP_LEN + L.OS_LOGCOLLECTOR_TIMESTAMP_TZ_LEN)
    (hpos : 0 < L.OS_LOGCOLLECTOR_FULL_TIMESTAMP_LEN)
    (hlen : (cstringBytes s).length = L.OS_LOGCOLLECTOR_FULL_TIMESTAMP_LEN) :
    w_oslog_trim_full_timestamp L (some s) =
      .ok (some ((cstringBytes s).take L.OS_LOGCOLLECTOR_BASIC_TIMESTAMP_LEN ++
        (cstringBytes s).drop
          (L.OS_LOGCOLLECTOR_BASIC_TIMESTAMP_LEN + L.OS_LOGCOLLECTOR_TIMESTAMP_MS_LEN))) := by
  obtain ⟨B, M, T, S, F⟩ := L
  simp only at hfull hshort hpos hlen ⊢
  subst hfull hshort
  have hnf := cstringBytes_ne_nul s
  have hmlen : (byteArrayOf s).length = B + M + T + 1 := by
    simp [byteArrayOf, hlen]
  have hidx : (((B + M + T : Nat) : Int) - 1) = (((B + M + T - 1 : Nat)) : Int) := by
    omega
  have hc : ∃ c, charAt (byteArrayOf s) (((B + M + T - 1 : Nat)) : Int) = .ok c ∧ c ≠ '\x00' := by
    refine ⟨_, charAt_nat _ _ (by omega), ?_⟩
    have hget : (byteArrayOf s)[B + M + T - 1]? = (cstringBytes s)[B + M + T - 1]? := by
      unfold byteArrayOf
      exact List.getElem?_append_left (by omega)
    rw [List.getD_eq_getElem?_getD, hget]
    have hlt : B + M + T - 1 < (cstringBytes s).length := by omega
    rw [List.getElem?_eq_getElem hlt]
    have := hnf _ (List.getElem_mem hlt)
    simpa using this
  obtain ⟨c, hc1, hc2⟩ := hc
  have h1 := memcpy_ok (List.replicate (B + T + 1) '\x00') 0 (byteArrayOf s) 0 B
    (by omega) (by simp; omega)
  have hs1 : List.take 0 (List.replicate (B + T + 1) '\x00') ++
      ((List.drop 0 (byteArrayOf s)).take B ++ (List.replicate (B + T + 1) '\x00').drop (0 + B)) =
      (cstringBytes s).take B ++ List.replicate (T + 1) '\x00' := by
    simp only [List.take_zero, List.nil_append, List.drop_zero, Nat.zero_add,
      List.drop_replicate]
    congr 1
    · unfold byteArrayOf
      exact List.take_append_of_le_length (by omega)
    · congr 1
      omega
  rw [hs1] at h1
  have htake : ((cstringBytes s).take B).length = B := by
    rw [List.length_take]
    omega
  have h2 := memcpy_ok ((cstringBytes s).take B ++ List.replicate (T + 1) '\x00') B
    (byteArrayOf s)
    (B + M) T (by omega) (by rw [List.length_append, htake, List.length_replicate]; omega)
  have hs2 : List.take B ((cstringBytes s).take B ++ List.replicate (T + 1) '\x00') ++
      ((List.drop (B + M) (byteArrayOf s)).take T ++
        List.drop (B + T) ((cstringBytes s).take B ++ List.replicate (T + 1) '\x00')) =
      ((cstringBytes s).take B ++ (cstringBytes s).drop (B + M)) ++ '\x00' :: [] := by
    have e1 : List.take B ((cstringBytes s).take B ++ List.replicate (T + 1) '\x00') =
        (cstringBytes s).take B := by
      rw [List.take_append_of_le_length (by omega), List.take_of_length_le (by omega)]
    have e2 : (List.drop (B + M) (byteArrayOf s)).take T = (cstringBytes s).drop (B + M) := by
      unfold byteArrayOf
      rw [List.drop_append_of_le_length (by omega),
        List.take_append_of_le_length (by rw [List.length_drop]; omega),
        List.take_of_length_le (by rw [List.length_drop]; omega)]
    have e3 : List.drop (B + T) ((cstringBytes s).take B ++ List.replicate (T + 1) '\x00') =
        ['\x00'] := by
      rw [List.drop_append_eq_append_drop, htake,
        List.drop_of_length_le (by omega), List.drop_replicate]
      have : T + 1 - (B + T - B) = 1 := by omega
      rw [this]
      rfl
    rw [e1, e2, e3, List.append_assoc]
  rw [hs2] at h2
  have hres : stringIn (((cstringBytes s).take B ++ (cstringBytes s).drop (B + M)) ++
      '\x00' :: []) = ⟨(cstringBytes s).take B ++ (cstringBytes s).drop (B + M)⟩ := by
    apply stringIn_append_nul
    intro x hx
    rcases List.mem_append.mp hx with hx | hx
    · exact hnf x (List.mem_of_mem_take hx)
    · exact hnf x (List.mem_of_mem_drop hx)
  unfold w_oslog_trim_full_timestamp
  simp only [w_strlen, strlen_byteArrayOf, hlen, if_true, hidx, hc1, ne_eq, hc2, not_false_eq_true,
    h1, h2, hres]

/-- The function on a string of another length, and on the NULL pointer. -/
theorem w_oslog_trim_full_timestamp_other (L : TimestampLengths)
    (hpos : 0 < L.OS_LOGCOLLECTOR_FULL_TIMESTAMP_LEN) :
    (∀ s : String, (cstringBytes s).length ≠ L.OS_LOGCOLLECTOR_FULL_TIMESTAMP_LEN →
      w_oslog_trim_full_timestamp L (some s) = .ok none) ∧
    w_oslog_trim_full_timestamp L none = .ok none := by
  constructor
  · intro s hne
    unfold w_oslog_trim_full_timestamp
    simp only [w_strlen, strlen_byteArrayOf]
    rw [if_neg hne]
  · unfold w_oslog_trim_full_timestamp
    simp only [w_strlen]
    rw [if_neg (by omega)]

/-- C33. For time stamp lengths in which the full length is the sum of the basic, the
fractional and the time-zone part and the short length the sum of the basic and the time-zone
part, w_oslog_trim_full_timestamp drops the fractional seconds, all lengths counted in bytes:
for every input string of exactly the full length the result is the string of the short length
made of the basic part of the input, immediately followed by its time-zone part; for every
input of another length, the NULL pointer and the empty string among them, the result is
NULL. -/
theorem w_oslog_trim_full_timestamp_spec (L : TimestampLengths)
    (hfull : L.OS_LOGCOLLECTOR_FULL_TIMESTAMP_LEN =
      L.OS_LOGCOLLECTOR_BASIC_TIMESTAMP_LEN + L.OS_LOGCOLLECTOR_TIMESTAMP_MS_LEN +
        L.OS_LOGCOLLECTOR_TIMESTAMP_TZ_LEN)
    (hshort : L.OS_LOGCOLLECTOR_SHORT_TIMESTAMP_LEN =
      L.OS_LOGCOLLECTOR_BASIC_TIMESTAMP_LEN + L.OS_LOGCOLLECTOR_TIMESTAMP_TZ_LEN)
    (hpos : 0 < L.OS_LOGCOLLECTOR_FULL_TIMESTAMP_LEN) :
    (∀ s : String, (cstringBytes s).length = L.OS_LOGCOLLECTOR_FULL_TIMESTAMP_LEN →
      w_oslog_trim_full_timestamp L (some s) =
        .ok (some ((cstringBytes s).take L.OS_LOGCOLLECTOR_BASIC_TIMESTAMP_LEN ++
          (cstringBytes s).drop
            (L.OS_LOGCOLLECTOR_BASIC_TIMESTAMP_LEN + L.OS_LOGCOLLECTOR_TIMESTAMP_MS_LEN))) ∧
      ((cstringBytes s).drop
        (L.OS_LOGCOLLECTOR_BASIC_TIMESTAMP_LEN + L.OS_LOGCOLLECTOR_TIMESTAMP_MS_LEN)).length =
          L.OS_LOGCOLLECTOR_TIMESTAMP_TZ_LEN ∧
      ((cstringBytes s).take L.OS_LOGCOLLECTOR_BASIC_TIMESTAMP_LEN ++
        (cstringBytes s).drop
          (L.OS_LOGCOLLECTOR_BASIC_TIMESTAMP_LEN +
            L.OS_LOGCOLLECTOR_TIMESTAMP_MS_LEN)).length =
          L.OS_LOGCOLLECTOR_SHORT_TIMESTAMP_LEN) ∧
    (∀ s : String, (cstringBytes s).length ≠ L.OS_LOGCOLLECTOR_FULL_TIMESTAMP_LEN →
      w_oslog_trim_full_timestamp L (some s) = .ok none) ∧
    w_oslog_trim_full_timestamp L none = .ok none := by
  refine ⟨?_, (w_oslog_trim_full_timestamp_other L hpos).1,
    (w_oslog_trim_full_timestamp_other L hpos).2⟩
  intro s hlen
  refine ⟨w_oslog_trim_full_timestamp_full L s hfull hshort hpos hlen, ?_, ?_⟩
  · rw [List.length_drop]
    omega
  · rw [List.length_append, List.length_take, List.length_drop]
    omega

theorem w_oslog_trim_full_timestamp_spec_witness :
    w_oslog_trim_full_timestamp ⟨19, 7, 5, 24, 31⟩ (some "2020-11-09 05:45:08.000000-0800") =
      .ok (some "2020-11-09 05:45:08-0800".data) ∧
    w_oslog_trim_full_timestamp ⟨19, 7, 5, 24, 31⟩ (some "2020-11-09 05:45:08.0000é-0800") =
      .ok (some "2020-11-09 05:45:08-0800".data) ∧
    w_oslog_trim_full_timestamp ⟨19, 7, 5, 24, 31⟩ (some "2020-11-09 05:45:08.00000é-0800") =
      .ok none ∧
    w_oslog_trim_full_timestamp ⟨19, 7, 5, 24, 31⟩ (some "2020-11-09 05:45:08-0800") =
      .ok none ∧
    w_oslog_trim_full_timestamp ⟨19, 7, 5, 24, 31⟩ (some "") = .ok none ∧
    w_oslog_trim_full_timestamp ⟨19, 7, 5, 24, 31⟩ none = .ok none :=
  ⟨((w_oslog_trim_full_timestamp_spec ⟨19, 7, 5, 24, 31⟩ rfl rfl (by decide)).1
      "2020-11-09 05:45:08.000000-0800" (by decide)).1,
    ((w_oslog_trim_full_timestamp_spec ⟨19, 7, 5, 24, 31⟩ rfl rfl (by decide)).1
      "2020-11-09 05:45:08.0000é-0800" (by decide)).1,
    (w_oslog_trim_full_timestamp_spec ⟨19, 7, 5, 24, 31⟩ rfl rfl (by decide)).2.1
      "2020-11-09 05:45:08.00000é-0800" (by decide),
    (w_oslog_trim_full_timestamp_spec ⟨19, 7, 5, 24, 31⟩ rfl rfl (by decide)).2.1
      "2020-11-09 05:45:08-0800" (by decide),
    (w_oslog_trim_full_timestamp_spec ⟨19, 7, 5, 24, 31⟩ rfl rfl (by decide)).2.1 ""
      (by decide),
    (w_oslog_trim_full_timestamp_spec ⟨19, 7, 5, 24, 31⟩ rfl rfl (by decide)).2.2⟩

end Wazuh
